import Mathlib

/-! # SingleLinkedList (single-linked-list.h)

A shallow embedding of the class template `SingleLinkedList<Type>` in an
explicit object memory, in its checked (assert-enabled) build.

* A `Node*` is `Option Nat`: `none` is `nullptr`, `some a` the address `a`.
* The memory is a list of cells indexed by address.  A cell holds either a
  `Node` created by `new`, or a `SingleLinkedList` object (its embedded
  sentinel `head_` and its `size_`).  The address of a list object is the
  address of its `head_` member, so `&head_` and `this` are the same number.
* `new` places the node at the first address past the memory; it throws
  `std::bad_alloc` when `budget` (the number of allocations that still
  succeed) is zero.  `delete` empties the cell.
* `size_t` is `Nat`: `size_` is only incremented next to a fresh allocation and
  only decremented behind `assert(size_ > 0)`.
* An operation is a function from the store to an `Outcome`: normal return
  with the new store, `std::bad_alloc` leaving the function, a failed
  `assert`, an access through a pointer that designates no object, or a loop
  that used up its fuel.
* The element type is arbitrary: its `operator==` is a `BEq` instance with no
  law assumed.  The list never writes to the `value` member of its sentinel
  `head_`; what that member holds is an `Indeterminate` instance, about which
  nothing is assumed.
* The copy assignment `operator=` (lines 184-193) has no embedding: its body
  compares `this` with `rhs` (a pointer with a reference, line 185) and returns
  `this` for a reference (line 186), so the member cannot be instantiated.
-/

namespace SLL

/-- The struct `Node`: lines 12-20. -/
structure Node (T : Type) where
  value : T
  next_node : Option Nat
  deriving DecidableEq, Repr

/-- One object in memory: a heap `Node`, or a `SingleLinkedList` with its
members `head_` and `size_` (lines 242-243). -/
inductive Cell (T : Type) where
  | node (n : Node T)
  | list (head_ : Node T) (size_ : Nat)
  deriving DecidableEq, Repr

/-- What a `Type value;` member holds after default-initialisation, in the
object at a given address: `Node` gives `value` no initialiser (line 18) and has
a defaulted default constructor (line 13).  For a class type this is the
default-constructed value; for a scalar type such as `int` the member is not
initialised at all and holds whatever the storage held, which may differ from
one object to the next.  No law is assumed: every statement holds for every
instance. -/
class Indeterminate (T : Type) where
  value : Nat → T

/-- The object memory and the allocation budget. -/
structure Store (T : Type) where
  mem : List (Option (Cell T))
  budget : Nat
  deriving DecidableEq, Repr

/-- How a call ends. -/
inductive Outcome (σ α : Type) where
  | ok (val : α) (st : σ)
  | bad_alloc (st : σ)
  | assert_fail
  | undefined
  | timeout
  deriving DecidableEq, Repr

/-- The value of a normal return. -/
def Outcome.result {σ α : Type} : Outcome σ α → Option α
  | .ok a _ => some a
  | _ => none

/-- The store after a normal return. -/
def Outcome.store {σ α : Type} : Outcome σ α → Option σ
  | .ok _ s => some s
  | _ => none

/-- A computation over the store. -/
def Exec (T α : Type) : Type := Store T → Outcome (Store T) α

/-- Sequencing: the second computation runs only after a normal return. -/
def Exec.bind {T α β : Type} (x : Exec T α) (f : α → Exec T β) : Exec T β :=
  fun s =>
    match x s with
    | .ok a s1 => f a s1
    | .bad_alloc s1 => .bad_alloc s1
    | .assert_fail => .assert_fail
    | .undefined => .undefined
    | .timeout => .timeout

/-- Normal return of a value. -/
def Exec.pure {T α : Type} (a : α) : Exec T α := fun s => .ok a s

instance (T : Type) : Monad (Exec T) where
  pure := Exec.pure
  bind := Exec.bind

/-- The macro `assert(cond)`. -/
def assert {T : Type} (cond : Bool) : Exec T Unit :=
  fun s => if cond then .ok () s else .assert_fail

/-- The `Node` object inside a cell: the heap node itself, or the `head_` of a
list object. -/
def Cell.theNode {T : Type} : Cell T → Node T
  | .node n => n
  | .list h _ => h

/-- The cell after its `Node` object is overwritten with `n`. -/
def Cell.withNode {T : Type} : Cell T → Node T → Cell T
  | .node _, n => .node n
  | .list _ sz, n => .list n sz

/-- The live object at address `a`, if there is one. -/
def cellAt {T : Type} (s : Store T) (a : Nat) : Option (Cell T) :=
  match s.mem[a]? with
  | some (some c) => some c
  | _ => none

/-- The store with the cell at address `a` replaced. -/
def Store.setCell {T : Type} (s : Store T) (a : Nat) (c : Option (Cell T)) : Store T :=
  { s with mem := s.mem.set a c }

/-- The store with one more cell, at the address `s.mem.length`. -/
def Store.push {T : Type} (s : Store T) (c : Cell T) : Store T :=
  { s with mem := s.mem ++ [some c] }

/-- The `Node` object at address `a`: a heap node, or the `head_` of a list. -/
def nodeAt {T : Type} (s : Store T) (a : Nat) : Option (Node T) :=
  (cellAt s a).map Cell.theNode

/-- Reading `*p` for a `Node* p`. -/
def readNode {T : Type} (p : Option Nat) : Exec T (Node T) :=
  fun s =>
    match p with
    | none => .undefined
    | some a =>
      match cellAt s a with
      | some c => .ok c.theNode s
      | none => .undefined

/-- Overwriting the `Node` object at `*p`. -/
def writeNode {T : Type} (p : Option Nat) (n : Node T) : Exec T Unit :=
  fun s =>
    match p with
    | none => .undefined
    | some a =>
      match cellAt s a with
      | some c => .ok () (s.setCell a (some (c.withNode n)))
      | none => .undefined

/-- The assignment `p->next_node = q`. -/
def setNext {T : Type} (p : Option Nat) (q : Option Nat) : Exec T Unit := do
  let n ← readNode p
  writeNode p { n with next_node := q }

/-- The expression `new Node(val, next)`. -/
def newNode {T : Type} (val : T) (next : Option Nat) : Exec T (Option Nat) :=
  fun s =>
    if s.budget = 0 then .bad_alloc s
    else .ok (some s.mem.length) { s.push (.node ⟨val, next⟩) with budget := s.budget - 1 }

/-- The statement `delete p` for a `Node* p` obtained from `new`. -/
def deleteNode {T : Type} (p : Option Nat) : Exec T Unit :=
  fun s =>
    match p with
    | none => .ok () s
    | some a =>
      match cellAt s a with
      | some (.node _) => .ok () (s.setCell a none)
      | _ => .undefined

/-- Reading the member `size_` of the list at `this`. -/
def readSize {T : Type} (this : Nat) : Exec T Nat :=
  fun s =>
    match cellAt s this with
    | some (.list _ sz) => .ok sz s
    | _ => .undefined

/-- Writing the member `size_` of the list at `this`. -/
def writeSize {T : Type} (this : Nat) (sz : Nat) : Exec T Unit :=
  fun s =>
    match cellAt s this with
    | some (.list h _) => .ok () (s.setCell this (some (.list h sz)))
    | _ => .undefined

/-- The class `BasicIterator`: its only member is `node_` (line 94). -/
structure BasicIterator where
  node_ : Option Nat
  deriving DecidableEq, Repr

/-- The `operator==` of iterators, lines 50-60. -/
def BasicIterator.eq (it rhs : BasicIterator) : Bool :=
  decide (it.node_ = rhs.node_)

/-- The `operator!=` of iterators, lines 54-64. -/
def BasicIterator.ne (it rhs : BasicIterator) : Bool :=
  !(decide (it.node_ = rhs.node_))

/-- Pre-increment `operator++`, lines 67-72. -/
def BasicIterator.incr {T : Type} (it : BasicIterator) : Exec T BasicIterator := do
  assert it.node_.isSome
  let n ← readNode it.node_
  pure ⟨n.next_node⟩

/-- Dereference `operator*`, lines 83-86. -/
def BasicIterator.deref {T : Type} (it : BasicIterator) : Exec T T := do
  assert it.node_.isSome
  let n ← readNode it.node_
  pure n.value

/-- Scope exit: `cleanup` runs after `body` returned and also while an
exception leaves `body`. -/
def Exec.scoped {T α : Type} (body : Exec T α) (cleanup : Exec T Unit) : Exec T α :=
  fun s =>
    match body s with
    | .ok a s1 =>
      match cleanup s1 with
      | .ok _ s2 => .ok a s2
      | .bad_alloc s2 => .bad_alloc s2
      | .assert_fail => .assert_fail
      | .undefined => .undefined
      | .timeout => .timeout
    | .bad_alloc s1 =>
      match cleanup s1 with
      | .ok _ s2 => .bad_alloc s2
      | .bad_alloc s2 => .bad_alloc s2
      | .assert_fail => .assert_fail
      | .undefined => .undefined
      | .timeout => .timeout
    | .assert_fail => .assert_fail
    | .undefined => .undefined
    | .timeout => .timeout

/-- Unwinding of a constructor: `cleanup` runs only while an exception leaves
`body`. -/
def Exec.unwind {T α : Type} (body : Exec T α) (cleanup : Exec T Unit) : Exec T α :=
  fun s =>
    match body s with
    | .bad_alloc s1 =>
      match cleanup s1 with
      | .ok _ s2 => .bad_alloc s2
      | .bad_alloc s2 => .bad_alloc s2
      | .assert_fail => .assert_fail
      | .undefined => .undefined
      | .timeout => .timeout
    | r => r

/-- Storage for a list object with its default member initializers
(`Node head_;` and `size_t size_ = 0;`, lines 242-243) and the empty body of
the default constructor (line 106).  The sentinel is default-initialised by
`Node() = default` (line 13): `next_node` is `nullptr` (line 19) and `value`
(line 18) is left with an indeterminate content.  It returns the address of
the object. -/
def declareList {T : Type} [Indeterminate T] : Exec T Nat :=
  fun s => .ok s.mem.length (s.push (.list ⟨Indeterminate.value s.mem.length, none⟩ 0))

/-- The storage of the list object at `this` goes away. -/
def releaseList {T : Type} (this : Nat) : Exec T Unit :=
  fun s =>
    match cellAt s this with
    | some (.list _ _) => .ok () (s.setCell this none)
    | _ => .undefined

/-- `PushFront`, lines 121-124. -/
def PushFront {T : Type} (this : Nat) (value : T) : Exec T Unit := do
  let head_ ← readNode (some this)
  let p ← newNode value head_.next_node
  setNext (some this) p
  let sz ← readSize this
  writeSize this (sz + 1)

/-- The `while` loop of `Clear`, lines 129-134. -/
def Clear.loop {T : Type} (this : Nat) : Nat → Exec T Unit
  | 0 => fun _ => .timeout
  | fuel + 1 => do
    let head_ ← readNode (some this)
    if head_.next_node.isSome then
      let node_to_delete := head_.next_node
      let nd ← readNode head_.next_node
      setNext (some this) nd.next_node
      deleteNode node_to_delete
      Clear.loop this fuel
    else
      pure ()

/-- `Clear`, lines 127-136.  Every iteration of the loop empties one cell, so
one more step than there are cells is enough fuel. -/
def Clear {T : Type} (this : Nat) : Exec T Unit := do
  (fun s => Clear.loop this (s.mem.length + 1) s)
  writeSize this 0

/-- `GetSize`, lines 139-141. -/
def GetSize {T : Type} (this : Nat) : Exec T Nat :=
  readSize this

/-- `IsEmpty`, lines 144-146. -/
def IsEmpty {T : Type} (this : Nat) : Exec T Bool := do
  let sz ← readSize this
  pure (sz == 0)

/-- `InsertAfter`, lines 153-160. -/
def InsertAfter {T : Type} (this : Nat) (pos : BasicIterator) (value : T) :
    Exec T BasicIterator := do
  assert pos.node_.isSome
  let n ← readNode pos.node_
  let new_node ← newNode value n.next_node
  setNext pos.node_ new_node
  let sz ← readSize this
  writeSize this (sz + 1)
  pure ⟨new_node⟩

/-- `PopFront`, lines 162-168. -/
def PopFront {T : Type} (this : Nat) : Exec T Unit := do
  let sz ← readSize this
  assert (decide (sz > 0))
  let head_ ← readNode (some this)
  let to_delete := head_.next_node
  let nd ← readNode to_delete
  setNext (some this) nd.next_node
  deleteNode to_delete
  let sz ← readSize this
  writeSize this (sz - 1)

/-- `EraseAfter`, lines 174-182.  The three conjuncts of the assertion are
evaluated left to right and stop at the first false one. -/
def EraseAfter {T : Type} (this : Nat) (pos : BasicIterator) : Exec T BasicIterator := do
  assert pos.node_.isSome
  let n ← readNode pos.node_
  assert n.next_node.isSome
  let sz ← readSize this
  assert (decide (sz > 0))
  let node_to_delete := n.next_node
  let nd ← readNode node_to_delete
  setNext pos.node_ nd.next_node
  deleteNode node_to_delete
  let sz ← readSize this
  writeSize this (sz - 1)
  let n ← readNode pos.node_
  pure ⟨n.next_node⟩

/-- The member `swap`, lines 197-200: `std::swap` on `head_` and on `size_`. -/
def swap {T : Type} (this other : Nat) : Exec T Unit := do
  let tmp ← readNode (some this)
  let o ← readNode (some other)
  writeNode (some this) o
  writeNode (some other) tmp
  let tmp ← readSize this
  let o ← readSize other
  writeSize this o
  writeSize other tmp

/-- The free function `swap`, lines 264-267. -/
def swapLists {T : Type} (lhs rhs : Nat) : Exec T Unit :=
  swap lhs rhs

/-- `begin` and `cbegin`, lines 204-222. -/
def begin_ {T : Type} (this : Nat) : Exec T BasicIterator := do
  let head_ ← readNode (some this)
  pure ⟨head_.next_node⟩

/-- `end` and `cend`, lines 208-226. -/
def end_ : BasicIterator := ⟨none⟩

/-- `before_begin` (line 228) and `cbefore_begin` (line 232).  The const
overload of `before_begin` (line 236) passes `head_` where a `Node*` is
required and cannot be instantiated; it has no embedding. -/
def before_begin (this : Nat) : BasicIterator := ⟨some this⟩

/-- The destructor, lines 116-118, and the release of the storage. -/
def destroy {T : Type} (this : Nat) : Exec T Unit := do
  Clear this
  releaseList this

/-- What `Create` needs from its iterator type `It`: `!=`, `*` and `++`. -/
structure RangeOps (T It : Type) where
  ne : It → It → Bool
  deref : It → Exec T T
  incr : It → Exec T It

/-- The `while` loop of `Create`, lines 250-256.  It returns `node` and
`size_count`. -/
def Create.loop {T It : Type} (ops : RangeOps T It) (last : It) :
    Nat → It → Option Nat → Nat → Exec T (Option Nat × Nat)
  | 0, _, _, _ => fun _ => .timeout
  | fuel + 1, first, node, size_count =>
    if ops.ne first last then do
      let v ← ops.deref first
      let temp_node ← newNode v none
      setNext node temp_node
      let n ← readNode node
      let node := n.next_node
      let first ← ops.incr first
      Create.loop ops last fuel first node (size_count + 1)
    else
      pure (node, size_count)

/-- `Create`, lines 245-261.  The local `temp_list` is destroyed when the
function is left, by return or by exception. -/
def Create {T It : Type} [Indeterminate T] (this : Nat) (ops : RangeOps T It)
    (first last : It) (fuel : Nat) : Exec T Unit := do
  let temp_list ← declareList
  Exec.scoped (do
      let r ← Create.loop ops last fuel first (some temp_list) 0
      setNext r.1 none
      writeSize temp_list r.2
      swap this temp_list)
    (destroy temp_list)

/-- The iterators of `std::initializer_list<Type>`: positions in the array of
the values. -/
def initializerListOps {T : Type} (values : List T) : RangeOps T Nat where
  ne := fun i j => !(decide (i = j))
  deref := fun i s =>
    match values[i]? with
    | some v => .ok v s
    | none => .undefined
  incr := fun i => pure (i + 1)

/-- The iterators of the list itself. -/
def iteratorOps {T : Type} : RangeOps T BasicIterator where
  ne := BasicIterator.ne
  deref := BasicIterator.deref
  incr := BasicIterator.incr

/-- The constructor from an initializer list, lines 108-110.  It returns the
address of the constructed object. -/
def SingleLinkedList.ofInitializerList {T : Type} [Indeterminate T] (values : List T) :
    Exec T Nat := do
  let this ← declareList
  Exec.unwind
    (Create this (initializerListOps values) 0 values.length (values.length + 1))
    (releaseList this)
  pure this

/-- The copy constructor, lines 112-114.  It returns the address of the
constructed object.  A chain without a cycle has at most as many nodes as the
memory has cells, which bounds the loop of `Create`. -/
def SingleLinkedList.copy {T : Type} [Indeterminate T] (other : Nat) : Exec T Nat := do
  let this ← declareList
  Exec.unwind
    (do
      let first ← begin_ other
      (fun s => Create this iteratorOps first end_ (s.mem.length + 1) s))
    (releaseList this)
  pure this

/-- The loop `for (it = first; it != last; ++it) out.push_back(*it)` of a
caller that reads the list front to back. -/
def traverse {T : Type} (last : BasicIterator) : Nat → BasicIterator → Exec T (List T)
  | 0, _ => fun _ => .timeout
  | fuel + 1, it =>
    if it.ne last then do
      let v ← it.deref
      let it ← it.incr
      let rest ← traverse last fuel it
      pure (v :: rest)
    else
      pure []

/-- The values met from `begin()` to `end()`. -/
def toList {T : Type} (this : Nat) : Exec T (List T) := do
  let first ← begin_ this
  (fun s => traverse end_ (s.mem.length + 1) first s)

/-- The element sequence of the list at `this`, when the traversal returns. -/
def elements {T : Type} (s : Store T) (this : Nat) : Option (List T) :=
  match toList this s with
  | .ok l _ => some l
  | _ => none

/-- The iterator reached from `it` by `k` increments. -/
def advance {T : Type} : Nat → BasicIterator → Exec T BasicIterator
  | 0, it => pure it
  | k + 1, it => do
    let it ← it.incr
    advance k it

/-- The four-iterator `std::equal` of the standard library on forward
iterators: it compares while both ranges have elements and then asks that
both are exhausted. -/
def std_equal {T : Type} [BEq T] (last1 last2 : BasicIterator) :
    Nat → BasicIterator → BasicIterator → Exec T Bool
  | 0, _, _ => fun _ => .timeout
  | fuel + 1, first1, first2 =>
    if first1.ne last1 && first2.ne last2 then do
      let x ← first1.deref
      let y ← first2.deref
      if !(x == y) then
        pure false
      else do
        let first1 ← first1.incr
        let first2 ← first2.incr
        std_equal last1 last2 fuel first1 first2
    else
      pure (first1.eq last1 && first2.eq last2)

/-- The `operator==` of lists, lines 269-272: `||` and `&&` evaluate their
right operand only when needed. -/
def operator_eq {T : Type} [BEq T] (lhs rhs : Nat) : Exec T Bool := do
  if lhs = rhs then
    pure true
  else do
    let n ← GetSize lhs
    let m ← GetSize rhs
    if n = m then do
      let first1 ← begin_ lhs
      let first2 ← begin_ rhs
      (fun s => std_equal end_ end_ (s.mem.length + 1) first1 first2 s)
    else
      pure false

/-- The `operator!=` of lists, lines 274-277. -/
def operator_ne {T : Type} [BEq T] (lhs rhs : Nat) : Exec T Bool := do
  let r ← operator_eq lhs rhs
  pure (!r)

/-- Member access `operator->`, lines 88-91: the address of the `value` of the
node, which is the address of the node. -/
def BasicIterator.arrow {T : Type} (it : BasicIterator) : Exec T Nat := do
  assert it.node_.isSome
  match it.node_ with
  | some a => pure a
  | none => (fun _ => .undefined)

/-- The `std::lexicographical_compare` of the standard library with the
`operator<` of the elements: the first position where one element is less than
the other decides; if there is none, the range that ends first is the
smaller. -/
def std_lexicographical_compare {T : Type} [LT T] [DecidableRel (LT.lt : T → T → Prop)]
    (last1 last2 : BasicIterator) : Nat → BasicIterator → BasicIterator → Exec T Bool
  | 0, _, _ => fun _ => .timeout
  | fuel + 1, first1, first2 =>
    if first1.ne last1 && first2.ne last2 then do
      let x ← first1.deref
      let y ← first2.deref
      if x < y then
        pure true
      else if y < x then
        pure false
      else do
        let first1 ← first1.incr
        let first2 ← first2.incr
        std_lexicographical_compare last1 last2 fuel first1 first2
    else
      pure (first1.eq last1 && first2.ne last2)

/-- The `operator<` of lists, lines 279-283. -/
def operator_lt {T : Type} [LT T] [DecidableRel (LT.lt : T → T → Prop)] (lhs rhs : Nat) :
    Exec T Bool := do
  let first1 ← begin_ lhs
  let first2 ← begin_ rhs
  (fun s => std_lexicographical_compare end_ end_ (s.mem.length + 1) first1 first2 s)

/-- The `operator>` of lists, lines 290-293. -/
def operator_gt {T : Type} [LT T] [DecidableRel (LT.lt : T → T → Prop)] (lhs rhs : Nat) :
    Exec T Bool :=
  operator_lt rhs lhs

/-- The `operator<=` of lists, lines 285-288. -/
def operator_le {T : Type} [LT T] [DecidableRel (LT.lt : T → T → Prop)] (lhs rhs : Nat) :
    Exec T Bool := do
  let r ← operator_gt lhs rhs
  pure (!r)

/-- The `operator>=` of lists, lines 295-298. -/
def operator_ge {T : Type} [LT T] [DecidableRel (LT.lt : T → T → Prop)] (lhs rhs : Nat) :
    Exec T Bool := do
  let r ← operator_lt lhs rhs
  pure (!r)

/-! ## The shape of a list in memory -/

/-- The nodes `cells` (address and value) lead from `p` to `q` along
`next_node`. -/
def Seg {T : Type} (s : Store T) : Option Nat → List (Nat × T) → Option Nat → Prop
  | p, [], q => p = q
  | p, c :: cs, q => p = some c.1 ∧ ∃ nx, nodeAt s c.1 = some ⟨c.2, nx⟩ ∧ Seg s nx cs q

/-- The cell at `a` is a `Node` created by `new`. -/
def IsHeapNode {T : Type} (s : Store T) (a : Nat) : Prop :=
  ∃ n, cellAt s a = some (.node n)

/-- The member `size_` of the list object at `a`, if `a` holds a list. -/
def sizeAt {T : Type} (s : Store T) (a : Nat) : Option Nat :=
  match cellAt s a with
  | some (.list _ sz) => some sz
  | _ => none

/-- The object at `this` is a list whose sentinel is followed by the heap nodes
`cells`, the last of which has a null `next_node`. -/
def Shape {T : Type} (s : Store T) (this : Nat) (cells : List (Nat × T)) : Prop :=
  ∃ d sz, sizeAt s this = some sz ∧ Seg s (some this) ((this, d) :: cells) none ∧
    ∀ c ∈ cells, IsHeapNode s c.1

/-- The object at `this` is a well-formed list: a sentinel followed by a
null-terminated chain of heap nodes. -/
def Valid {T : Type} (s : Store T) (this : Nat) : Prop :=
  ∃ cells, Shape s this cells

/-- The store after the `Node` object at `a` is overwritten. -/
def Store.putNode {T : Type} (s : Store T) (a : Nat) (n : Node T) : Store T :=
  match cellAt s a with
  | some c => s.setCell a (some (c.withNode n))
  | none => s

/-- The store after the `size_` of the list at `a` is overwritten. -/
def Store.putSize {T : Type} (s : Store T) (a : Nat) (k : Nat) : Store T :=
  match cellAt s a with
  | some (.list h _) => s.setCell a (some (.list h k))
  | _ => s

/-- The store after a successful `new Node(n)`. -/
def Store.alloc {T : Type} (s : Store T) (n : Node T) : Store T :=
  { s.push (.node n) with budget := s.budget - 1 }

/-! ## Definitions used by the statements and their proofs -/

section specification
variable {T It : Type}

/-- The store that `InsertAfter` and `PushFront` leave: a new node behind the
node at `a`, and the count of `this` raised. -/
def insertStore (s : Store T) (this a : Nat) (n : Node T) (v : T) (sz : Nat) : Store T :=
  ((s.alloc ⟨v, n.next_node⟩).putNode a ⟨n.value, some s.mem.length⟩).putSize this (sz + 1)

/-- The store that `EraseAfter` and `PopFront` leave: the node at `a` linked
to the successor of the node at `b`, the cell at `b` emptied, and the count of
`this` lowered. -/
def eraseStore (s : Store T) (this a : Nat) (n : Node T) (b : Nat) (nb : Node T) (sz : Nat) :
    Store T :=
  ((s.putNode a ⟨n.value, nb.next_node⟩).setCell b none).putSize this (sz - 1)

/-- Two value sequences have the same length and `==` holds at every
position. -/
def pairwiseEq [BEq T] : List T → List T → Bool
  | [], [] => true
  | x :: xs, y :: ys => (x == y) && pairwiseEq xs ys
  | _, _ => false

/-- The nodes that `Create` allocates for `vals` when the first free address is
`base`. -/
def freshCells (base : Nat) : List T → List (Nat × T)
  | [] => []
  | v :: vs => (base, v) :: freshCells (base + 1) vs

/-- The store `s` holds every object of `s0` unchanged. -/
def Agree (s0 s : Store T) : Prop :=
  ∀ b, b < s0.mem.length → cellAt s b = cellAt s0 b

/-- The range from `first` to `last` yields the values `vals`, in every store
that holds the objects of `s0` unchanged. -/
def Yields (ops : RangeOps T It) (s0 : Store T) (last : It) : It → List T → Prop
  | first, [] => ops.ne first last = false
  | first, v :: vs =>
    ops.ne first last = true ∧
      ∃ next, (∀ s, Agree s0 s → ops.deref first s = .ok v s ∧ ops.incr first s = .ok next s) ∧
        Yields ops s0 last next vs

/-- Executable form of `Seg` to `nullptr` over heap nodes. -/
def segCheck [DecidableEq T] (s : Store T) : Option Nat → List (Nat × T) → Bool
  | p, [] => decide (p = none)
  | p, c :: cs =>
    decide (p = some c.1) &&
      match cellAt s c.1 with
      | some (.node n) => decide (n.value = c.2) && segCheck s n.next_node cs
      | _ => false

/-- Executable form of `Shape`. -/
def shapeCheck [DecidableEq T] (s : Store T) (this : Nat) (cells : List (Nat × T)) : Bool :=
  match cellAt s this with
  | some (.list h _) => segCheck s h.next_node cells
  | _ => false

/-- The value that `std::lexicographical_compare` computes on two value
sequences. -/
def lexLess [LT T] [DecidableRel (LT.lt : T → T → Prop)] : List T → List T → Bool
  | [], [] => false
  | [], _ :: _ => true
  | _ :: _, [] => false
  | x :: xs, y :: ys => if x < y then true else if y < x then false else lexLess xs ys

/-- The sequence `xs` lexicographically precedes `ys`: they agree on their first
`i` elements and at position `i` the element of `xs` is less than that of `ys`,
or `xs` is a proper prefix of `ys`. -/
def LexPrecedes [LT T] (xs ys : List T) : Prop :=
  (∃ i x y, xs.take i = ys.take i ∧ xs[i]? = some x ∧ ys[i]? = some y ∧ x < y) ∨
    (xs <+: ys ∧ xs.length < ys.length)

/-- The count invariant of the list at `a`: the object is a well-formed list and
its `size_` is the number of nodes behind the sentinel. -/
def Consistent (s : Store T) (a : Nat) : Prop :=
  ∃ cells, Shape s a cells ∧ sizeAt s a = some cells.length

/-- Every list object of the memory satisfies the count invariant, and no node
belongs to the chains of two list objects. -/
def WellFormed (s : Store T) : Prop :=
  (∀ a, (sizeAt s a).isSome = true → Consistent s a) ∧
    ∀ a b ca cb, a ≠ b → Shape s a ca → Shape s b cb → ∀ c ∈ ca, ∀ d ∈ cb, c.1 ≠ d.1

/-- The memories that a program can reach: it starts with no object, constructs
lists (by default, from a sequence, by copy) and calls `PushFront`, `PopFront`,
`InsertAfter`, `EraseAfter`, `Clear` and `swap` on list objects, with a position
of the list other than `end()` where a position is taken; each step is a call
that returns, or a call of a constructor, of `PushFront` or of `InsertAfter`
that leaves with `std::bad_alloc`.  The memory still available for `new` may
change between two calls.  (The copy assignment cannot be instantiated and gives
no step.) -/
inductive Reachable [Indeterminate T] : Store T → Prop
  | start (budget : Nat) : Reachable ⟨[], budget⟩
  | available {s : Store T} (budget : Nat) : Reachable s → Reachable { s with budget := budget }
  | default_constructor {s s2 : Store T} {a : Nat} :
    Reachable s → declareList s = .ok a s2 → Reachable s2
  | from_sequence {s s2 : Store T} {a : Nat} (S : List T) :
    Reachable s → SingleLinkedList.ofInitializerList S s = .ok a s2 → Reachable s2
  | copy_constructor {s s2 : Store T} {a : Nat} (other : Nat) :
    Reachable s → (sizeAt s other).isSome = true →
    SingleLinkedList.copy other s = .ok a s2 → Reachable s2
  | push_front {s s2 : Store T} (a : Nat) (v : T) :
    Reachable s → (sizeAt s a).isSome = true → PushFront a v s = .ok () s2 → Reachable s2
  | pop_front {s s2 : Store T} (a : Nat) :
    Reachable s → (sizeAt s a).isSome = true → PopFront a s = .ok () s2 → Reachable s2
  | insert_after {s s2 : Store T} (a k : Nat) (pos it : BasicIterator) (v : T) :
    Reachable s → (sizeAt s a).isSome = true →
    advance k (before_begin a) s = .ok pos s → pos ≠ end_ →
    InsertAfter a pos v s = .ok it s2 → Reachable s2
  | erase_after {s s2 : Store T} (a k : Nat) (pos it : BasicIterator) :
    Reachable s → (sizeAt s a).isSome = true →
    advance k (before_begin a) s = .ok pos s →
    EraseAfter a pos s = .ok it s2 → Reachable s2
  | clear {s s2 : Store T} (a : Nat) :
    Reachable s → (sizeAt s a).isSome = true → Clear a s = .ok () s2 → Reachable s2
  | swap_lists {s s2 : Store T} (a b : Nat) :
    Reachable s → (sizeAt s a).isSome = true → (sizeAt s b).isSome = true →
    swapLists a b s = .ok () s2 → Reachable s2
  | from_sequence_throws {s s2 : Store T} (S : List T) :
    Reachable s →
    SingleLinkedList.ofInitializerList S s = (.bad_alloc s2 : Outcome (Store T) Nat) →
    Reachable s2
  | copy_constructor_throws {s s2 : Store T} (other : Nat) :
    Reachable s → (sizeAt s other).isSome = true →
    SingleLinkedList.copy other s = (.bad_alloc s2 : Outcome (Store T) Nat) → Reachable s2
  | push_front_throws {s s2 : Store T} (a : Nat) (v : T) :
    Reachable s → (sizeAt s a).isSome = true → PushFront a v s = .bad_alloc s2 → Reachable s2
  | insert_after_throws {s s2 : Store T} (a k : Nat) (pos : BasicIterator) (v : T) :
    Reachable s → (sizeAt s a).isSome = true →
    advance k (before_begin a) s = .ok pos s → pos ≠ end_ →
    InsertAfter a pos v s = .bad_alloc s2 → Reachable s2

/-! ### Example memories -/

/-- The memory after `PushFront(3)` and `PushFront(2)` on an empty list at
address 0: the list `[2, 3]`.  The `value` of its sentinel was never
initialised; 62912 stands for what it holds. -/
def store23 : Store Nat :=
  { mem := [some (.list ⟨62912, some 2⟩ 2), some (.node ⟨3, none⟩),
      some (.node ⟨2, some 1⟩)],
    budget := 5 }

/-- An element type whose `operator==` is not reflexive: `nan` compares unequal
to itself, as a floating-point NaN does. -/
inductive Num where
  | nan
  | val (n : Nat)
  deriving DecidableEq, Repr

instance : BEq Num where
  beq
    | .val a, .val b => a == b
    | _, _ => false

instance : Indeterminate Num where
  value := fun _ => .val 0

/-- In the example memories over `Nat` the sentinel of the object at address `a`
is taken to hold `62912 + a`; any other content would do. -/
instance : Indeterminate Nat where
  value := fun a => 62912 + a

/-- The list `{nan}` at address 0, with room for one more allocation. -/
def storeNan : Store Num :=
  { mem := [some (.list ⟨.val 0, some 1⟩ 1), some (.node ⟨.nan, none⟩)], budget := 1 }

/-- The lists `[1, 2]` at address 0 and `[1, 2]` at address 3. -/
def storeTwoLists : Store Nat :=
  { mem := [some (.list ⟨0, some 1⟩ 2), some (.node ⟨1, some 2⟩), some (.node ⟨2, none⟩),
      some (.list ⟨0, some 4⟩ 2), some (.node ⟨1, some 5⟩), some (.node ⟨2, none⟩)],
    budget := 2 }

/-- The lists `[1, 2]` at address 0 and `[7]` at address 3. -/
def storeSwap : Store Nat :=
  { mem := [some (.list ⟨0, some 1⟩ 2), some (.node ⟨1, some 2⟩), some (.node ⟨2, none⟩),
      some (.list ⟨0, some 4⟩ 1), some (.node ⟨7, none⟩)],
    budget := 0 }

/-- The lists `[1, 2]` at address 0 and `[1, 2, 3]` at address 3. -/
def storeOrder : Store Nat :=
  { mem := [some (.list ⟨0, some 1⟩ 2), some (.node ⟨1, some 2⟩), some (.node ⟨2, none⟩),
      some (.list ⟨0, some 4⟩ 3), some (.node ⟨1, some 5⟩), some (.node ⟨2, some 6⟩),
      some (.node ⟨3, none⟩)],
    budget := 0 }

/-- An empty list at address 0, with room for two allocations. -/
def storeEmpty : Store Nat :=
  { mem := [some (.list ⟨0, none⟩ 0)], budget := 2 }

/-- The memory after one more `PushFront(1)`: the list `[1, 2, 3]`. -/
def store123 : Store Nat :=
  { mem := [some (.list ⟨62912, some 3⟩ 3), some (.node ⟨3, none⟩), some (.node ⟨2, some 1⟩),
      some (.node ⟨1, some 2⟩)],
    budget := 4 }

end specification

/-! ## Memory lemmas -/

@[simp] theorem setCell_length {T : Type} (s : Store T) (a : Nat) (c : Option (Cell T)) :
    (s.setCell a c).mem.length = s.mem.length := by
  simp [Store.setCell]

@[simp] theorem setCell_budget {T : Type} (s : Store T) (a : Nat) (c : Option (Cell T)) :
    (s.setCell a c).budget = s.budget := rfl

@[simp] theorem push_length {T : Type} (s : Store T) (c : Cell T) :
    (s.push c).mem.length = s.mem.length + 1 := by
  simp [Store.push]

@[simp] theorem push_budget {T : Type} (s : Store T) (c : Cell T) :
    (s.push c).budget = s.budget := rfl

@[simp] theorem cellAt_budget {T : Type} (s : Store T) (n a : Nat) :
    cellAt { s with budget := n } a = cellAt s a := rfl

theorem cellAt_lt {T : Type} {s : Store T} {a : Nat} {c : Cell T}
    (h : cellAt s a = some c) : a < s.mem.length := by
  by_contra hlt
  have : s.mem[a]? = none := List.getElem?_eq_none (by omega)
  simp [cellAt, this] at h

theorem cellAt_setCell {T : Type} (s : Store T) (a b : Nat) (c : Option (Cell T)) :
    cellAt (s.setCell a c) b
      = if b = a ∧ a < s.mem.length then c else cellAt s b := by
  unfold cellAt Store.setCell
  by_cases hba : b = a
  · subst hba
    by_cases hlt : b < s.mem.length
    · simp [hlt]
      cases c <;> rfl
    · have h1 : s.mem[b]? = none := List.getElem?_eq_none (by omega)
      have h2 : (s.mem.set b c)[b]? = none := List.getElem?_eq_none (by simp; omega)
      simp [hlt, h1, h2]
  · have : (s.mem.set a c)[b]? = s.mem[b]? := by
      rw [List.getElem?_set_ne]
      exact fun h => hba h.symm
    simp [hba, this]

theorem cellAt_push {T : Type} (s : Store T) (b : Nat) (c : Cell T) :
    cellAt (s.push c) b = if b = s.mem.length then some c else cellAt s b := by
  unfold cellAt Store.push
  by_cases hb : b = s.mem.length
  · subst hb
    simp
  · simp only [hb, if_false]
    by_cases hlt : b < s.mem.length
    · rw [List.getElem?_append_left hlt]
    · have h1 : (s.mem ++ [some c])[b]? = none :=
        List.getElem?_eq_none (by simp; omega)
      have h2 : s.mem[b]? = none := List.getElem?_eq_none (by omega)
      rw [h1, h2]

theorem nodeAt_lt {T : Type} {s : Store T} {a : Nat} {n : Node T}
    (h : nodeAt s a = some n) : a < s.mem.length := by
  unfold nodeAt at h
  cases hc : cellAt s a with
  | none => simp [hc] at h
  | some c => exact cellAt_lt hc

/-! ## Chains -/

theorem Seg_frame {T : Type} {s s' : Store T} :
    ∀ (cells : List (Nat × T)) (p q : Option Nat), Seg s p cells q →
      (∀ c ∈ cells, nodeAt s' c.1 = nodeAt s c.1) → Seg s' p cells q
  | [], _, _, h, _ => h
  | c :: cs, _, q, ⟨hp, nx, hn, hrest⟩, hf =>
    ⟨hp, nx, by rw [hf c (List.mem_cons_self _ _)]; exact hn,
      Seg_frame cs nx q hrest (fun d hd => hf d (List.mem_cons_of_mem _ hd))⟩

theorem Seg_append {T : Type} {s : Store T} :
    ∀ (l1 l2 : List (Nat × T)) (p q : Option Nat),
      Seg s p (l1 ++ l2) q ↔ ∃ m, Seg s p l1 m ∧ Seg s m l2 q
  | [], l2, p, q => by
    constructor
    · intro h
      exact ⟨p, rfl, h⟩
    · rintro ⟨m, hm, h⟩
      have : p = m := hm
      subst this
      exact h
  | c :: cs, l2, p, q => by
    constructor
    · rintro ⟨hp, nx, hn, hrest⟩
      obtain ⟨m, h1, h2⟩ := (Seg_append cs l2 nx q).1 hrest
      exact ⟨m, ⟨hp, nx, hn, h1⟩, h2⟩
    · rintro ⟨m, ⟨hp, nx, hn, h1⟩, h2⟩
      exact ⟨hp, nx, hn, (Seg_append cs l2 nx q).2 ⟨m, h1, h2⟩⟩

theorem Seg_det {T : Type} {s : Store T} :
    ∀ (l1 l2 : List (Nat × T)) (p : Option Nat),
      Seg s p l1 none → Seg s p l2 none → l1 = l2
  | [], [], _, _, _ => rfl
  | [], c :: cs, p, h1, ⟨h2, _⟩ => by
    have : p = none := h1
    rw [this] at h2
    cases h2
  | c :: cs, [], p, ⟨h1, _⟩, h2 => by
    have : p = none := h2
    rw [this] at h1
    cases h1
  | c :: cs, d :: ds, p, ⟨h1, nx, hn, hr⟩, ⟨h2, nx2, hn2, hr2⟩ => by
    have hcd : c.1 = d.1 := by
      rw [h1] at h2
      exact Option.some.inj h2
    rw [hcd, hn2] at hn
    have hnode := Option.some.inj hn
    have hv : d.2 = c.2 := congrArg Node.value hnode
    have hx : nx2 = nx := congrArg Node.next_node hnode
    subst hx
    have := Seg_det cs ds nx2 hr hr2
    subst this
    have : c = d := Prod.ext hcd hv.symm
    rw [this]

theorem Seg_lt {T : Type} {s : Store T} :
    ∀ (cells : List (Nat × T)) (p q : Option Nat), Seg s p cells q →
      ∀ c ∈ cells, c.1 < s.mem.length
  | [], _, _, _, c, hc => by cases hc
  | d :: ds, _, q, ⟨_, nx, hn, hrest⟩, c, hc => by
    rcases List.mem_cons.1 hc with h | h
    · subst h
      exact nodeAt_lt hn
    · exact Seg_lt ds nx q hrest c h

theorem Seg_live {T : Type} {s : Store T} :
    ∀ (cells : List (Nat × T)) (p q : Option Nat), Seg s p cells q →
      ∀ c ∈ cells, (nodeAt s c.1).isSome = true
  | [], _, _, _, c, hc => by cases hc
  | d :: ds, _, q, ⟨_, nx, hn, hrest⟩, c, hc => by
    rcases List.mem_cons.1 hc with h | h
    · subst h
      rw [hn]
      rfl
    · exact Seg_live ds nx q hrest c h

theorem Seg_nodup {T : Type} {s : Store T} :
    ∀ (cells : List (Nat × T)) (p : Option Nat), Seg s p cells none →
      (cells.map Prod.fst).Nodup
  | [], _, _ => List.nodup_nil
  | c :: cs, p, ⟨hp, nx, hn, hrest⟩ => by
    rw [List.map_cons, List.nodup_cons]
    refine ⟨?_, Seg_nodup cs nx hrest⟩
    intro hmem
    obtain ⟨d, hd, hdc⟩ := List.mem_map.1 hmem
    obtain ⟨l1, l2, hsplit⟩ := List.append_of_mem hd
    rw [hsplit] at hrest
    obtain ⟨m, _, h2⟩ := (Seg_append l1 (d :: l2) nx none).1 hrest
    have h3 : Seg s (some d.1) (c :: cs) none := by
      rw [hdc]
      exact ⟨rfl, nx, hn, by rw [hsplit]; exact (Seg_append l1 (d :: l2) nx none).2 ⟨m, ‹_›, h2⟩⟩
    have h4 : Seg s (some d.1) (d :: l2) none := ⟨rfl, h2.2⟩
    have := Seg_det _ _ _ h3 h4
    have hlen := congrArg List.length this
    rw [hsplit] at hlen
    simp at hlen
    omega

theorem nodup_bounded_length (l : List Nat) (n : Nat) (hl : l.Nodup)
    (hb : ∀ a ∈ l, a < n) : l.length ≤ n := by
  have h1 : l.toFinset ⊆ Finset.range n := by
    intro a ha
    exact Finset.mem_range.2 (hb a (List.mem_toFinset.1 ha))
  have h2 := Finset.card_le_card h1
  rw [List.toFinset_card_of_nodup hl, Finset.card_range] at h2
  exact h2

theorem Seg_length_le {T : Type} {s : Store T} (cells : List (Nat × T)) (p : Option Nat)
    (h : Seg s p cells none) : cells.length ≤ s.mem.length := by
  have := nodup_bounded_length (cells.map Prod.fst) s.mem.length (Seg_nodup cells p h)
    (by
      intro a ha
      obtain ⟨c, hc, rfl⟩ := List.mem_map.1 ha
      exact Seg_lt cells p none h c hc)
  simpa using this

/-! ## Views of the memory after an update -/

section views
variable {T : Type}

@[simp] theorem putNode_length (s : Store T) (a : Nat) (n : Node T) :
    (s.putNode a n).mem.length = s.mem.length := by
  unfold Store.putNode
  split <;> simp

@[simp] theorem putNode_budget (s : Store T) (a : Nat) (n : Node T) :
    (s.putNode a n).budget = s.budget := by
  unfold Store.putNode
  split <;> simp

@[simp] theorem putSize_length (s : Store T) (a k : Nat) :
    (s.putSize a k).mem.length = s.mem.length := by
  unfold Store.putSize
  split <;> simp

@[simp] theorem putSize_budget (s : Store T) (a k : Nat) :
    (s.putSize a k).budget = s.budget := by
  unfold Store.putSize
  split <;> simp

@[simp] theorem alloc_length (s : Store T) (n : Node T) :
    (s.alloc n).mem.length = s.mem.length + 1 := by
  simp [Store.alloc, Store.push]

@[simp] theorem alloc_budget (s : Store T) (n : Node T) :
    (s.alloc n).budget = s.budget - 1 := rfl

theorem cellAt_putNode (s : Store T) (a b : Nat) (n : Node T) :
    cellAt (s.putNode a n) b
      = if b = a then (cellAt s a).map (fun c => c.withNode n) else cellAt s b := by
  unfold Store.putNode
  cases hc : cellAt s a with
  | none =>
    by_cases hba : b = a
    · subst hba
      simp [hc]
    · simp [hba]
  | some c =>
    simp only [cellAt_setCell, cellAt_lt hc, and_true, Option.map_some']

theorem cellAt_putSize (s : Store T) (a b k : Nat) :
    cellAt (s.putSize a k) b
      = if b = a then
          (cellAt s a).map (fun c => match c with
            | .list h _ => .list h k
            | .node n => .node n)
        else cellAt s b := by
  unfold Store.putSize
  cases hc : cellAt s a with
  | none =>
    by_cases hba : b = a
    · subst hba
      simp [hc]
    · simp [hba]
  | some c =>
    cases c with
    | node n =>
      by_cases hba : b = a
      · subst hba
        simp [hc]
      · simp [hba]
    | list h sz =>
      simp only [cellAt_setCell, cellAt_lt hc, and_true, Option.map_some']

theorem cellAt_alloc (s : Store T) (b : Nat) (n : Node T) :
    cellAt (s.alloc n) b = if b = s.mem.length then some (.node n) else cellAt s b := by
  unfold Store.alloc
  rw [cellAt_budget, cellAt_push]

theorem nodeAt_putNode (s : Store T) (a b : Nat) (n m : Node T) (h : nodeAt s a = some m) :
    nodeAt (s.putNode a n) b = if b = a then some n else nodeAt s b := by
  unfold nodeAt at h ⊢
  rw [cellAt_putNode]
  by_cases hba : b = a
  · simp only [hba, if_true]
    cases hc : cellAt s a with
    | none => simp [hc] at h
    | some c => cases c <;> rfl
  · simp [hba]

theorem nodeAt_putSize (s : Store T) (a b k : Nat) :
    nodeAt (s.putSize a k) b = nodeAt s b := by
  unfold nodeAt
  rw [cellAt_putSize]
  by_cases hba : b = a
  · subst hba
    simp only [if_true]
    cases hc : cellAt s b with
    | none => rfl
    | some c => cases c <;> rfl
  · simp [hba]

theorem nodeAt_alloc (s : Store T) (b : Nat) (n : Node T) :
    nodeAt (s.alloc n) b = if b = s.mem.length then some n else nodeAt s b := by
  unfold nodeAt
  rw [cellAt_alloc]
  by_cases hb : b = s.mem.length <;> simp [hb, Cell.theNode]

theorem nodeAt_free (s : Store T) (a b : Nat) :
    nodeAt (s.setCell a none) b = if b = a then none else nodeAt s b := by
  unfold nodeAt
  rw [cellAt_setCell]
  by_cases hba : b = a
  · subst hba
    by_cases hlt : b < s.mem.length
    · simp [hlt]
    · have : cellAt s b = none := by
        cases hc : cellAt s b with
        | none => rfl
        | some c => exact absurd (cellAt_lt hc) hlt
      simp [hlt, this]
  · simp [hba]

theorem sizeAt_putNode (s : Store T) (a b : Nat) (n : Node T) :
    sizeAt (s.putNode a n) b = sizeAt s b := by
  unfold sizeAt
  rw [cellAt_putNode]
  by_cases hba : b = a
  · subst hba
    simp only [if_true]
    cases hc : cellAt s b with
    | none => rfl
    | some c => cases c <;> rfl
  · simp [hba]

theorem sizeAt_putSize (s : Store T) (a b k m : Nat) (h : sizeAt s a = some m) :
    sizeAt (s.putSize a k) b = if b = a then some k else sizeAt s b := by
  unfold sizeAt at h ⊢
  rw [cellAt_putSize]
  by_cases hba : b = a
  · simp only [hba, if_true]
    cases hc : cellAt s a with
    | none => simp [hc] at h
    | some c =>
      cases c with
      | node n => simp [hc] at h
      | list hd sz => rfl
  · simp [hba]

theorem sizeAt_alloc (s : Store T) (b : Nat) (n : Node T) :
    sizeAt (s.alloc n) b = sizeAt s b := by
  unfold sizeAt
  rw [cellAt_alloc]
  by_cases hb : b = s.mem.length
  · have : cellAt s b = none := by
      cases hc : cellAt s b with
      | none => rfl
      | some c => exact absurd (cellAt_lt hc) (by omega)
    rw [this, if_pos hb]
  · simp [hb]

theorem sizeAt_free (s : Store T) (a b : Nat) (h : sizeAt s a = none) :
    sizeAt (s.setCell a none) b = sizeAt s b := by
  unfold sizeAt at h ⊢
  rw [cellAt_setCell]
  by_cases hba : b = a
  · subst hba
    by_cases hlt : b < s.mem.length
    · simp only [true_and, hlt, if_true]
      exact h.symm
    · simp [hlt]
  · simp [hba]

theorem isHeapNode_putNode (s : Store T) (a b : Nat) (n : Node T) :
    IsHeapNode (s.putNode a n) b ↔ IsHeapNode s b := by
  unfold IsHeapNode
  rw [cellAt_putNode]
  by_cases hba : b = a
  · subst hba
    simp only [if_true]
    cases hc : cellAt s b with
    | none => simp
    | some c => cases c <;> simp [Cell.withNode]
  · simp [hba]

theorem isHeapNode_putSize (s : Store T) (a b k : Nat) :
    IsHeapNode (s.putSize a k) b ↔ IsHeapNode s b := by
  unfold IsHeapNode
  rw [cellAt_putSize]
  by_cases hba : b = a
  · subst hba
    simp only [if_true]
    cases hc : cellAt s b with
    | none => simp
    | some c => cases c <;> simp
  · simp [hba]

theorem isHeapNode_alloc (s : Store T) (b : Nat) (n : Node T) :
    IsHeapNode (s.alloc n) b ↔ b = s.mem.length ∨ IsHeapNode s b := by
  unfold IsHeapNode
  rw [cellAt_alloc]
  by_cases hb : b = s.mem.length
  · simp [hb]
  · simp [hb]

theorem isHeapNode_free (s : Store T) (a b : Nat) :
    IsHeapNode (s.setCell a none) b ↔ b ≠ a ∧ IsHeapNode s b := by
  unfold IsHeapNode
  rw [cellAt_setCell]
  by_cases hba : b = a
  · subst hba
    by_cases hlt : b < s.mem.length
    · simp [hlt]
    · have : cellAt s b = none := by
        cases hc : cellAt s b with
        | none => rfl
        | some c => exact absurd (cellAt_lt hc) hlt
      simp [hlt, this]
  · simp [hba]

end views

/-! ## Steps of a computation -/

section steps
variable {T : Type}

theorem bind_ok {α β : Type} {x : Exec T α} {f : α → Exec T β} {s s1 : Store T} {a : α}
    (h : x s = .ok a s1) : (x >>= f) s = f a s1 := by
  show Exec.bind x f s = f a s1
  unfold Exec.bind
  rw [h]

theorem pure_ok {α : Type} (a : α) (s : Store T) : (pure a : Exec T α) s = .ok a s := rfl

theorem assert_ok {c : Bool} (s : Store T) (h : c = true) : assert c s = .ok () s := by
  subst h
  rfl

theorem readNode_ok {s : Store T} {a : Nat} {n : Node T} (h : nodeAt s a = some n) :
    readNode (some a) s = .ok n s := by
  unfold nodeAt at h
  unfold readNode
  cases hc : cellAt s a with
  | none => simp [hc] at h
  | some c =>
    simp only [hc, Option.map_some', Option.some.injEq] at h
    simp only [hc, h]

theorem writeNode_ok {s : Store T} {a : Nat} {m : Node T} (n : Node T)
    (h : nodeAt s a = some m) : writeNode (some a) n s = .ok () (s.putNode a n) := by
  unfold nodeAt at h
  unfold writeNode Store.putNode
  cases hc : cellAt s a with
  | none => simp [hc] at h
  | some c => simp only [hc]

theorem setNext_ok {s : Store T} {a : Nat} {m : Node T} (q : Option Nat)
    (h : nodeAt s a = some m) :
    setNext (some a) q s = .ok () (s.putNode a ⟨m.value, q⟩) := by
  unfold setNext
  rw [bind_ok (readNode_ok h)]
  exact writeNode_ok _ h

theorem newNode_ok {s : Store T} (v : T) (nx : Option Nat) (h : 0 < s.budget) :
    newNode v nx s = .ok (some s.mem.length) (s.alloc ⟨v, nx⟩) := by
  unfold newNode Store.alloc
  rw [if_neg (by omega)]

theorem readSize_ok {s : Store T} {a k : Nat} (h : sizeAt s a = some k) :
    readSize a s = .ok k s := by
  unfold sizeAt at h
  unfold readSize
  cases hc : cellAt s a with
  | none => simp [hc] at h
  | some c =>
    cases c with
    | node n => simp [hc] at h
    | list hd sz =>
      simp only [hc, Option.some.injEq] at h
      simp only [hc, h]

theorem writeSize_ok {s : Store T} {a k : Nat} (k2 : Nat) (h : sizeAt s a = some k) :
    writeSize a k2 s = .ok () (s.putSize a k2) := by
  unfold sizeAt at h
  unfold writeSize Store.putSize
  cases hc : cellAt s a with
  | none => simp [hc] at h
  | some c =>
    cases c with
    | node n => simp [hc] at h
    | list hd sz => simp only [hc]

theorem deleteNode_ok {s : Store T} {a : Nat} (h : IsHeapNode s a) :
    deleteNode (some a) s = .ok () (s.setCell a none) := by
  obtain ⟨n, hn⟩ := h
  unfold deleteNode
  simp only [hn]

theorem incr_ok {s : Store T} {a : Nat} {n : Node T} (h : nodeAt s a = some n) :
    BasicIterator.incr ⟨some a⟩ s = .ok ⟨n.next_node⟩ s := by
  unfold BasicIterator.incr
  simp only [Option.isSome_some]
  rw [bind_ok (assert_ok s rfl), bind_ok (readNode_ok h)]
  rfl

theorem deref_ok {s : Store T} {a : Nat} {n : Node T} (h : nodeAt s a = some n) :
    BasicIterator.deref ⟨some a⟩ s = .ok n.value s := by
  unfold BasicIterator.deref
  simp only [Option.isSome_some]
  rw [bind_ok (assert_ok s rfl), bind_ok (readNode_ok h)]
  rfl

theorem begin_ok {s : Store T} {this : Nat} {n : Node T} (h : nodeAt s this = some n) :
    begin_ this s = .ok ⟨n.next_node⟩ s := by
  unfold begin_
  rw [bind_ok (readNode_ok h)]
  rfl

theorem traverse_of_Seg {s : Store T} :
    ∀ (cells : List (Nat × T)) (p : Option Nat) (fuel : Nat), Seg s p cells none →
      cells.length < fuel → traverse end_ fuel ⟨p⟩ s = .ok (cells.map Prod.snd) s
  | [], p, 0, _, hf => by simp at hf
  | [], p, fuel + 1, h, _ => by
    have : p = none := h
    subst this
    rfl
  | c :: cs, p, 0, _, hf => by simp at hf
  | c :: cs, p, fuel + 1, ⟨hp, nx, hn, hrest⟩, hf => by
    subst hp
    have ih := traverse_of_Seg cs nx fuel hrest (by simpa using hf)
    unfold traverse
    have hne : BasicIterator.ne ⟨some c.1⟩ end_ = true := rfl
    rw [if_pos hne, bind_ok (deref_ok hn), bind_ok (incr_ok hn), bind_ok ih]
    rfl

theorem advance_of_Seg {s : Store T} :
    ∀ (l : List (Nat × T)) (p m : Option Nat), Seg s p l m →
      advance l.length ⟨p⟩ s = .ok ⟨m⟩ s
  | [], p, m, h => by
    have : p = m := h
    subst this
    rfl
  | c :: cs, p, m, ⟨hp, nx, hn, hrest⟩ => by
    subst hp
    show advance (cs.length + 1) ⟨some c.1⟩ s = .ok ⟨m⟩ s
    unfold advance
    rw [bind_ok (incr_ok hn)]
    exact advance_of_Seg cs nx m hrest

theorem elements_of_Shape {s : Store T} {this : Nat} {cells : List (Nat × T)}
    (h : Shape s this cells) : elements s this = some (cells.map Prod.snd) := by
  obtain ⟨d, sz, _, ⟨_, nx, hn, hrest⟩, _⟩ := h
  unfold elements toList
  rw [bind_ok (begin_ok hn)]
  show (match traverse end_ (s.mem.length + 1) ⟨nx⟩ s with
    | .ok l _ => some l
    | _ => none) = _
  rw [traverse_of_Seg cells nx _ hrest (by have := Seg_length_le cells nx hrest; omega)]

theorem GetSize_ok {s : Store T} {this k : Nat} (h : sizeAt s this = some k) :
    GetSize this s = .ok k s :=
  readSize_ok h

theorem sizeAt_of_GetSize {s s1 : Store T} {this k : Nat} (h : GetSize this s = .ok k s1) :
    sizeAt s this = some k := by
  unfold GetSize readSize at h
  unfold sizeAt
  cases hc : cellAt s this with
  | none => simp [hc] at h
  | some c =>
    cases c with
    | node n => simp [hc] at h
    | list hd sz =>
      simp only [hc, Outcome.ok.injEq] at h
      simp only [h.1]

end steps

/-! ## Insertion -/

section insertion
variable {T : Type}

theorem nodeAt_alloc_old {s : Store T} {a : Nat} {n : Node T} (m : Node T)
    (hn : nodeAt s a = some n) : nodeAt (s.alloc m) a = some n := by
  rw [nodeAt_alloc, if_neg (Nat.ne_of_lt (nodeAt_lt hn))]
  exact hn

theorem InsertAfter_exec {s : Store T} {this a sz : Nat} {n : Node T} (v : T)
    (hn : nodeAt s a = some n) (hsz : sizeAt s this = some sz) (hb : 0 < s.budget) :
    InsertAfter this ⟨some a⟩ v s = .ok ⟨some s.mem.length⟩ (insertStore s this a n v sz) := by
  have h1 := nodeAt_alloc_old ⟨v, n.next_node⟩ hn
  have h2 : sizeAt ((s.alloc ⟨v, n.next_node⟩).putNode a ⟨n.value, some s.mem.length⟩) this
      = some sz := by
    rw [sizeAt_putNode, sizeAt_alloc]
    exact hsz
  unfold InsertAfter
  simp only [Option.isSome_some]
  rw [bind_ok (assert_ok s rfl), bind_ok (readNode_ok hn), bind_ok (newNode_ok v _ hb),
    bind_ok (setNext_ok _ h1), bind_ok (readSize_ok h2), bind_ok (writeSize_ok _ h2)]
  rfl

theorem PushFront_exec {s : Store T} {this sz : Nat} {n : Node T} (v : T)
    (hn : nodeAt s this = some n) (hsz : sizeAt s this = some sz) (hb : 0 < s.budget) :
    PushFront this v s = .ok () (insertStore s this this n v sz) := by
  have h1 := nodeAt_alloc_old ⟨v, n.next_node⟩ hn
  have h2 : sizeAt ((s.alloc ⟨v, n.next_node⟩).putNode this ⟨n.value, some s.mem.length⟩) this
      = some sz := by
    rw [sizeAt_putNode, sizeAt_alloc]
    exact hsz
  unfold PushFront
  rw [bind_ok (readNode_ok hn), bind_ok (newNode_ok v _ hb),
    bind_ok (setNext_ok _ h1), bind_ok (readSize_ok h2)]
  exact writeSize_ok _ h2

theorem nodeAt_insertStore {s : Store T} (this : Nat) {a : Nat} (sz : Nat) {n : Node T} (v : T)
    (hn : nodeAt s a = some n) (b : Nat) :
    nodeAt (insertStore s this a n v sz) b
      = if b = a then some ⟨n.value, some s.mem.length⟩
        else if b = s.mem.length then some ⟨v, n.next_node⟩ else nodeAt s b := by
  unfold insertStore
  rw [nodeAt_putSize, nodeAt_putNode _ _ _ _ _ (nodeAt_alloc_old _ hn), nodeAt_alloc]

theorem sizeAt_insertStore {s : Store T} {this a sz : Nat} {n : Node T} (v : T)
    (hsz : sizeAt s this = some sz) :
    sizeAt (insertStore s this a n v sz) this = some (sz + 1) := by
  unfold insertStore
  rw [sizeAt_putSize _ _ _ _ sz (by rw [sizeAt_putNode, sizeAt_alloc]; exact hsz), if_pos rfl]

theorem isHeapNode_insertStore (s : Store T) (this a sz : Nat) (n : Node T) (v : T) (b : Nat) :
    IsHeapNode (insertStore s this a n v sz) b ↔ b = s.mem.length ∨ IsHeapNode s b := by
  unfold insertStore
  rw [isHeapNode_putSize, isHeapNode_putNode, isHeapNode_alloc]

/-- A list is its first `k` items, the item at `k`, and the rest. -/
theorem split_at {α : Type} :
    ∀ (C : List α) (k : Nat), k < C.length →
      ∃ x, C = C.take k ++ x :: C.drop (k + 1) ∧ C.take (k + 1) = C.take k ++ [x]
  | [], k, h => by simp at h
  | c :: cs, 0, _ => ⟨c, by simp, by simp⟩
  | c :: cs, k + 1, h => by
    obtain ⟨x, h1, h2⟩ := split_at cs k (by simpa using h)
    refine ⟨x, ?_, ?_⟩
    · simp only [List.take_succ_cons, List.drop_succ_cons, List.cons_append]
      rw [← h1]
    · simp only [List.take_succ_cons, List.cons_append]
      rw [h2]

/-- The chain after a node `(L, v)` is linked behind the node at `a`. -/
theorem Seg_insert {s s2 : Store T} {p0 nx : Option Nat} {a L : Nat} {va v : T}
    {pre post : List (Nat × T)}
    (hC : Seg s p0 (pre ++ (a, va) :: post) none)
    (hn : nodeAt s a = some ⟨va, nx⟩)
    (ha : nodeAt s2 a = some ⟨va, some L⟩)
    (hL : nodeAt s2 L = some ⟨v, nx⟩)
    (hframe : ∀ b, b ≠ a → b ≠ L → nodeAt s2 b = nodeAt s b)
    (hfresh : ∀ c ∈ pre ++ (a, va) :: post, c.1 ≠ L) :
    Seg s2 p0 (pre ++ (a, va) :: (L, v) :: post) none := by
  have hnd := Seg_nodup _ _ hC
  obtain ⟨m, hpre, hm, nx2, hn2, hpost⟩ := (Seg_append pre ((a, va) :: post) p0 none).1 hC
  have hnx : nx2 = nx := by
    rw [hn] at hn2
    exact (congrArg Node.next_node (Option.some.inj hn2)).symm
  subst hnx
  rw [List.map_append, List.map_cons, List.nodup_append] at hnd
  obtain ⟨_, hnd2, hdisj⟩ := hnd
  have hapre : ∀ c ∈ pre, c.1 ≠ a := by
    intro c hc heq
    have h3 : c.1 ∈ pre.map Prod.fst := List.mem_map_of_mem Prod.fst hc
    rw [heq] at h3
    exact hdisj h3 (List.mem_cons_self _ _)
  have hapost : ∀ c ∈ post, c.1 ≠ a := by
    intro c hc heq
    have h3 : c.1 ∈ post.map Prod.fst := List.mem_map_of_mem Prod.fst hc
    rw [heq] at h3
    exact (List.nodup_cons.1 hnd2).1 h3
  refine (Seg_append pre _ p0 none).2 ⟨m, ?_, hm, some L, ha, rfl, nx2, hL, ?_⟩
  · exact Seg_frame pre p0 m hpre (fun c hc =>
      hframe c.1 (hapre c hc) (hfresh c (List.mem_append_left _ hc)))
  · exact Seg_frame post nx2 none hpost (fun c hc =>
      hframe c.1 (hapost c hc)
        (hfresh c (List.mem_append_right _ (List.mem_cons_of_mem _ hc))))

end insertion

/-! ## Positions -/

section positions
variable {T : Type}

theorem ok_inj {α : Type} {a b : α} {s1 s2 : Store T}
    (h : (Outcome.ok a s1 : Outcome (Store T) α) = .ok b s2) : a = b ∧ s1 = s2 := by
  cases h
  exact ⟨rfl, rfl⟩

/-- The position reached by `k` increments along a chain is the node at
index `k` of the chain. -/
theorem advance_split {s s1 : Store T} {p : Option Nat} {C : List (Nat × T)} {k : Nat}
    {pos : BasicIterator} (hC : Seg s p C none) (hk : k < C.length)
    (hadv : advance k ⟨p⟩ s = .ok pos s1) :
    ∃ pre a va post, C = pre ++ (a, va) :: post ∧ pos = ⟨some a⟩ ∧
      C.take (k + 1) = pre ++ [(a, va)] ∧ C.drop (k + 1) = post ∧ C.take k = pre := by
  obtain ⟨x, h1, h2⟩ := split_at C k hk
  have hlen : (C.take k).length = k := by
    rw [List.length_take]
    omega
  have hC2 := hC
  rw [h1] at hC2
  obtain ⟨m, hpre, hm, _⟩ := (Seg_append (C.take k) (x :: C.drop (k + 1)) p none).1 hC2
  have hadv2 := advance_of_Seg (C.take k) p m hpre
  rw [hlen, hadv] at hadv2
  have hpos := (ok_inj hadv2).1
  refine ⟨C.take k, x.1, x.2, C.drop (k + 1), h1, ?_, h2, rfl, rfl⟩
  rw [hpos, hm]

theorem Shape_elements {s : Store T} {this : Nat} {cells : List (Nat × T)} {S : List T}
    (h : Shape s this cells) (hS : elements s this = some S) : cells.map Prod.snd = S := by
  rw [elements_of_Shape h] at hS
  exact Option.some.inj hS

theorem Shape_fresh {s : Store T} {this : Nat} {cells : List (Nat × T)} {d : T}
    (h : Seg s (some this) ((this, d) :: cells) none) :
    ∀ c ∈ (this, d) :: cells, c.1 ≠ s.mem.length :=
  fun c hc => Nat.ne_of_lt (Seg_lt _ _ _ h c hc)

/-- `InsertAfter` at the position `k` increments behind `before_begin()`. -/
theorem InsertAfter_at {s : Store T} {this sz k : Nat} {cells : List (Nat × T)}
    {pos : BasicIterator} (v : T) (hsh : Shape s this cells) (hsz : sizeAt s this = some sz)
    (hk : k ≤ cells.length) (hpos : advance k (before_begin this) s = .ok pos s)
    (hb : 0 < s.budget) :
    ∃ a n, pos = ⟨some a⟩ ∧ nodeAt s a = some n ∧
      InsertAfter this pos v s = .ok ⟨some s.mem.length⟩ (insertStore s this a n v sz) ∧
      Shape (insertStore s this a n v sz) this
        (cells.take k ++ (s.mem.length, v) :: cells.drop k) ∧
      sizeAt (insertStore s this a n v sz) this = some (sz + 1) ∧
      nodeAt (insertStore s this a n v sz) a = some ⟨n.value, some s.mem.length⟩ ∧
      nodeAt (insertStore s this a n v sz) s.mem.length = some ⟨v, n.next_node⟩ ∧
      Seg s n.next_node (cells.drop k) none := by
  obtain ⟨d, sz0, _, hC, hheap⟩ := hsh
  obtain ⟨pre, a, va, post, hsplit, hp, htake, hdrop, _⟩ :=
    advance_split hC (by simp; omega) hpos
  have hC2 := hC
  rw [hsplit] at hC2
  obtain ⟨m, _, _, nx, hn, hpostseg⟩ :=
    (Seg_append pre ((a, va) :: post) (some this) none).1 hC2
  have hne : a ≠ s.mem.length := Nat.ne_of_lt (nodeAt_lt hn)
  have hnodeA := nodeAt_insertStore this sz v hn a
  have hnodeL := nodeAt_insertStore this sz v hn s.mem.length
  rw [if_pos rfl] at hnodeA
  rw [if_neg hne.symm, if_pos rfl] at hnodeL
  have hseg := Seg_insert (v := v) hC2 hn hnodeA hnodeL
    (fun b hba hbL => by rw [nodeAt_insertStore this sz v hn, if_neg hba, if_neg hbL])
    (by rw [← hsplit]; exact Shape_fresh hC)
  have hlist : pre ++ (a, va) :: (s.mem.length, v) :: post
      = (this, d) :: (cells.take k ++ (s.mem.length, v) :: cells.drop k) := by
    have e1 : pre ++ (a, va) :: (s.mem.length, v) :: post
        = (pre ++ [(a, va)]) ++ (s.mem.length, v) :: post := by simp
    rw [e1, ← htake, ← hdrop]
    simp
  rw [hlist] at hseg
  refine ⟨a, ⟨va, nx⟩, hp, hn, ?_, ⟨d, sz + 1, sizeAt_insertStore v hsz, hseg, ?_⟩,
    sizeAt_insertStore v hsz, hnodeA, hnodeL, ?_⟩
  · rw [hp]
    exact InsertAfter_exec v hn hsz hb
  · intro c hc
    rw [isHeapNode_insertStore]
    rcases List.mem_append.1 hc with h | h
    · exact Or.inr (hheap c (List.mem_of_mem_take h))
    · rcases List.mem_cons.1 h with h | h
      · left
        rw [h]
      · exact Or.inr (hheap c (List.mem_of_mem_drop h))
  · have hd : cells.drop k = post := by simpa using hdrop
    rw [hd]
    exact hpostseg

theorem Seg_none_iff {s : Store T} {p : Option Nat} {l : List (Nat × T)}
    (h : Seg s p l none) : p = none ↔ l = [] := by
  cases l with
  | nil => exact ⟨fun _ => rfl, fun _ => h⟩
  | cons c cs =>
    constructor
    · intro hp
      rw [hp] at h
      exact absurd h.1 (by simp)
    · intro hl
      cases hl

end positions

/-! ## Removal -/

section removal
variable {T : Type}

theorem sizeAt_of_isHeapNode {s : Store T} {b : Nat} (h : IsHeapNode s b) :
    sizeAt s b = none := by
  obtain ⟨n, hn⟩ := h
  unfold sizeAt
  rw [hn]

theorem erase_steps {s : Store T} {this a b sz : Nat} {n : Node T} (nb : Node T)
    (hn : nodeAt s a = some n) (hheap : IsHeapNode s b) (hab : a ≠ b)
    (hsz : sizeAt s this = some sz) :
    IsHeapNode (s.putNode a ⟨n.value, nb.next_node⟩) b ∧
    sizeAt ((s.putNode a ⟨n.value, nb.next_node⟩).setCell b none) this = some sz ∧
    nodeAt (eraseStore s this a n b nb sz) a = some ⟨n.value, nb.next_node⟩ := by
  have h1 : IsHeapNode (s.putNode a ⟨n.value, nb.next_node⟩) b :=
    (isHeapNode_putNode _ _ _ _).2 hheap
  refine ⟨h1, ?_, ?_⟩
  · rw [sizeAt_free _ _ _ (sizeAt_of_isHeapNode h1), sizeAt_putNode]
    exact hsz
  · unfold eraseStore
    rw [nodeAt_putSize, nodeAt_free, if_neg hab, nodeAt_putNode _ _ _ _ _ hn, if_pos rfl]

theorem EraseAfter_exec {s : Store T} {this a b sz : Nat} {n nb : Node T}
    (hn : nodeAt s a = some n) (hnx : n.next_node = some b) (hnb : nodeAt s b = some nb)
    (hheap : IsHeapNode s b) (hab : a ≠ b) (hsz : sizeAt s this = some sz) (hpos : 0 < sz) :
    EraseAfter this ⟨some a⟩ s = .ok ⟨nb.next_node⟩ (eraseStore s this a n b nb sz) := by
  obtain ⟨h1, h2, h3⟩ := erase_steps nb hn hheap hab hsz
  unfold EraseAfter
  simp only [Option.isSome_some]
  rw [bind_ok (assert_ok s rfl), bind_ok (readNode_ok hn)]
  simp only [hnx, Option.isSome_some]
  rw [bind_ok (assert_ok s rfl), bind_ok (readSize_ok hsz),
    bind_ok (assert_ok s (decide_eq_true hpos)), bind_ok (readNode_ok hnb),
    bind_ok (setNext_ok _ hn), bind_ok (deleteNode_ok h1), bind_ok (readSize_ok h2),
    bind_ok (writeSize_ok _ h2)]
  have h4 : readNode (some a) (eraseStore s this a n b nb sz)
      = .ok ⟨n.value, nb.next_node⟩ (eraseStore s this a n b nb sz) := readNode_ok h3
  unfold eraseStore at h4
  rw [bind_ok h4]
  rfl

theorem PopFront_exec {s : Store T} {this b sz : Nat} {n nb : Node T}
    (hn : nodeAt s this = some n) (hnx : n.next_node = some b) (hnb : nodeAt s b = some nb)
    (hheap : IsHeapNode s b) (hab : this ≠ b) (hsz : sizeAt s this = some sz) (hpos : 0 < sz) :
    PopFront this s = .ok () (eraseStore s this this n b nb sz) := by
  obtain ⟨h1, h2, _⟩ := erase_steps nb hn hheap hab hsz
  unfold PopFront
  rw [bind_ok (readSize_ok hsz), bind_ok (assert_ok s (decide_eq_true hpos)),
    bind_ok (readNode_ok hn)]
  simp only [hnx]
  rw [bind_ok (readNode_ok hnb), bind_ok (setNext_ok _ hn), bind_ok (deleteNode_ok h1),
    bind_ok (readSize_ok h2)]
  exact writeSize_ok _ h2

theorem nodeAt_eraseStore {s : Store T} (this : Nat) {a : Nat} {n : Node T} (b : Nat)
    (nb : Node T) (sz : Nat) (hn : nodeAt s a = some n) (c : Nat) :
    nodeAt (eraseStore s this a n b nb sz) c
      = if c = b then none
        else if c = a then some ⟨n.value, nb.next_node⟩ else nodeAt s c := by
  unfold eraseStore
  rw [nodeAt_putSize, nodeAt_free, nodeAt_putNode _ _ _ _ _ hn]

theorem sizeAt_eraseStore {s : Store T} {this a b sz : Nat} {n nb : Node T}
    (hn : nodeAt s a = some n) (hheap : IsHeapNode s b) (hab : a ≠ b)
    (hsz : sizeAt s this = some sz) :
    sizeAt (eraseStore s this a n b nb sz) this = some (sz - 1) := by
  obtain ⟨_, h2, _⟩ := erase_steps nb hn hheap hab hsz
  unfold eraseStore
  rw [sizeAt_putSize _ _ _ _ sz h2, if_pos rfl]

theorem isHeapNode_eraseStore (s : Store T) (this a : Nat) (n : Node T) (b : Nat)
    (nb : Node T) (sz c : Nat) :
    IsHeapNode (eraseStore s this a n b nb sz) c ↔ c ≠ b ∧ IsHeapNode s c := by
  unfold eraseStore
  rw [isHeapNode_putSize, isHeapNode_free, isHeapNode_putNode]

/-- Two neighbours in a null-terminated chain are different nodes. -/
theorem Seg_adjacent {s : Store T} {p0 : Option Nat} {a b : Nat} {va vb : T}
    {pre post : List (Nat × T)}
    (hC : Seg s p0 (pre ++ (a, va) :: (b, vb) :: post) none) : a ≠ b := by
  have hnd := Seg_nodup _ _ hC
  rw [List.map_append, List.map_cons, List.map_cons, List.nodup_append] at hnd
  obtain ⟨_, hnd2, _⟩ := hnd
  obtain ⟨hanot, _⟩ := List.nodup_cons.1 hnd2
  exact fun h => hanot (by rw [h]; exact List.mem_cons_self _ _)

/-- The chain after the node behind the node at `a` is unlinked. -/
theorem Seg_erase {s s2 : Store T} {p0 nxb : Option Nat} {a b : Nat} {va vb : T}
    {pre post : List (Nat × T)}
    (hC : Seg s p0 (pre ++ (a, va) :: (b, vb) :: post) none)
    (hnb : nodeAt s b = some ⟨vb, nxb⟩)
    (ha : nodeAt s2 a = some ⟨va, nxb⟩)
    (hframe : ∀ c, c ≠ a → c ≠ b → nodeAt s2 c = nodeAt s c) :
    Seg s2 p0 (pre ++ (a, va) :: post) none ∧ a ≠ b ∧ Seg s nxb post none := by
  have hnd := Seg_nodup _ _ hC
  obtain ⟨m, hpre, hm, nx, hn, _, nx2, hn2, hpost⟩ :=
    (Seg_append pre ((a, va) :: (b, vb) :: post) p0 none).1 hC
  have hnx : nx2 = nxb := by
    rw [hnb] at hn2
    exact (congrArg Node.next_node (Option.some.inj hn2)).symm
  subst hnx
  rw [List.map_append, List.map_cons, List.map_cons, List.nodup_append] at hnd
  obtain ⟨_, hnd2, hdisj⟩ := hnd
  obtain ⟨hanot, hnd3⟩ := List.nodup_cons.1 hnd2
  obtain ⟨hbnot, _⟩ := List.nodup_cons.1 hnd3
  have hab : a ≠ b := fun h => hanot (by rw [h]; exact List.mem_cons_self _ _)
  have hpre2 : ∀ c ∈ pre, c.1 ≠ a ∧ c.1 ≠ b := by
    intro c hc
    have h3 : c.1 ∈ pre.map Prod.fst := List.mem_map_of_mem Prod.fst hc
    constructor
    · intro heq
      rw [heq] at h3
      exact hdisj h3 (List.mem_cons_self _ _)
    · intro heq
      rw [heq] at h3
      exact hdisj h3 (List.mem_cons_of_mem _ (List.mem_cons_self _ _))
  have hpost2 : ∀ c ∈ post, c.1 ≠ a ∧ c.1 ≠ b := by
    intro c hc
    have h3 : c.1 ∈ post.map Prod.fst := List.mem_map_of_mem Prod.fst hc
    constructor
    · intro heq
      rw [heq] at h3
      exact hanot (List.mem_cons_of_mem _ h3)
    · intro heq
      rw [heq] at h3
      exact hbnot h3
  refine ⟨(Seg_append pre _ p0 none).2 ⟨m, ?_, hm, nx2, ha, ?_⟩, hab, hpost⟩
  · exact Seg_frame pre p0 m hpre (fun c hc => hframe c.1 (hpre2 c hc).1 (hpre2 c hc).2)
  · exact Seg_frame post nx2 none hpost
      (fun c hc => hframe c.1 (hpost2 c hc).1 (hpost2 c hc).2)

end removal

section erasing
variable {T : Type}

/-- `EraseAfter` at the position `k` increments behind `before_begin()`. -/
theorem EraseAfter_at {s : Store T} {this sz k : Nat} {cells : List (Nat × T)}
    {pos : BasicIterator} (hsh : Shape s this cells) (hsz : sizeAt s this = some sz)
    (hsz0 : 0 < sz) (hk : k < cells.length)
    (hpos : advance k (before_begin this) s = .ok pos s) :
    ∃ a n b nb, pos = ⟨some a⟩ ∧ nodeAt s a = some n ∧ n.next_node = some b ∧
      nodeAt s b = some nb ∧ a ≠ b ∧ IsHeapNode s b ∧
      (nb.next_node = none ↔ k + 1 = cells.length) ∧
      EraseAfter this pos s = .ok ⟨nb.next_node⟩ (eraseStore s this a n b nb sz) ∧
      Shape (eraseStore s this a n b nb sz) this (cells.take k ++ cells.drop (k + 1)) ∧
      sizeAt (eraseStore s this a n b nb sz) this = some (sz - 1) ∧
      nodeAt (eraseStore s this a n b nb sz) a = some ⟨n.value, nb.next_node⟩ := by
  obtain ⟨d, sz0, _, hC, hheap⟩ := hsh
  obtain ⟨pre, a, va, post, hsplit, hp, htake, hdrop, _⟩ :=
    advance_split hC (by simp; omega) hpos
  have hdrop2 : cells.drop k = post := by simpa using hdrop
  obtain ⟨bc, hbc1, _⟩ := split_at cells k hk
  have hpost : post = bc :: cells.drop (k + 1) := by
    rw [← hdrop2]
    conv_lhs => rw [hbc1]
    rw [List.drop_append_of_le_length (by rw [List.length_take]; omega)]
    have : (cells.take k).length = k := by
      rw [List.length_take]
      omega
    rw [List.drop_eq_nil_of_le (by omega)]
    rfl
  have hbmem : bc ∈ cells := by
    rw [hbc1]
    exact List.mem_append_right _ (List.mem_cons_self _ _)
  have hC2 := hC
  rw [hsplit, hpost] at hC2
  obtain ⟨m, _, _, nx, hn, hnxb, nxb, hnb, hrest⟩ :=
    (Seg_append pre ((a, va) :: bc :: cells.drop (k + 1)) (some this) none).1 hC2
  have hn2 : nodeAt s a = some ⟨va, nx⟩ := hn
  have hC3 : Seg s (some this) (pre ++ (a, va) :: (bc.1, bc.2) :: cells.drop (k + 1)) none :=
    hC2
  have hab : a ≠ bc.1 := Seg_adjacent hC3
  have hbheap := hheap bc hbmem
  have hnA := (erase_steps ⟨bc.2, nxb⟩ hn2 hbheap hab hsz).2.2
  have hseg := (Seg_erase hC3 hnb hnA
    (fun c hca hcb => by
      rw [nodeAt_eraseStore this bc.1 ⟨bc.2, nxb⟩ sz hn2, if_neg hcb, if_neg hca])).1
  have hlist : pre ++ (a, va) :: cells.drop (k + 1)
      = (this, d) :: (cells.take k ++ cells.drop (k + 1)) := by
    have e1 : pre ++ (a, va) :: cells.drop (k + 1)
        = (pre ++ [(a, va)]) ++ cells.drop (k + 1) := by simp
    rw [e1, ← htake]
    simp
  rw [hlist] at hseg
  have hgone : nodeAt (eraseStore s this a ⟨va, nx⟩ bc.1 ⟨bc.2, nxb⟩ sz) bc.1 = none := by
    rw [nodeAt_eraseStore this bc.1 ⟨bc.2, nxb⟩ sz hn2, if_pos rfl]
  refine ⟨a, ⟨va, nx⟩, bc.1, ⟨bc.2, nxb⟩, hp, hn2, hnxb, hnb, hab, hbheap, ?_, ?_,
    ⟨d, sz - 1, sizeAt_eraseStore hn2 hbheap hab hsz, hseg, ?_⟩,
    sizeAt_eraseStore hn2 hbheap hab hsz, hnA⟩
  · constructor
    · intro hnone
      have hnone2 : nxb = none := hnone
      rw [hnone2] at hrest
      cases hd : cells.drop (k + 1) with
      | nil =>
        have := List.drop_eq_nil_iff.1 hd
        omega
      | cons c cs =>
        rw [hd] at hrest
        exact absurd hrest.1 (by simp)
    · intro hlen
      rw [List.drop_eq_nil_of_le (by omega)] at hrest
      exact hrest
  · rw [hp]
    exact EraseAfter_exec hn2 hnxb hnb hbheap hab hsz hsz0
  · intro c hc
    rw [isHeapNode_eraseStore]
    constructor
    · intro hcb
      have hlive := Seg_live _ _ _ hseg c (List.mem_cons_of_mem _ hc)
      rw [hcb, hgone] at hlive
      exact absurd hlive (by simp)
    · rcases List.mem_append.1 hc with h | h
      · exact hheap c (List.mem_of_mem_take h)
      · exact hheap c (List.mem_of_mem_drop h)

end erasing

section roundtrip
variable {T : Type}

theorem Shape_congr {s s2 : Store T} {this : Nat} {cells : List (Nat × T)}
    (h : ∀ b, cellAt s2 b = cellAt s b) (hsh : Shape s this cells) : Shape s2 this cells := by
  obtain ⟨d, sz, hsz, hC, hheap⟩ := hsh
  refine ⟨d, sz, ?_, Seg_frame _ _ _ hC (fun c _ => ?_), fun c hc => ?_⟩
  · unfold sizeAt
    rw [h]
    exact hsz
  · unfold nodeAt
    rw [h]
  · obtain ⟨n, hn⟩ := hheap c hc
    exact ⟨n, by rw [h]; exact hn⟩

/-- Unlinking the node that was just linked behind the node at `a` gives back
every object of the memory as it was. -/
theorem erase_insert_cells {s : Store T} {this a sz : Nat} {n : Node T} (v : T)
    (hn : nodeAt s a = some n) (hsz : sizeAt s this = some sz) (b : Nat) :
    cellAt (eraseStore (insertStore s this a n v sz) this a ⟨n.value, some s.mem.length⟩
      s.mem.length ⟨v, n.next_node⟩ (sz + 1)) b = cellAt s b := by
  have haL : a ≠ s.mem.length := Nat.ne_of_lt (nodeAt_lt hn)
  have hthis : cellAt s this ≠ none := by
    intro h
    simp [sizeAt, h] at hsz
  have htL : this ≠ s.mem.length := by
    intro h
    cases hc : cellAt s this with
    | none => exact hthis hc
    | some c => exact absurd (cellAt_lt hc) (by omega)
  have hLnone : cellAt s s.mem.length = none := by
    cases hc : cellAt s s.mem.length with
    | none => rfl
    | some c => exact absurd (cellAt_lt hc) (by omega)
  unfold eraseStore insertStore
  simp only [cellAt_putSize, cellAt_setCell, cellAt_putNode, cellAt_alloc, putSize_length,
    putNode_length, alloc_length, Nat.lt_succ_self, and_true, Nat.add_sub_cancel]
  unfold nodeAt at hn
  unfold sizeAt at hsz
  by_cases hbL : b = s.mem.length
  · subst hbL
    simp [hLnone, htL.symm]
  · by_cases hba : b = a
    · subst hba
      cases hc : cellAt s b with
      | none => simp [hc] at hn
      | some c =>
        cases c with
        | node m =>
          simp only [hc, Option.map_some', Cell.theNode, Option.some.injEq] at hn
          subst hn
          by_cases hbt : b = this
          · subst hbt
            simp [hc] at hsz
          · simp [hc, hbL, hbt, Cell.withNode, htL, haL, Ne.symm hbt]
        | list h k =>
          simp only [hc, Option.map_some', Cell.theNode, Option.some.injEq] at hn
          subst hn
          by_cases hbt : b = this
          · subst hbt
            simp only [hc, Option.some.injEq] at hsz
            subst hsz
            simp [hc, hbL, Cell.withNode]
          · simp [hc, hbL, hbt, Cell.withNode, htL, haL, Ne.symm hbt]
    · by_cases hbt : b = this
      · subst hbt
        cases hc : cellAt s b with
        | none => exact absurd hc hthis
        | some c =>
          cases c with
          | node m => simp [hc] at hsz
          | list h k =>
            simp only [hc, Option.some.injEq] at hsz
            subst hsz
            simp [hc, hbL, hba, Ne.symm hba, htL, haL]
      · simp [hbL, hba, hbt]

end roundtrip

/-! ## Exchange of two lists -/

section exchange
variable {T : Type}

theorem nodeAt_of_cellAt {s : Store T} {a : Nat} {c : Cell T} (h : cellAt s a = some c) :
    nodeAt s a = some c.theNode := by
  unfold nodeAt
  rw [h]
  rfl

theorem sizeAt_of_cellAt {s : Store T} {a k : Nat} {h : Node T}
    (hc : cellAt s a = some (.list h k)) : sizeAt s a = some k := by
  unfold sizeAt
  rw [hc]

/-- The member `swap` exchanges the two list objects and touches nothing
else. -/
theorem swap_cells {s : Store T} {a b ka kb : Nat} {ha hb : Node T}
    (hca : cellAt s a = some (.list ha ka)) (hcb : cellAt s b = some (.list hb kb)) :
    ∃ s1, swap a b s = .ok () s1 ∧ s1.mem.length = s.mem.length ∧ s1.budget = s.budget ∧
      ∀ c, cellAt s1 c = if c = a then some (.list hb kb)
        else if c = b then some (.list ha ka) else cellAt s c := by
  have hna : nodeAt s a = some ha := nodeAt_of_cellAt hca
  have hnb : nodeAt s b = some hb := nodeAt_of_cellAt hcb
  have h1 : nodeAt (s.putNode a hb) b = some (if b = a then hb else hb) := by
    rw [nodeAt_putNode _ _ _ _ _ hna]
    by_cases hba : b = a
    · simp [hba]
    · simp [hba, hnb]
  simp only [ite_self] at h1
  have h2 : sizeAt ((s.putNode a hb).putNode b ha) a = some ka := by
    rw [sizeAt_putNode, sizeAt_putNode]
    exact sizeAt_of_cellAt hca
  have h3 : sizeAt ((s.putNode a hb).putNode b ha) b = some kb := by
    rw [sizeAt_putNode, sizeAt_putNode]
    exact sizeAt_of_cellAt hcb
  have h4 : sizeAt (((s.putNode a hb).putNode b ha).putSize a kb) b = some kb := by
    rw [sizeAt_putSize _ _ _ _ _ h2]
    by_cases hba : b = a
    · simp [hba]
    · simp [hba, h3]
  refine ⟨((((s.putNode a hb).putNode b ha).putSize a kb).putSize b ka), ?_, by simp, by simp,
    ?_⟩
  · unfold swap
    rw [bind_ok (readNode_ok hna), bind_ok (readNode_ok hnb), bind_ok (writeNode_ok _ hna),
      bind_ok (writeNode_ok _ h1), bind_ok (readSize_ok h2), bind_ok (readSize_ok h3),
      bind_ok (writeSize_ok _ h2)]
    exact writeSize_ok _ h4
  · intro c
    simp only [cellAt_putSize, cellAt_putNode]
    by_cases hab : a = b
    · subst hab
      rw [hca] at hcb
      cases hcb
      by_cases hc : c = a
      · simp [hc, hca, Cell.withNode]
      · simp [hc]
    · by_cases hc : c = a
      · subst hc
        simp [hab, hca, Cell.withNode]
      · by_cases hc2 : c = b
        · subst hc2
          simp [Ne.symm hab, hcb, Cell.withNode]
        · simp [hc, hc2]

/-- A list object whose `head_` leads into a chain of heap nodes that a change
of the memory did not touch. -/
theorem Shape_of_cells {s s1 : Store T} {x k : Nat} {h : Node T} {cells : List (Nat × T)}
    (hx : cellAt s1 x = some (.list h k)) (hseg : Seg s h.next_node cells none)
    (hheap : ∀ c ∈ cells, IsHeapNode s c.1)
    (hframe : ∀ c ∈ cells, cellAt s1 c.1 = cellAt s c.1) : Shape s1 x cells := by
  refine ⟨h.value, k, sizeAt_of_cellAt hx, ⟨rfl, h.next_node, nodeAt_of_cellAt hx, ?_⟩, ?_⟩
  · exact Seg_frame _ _ _ hseg (fun c hc => by unfold nodeAt; rw [hframe c hc])
  · intro c hc
    obtain ⟨n, hn⟩ := hheap c hc
    exact ⟨n, by rw [hframe c hc]; exact hn⟩

/-- What `Shape` says about the cell of the list object. -/
theorem Shape_cell {s : Store T} {x : Nat} {cells : List (Nat × T)} (h : Shape s x cells) :
    ∃ hd k, cellAt s x = some (.list hd k) ∧ Seg s hd.next_node cells none ∧
      ∀ c ∈ cells, IsHeapNode s c.1 := by
  obtain ⟨d, sz, hsz, ⟨_, nx, hn, hrest⟩, hheap⟩ := h
  unfold sizeAt at hsz
  unfold nodeAt at hn
  cases hc : cellAt s x with
  | none => simp [hc] at hsz
  | some c =>
    cases c with
    | node n => simp [hc] at hsz
    | list hd k =>
      simp only [hc, Option.map_some', Cell.theNode, Option.some.injEq] at hn
      refine ⟨hd, k, rfl, ?_, hheap⟩
      rw [hn]
      exact hrest

theorem heap_ne_list {s : Store T} {x c k : Nat} {h : Node T}
    (hx : cellAt s x = some (.list h k)) (hc : IsHeapNode s c) : c ≠ x := by
  intro heq
  obtain ⟨n, hn⟩ := hc
  rw [heq, hx] at hn
  cases hn

end exchange

/-! ## Comparison -/

section comparison
variable {T : Type}

theorem pairwiseEq_iff [BEq T] :
    ∀ (xs ys : List T), pairwiseEq xs ys = true ↔
      xs.length = ys.length ∧
        ∀ (i : Nat) (h1 : i < xs.length) (h2 : i < ys.length), (xs[i] == ys[i]) = true
  | [], [] => by simp [pairwiseEq]
  | [], y :: ys => by simp [pairwiseEq]
  | x :: xs, [] => by simp [pairwiseEq]
  | x :: xs, y :: ys => by
    simp only [pairwiseEq, Bool.and_eq_true, pairwiseEq_iff xs ys, List.length_cons,
      Nat.add_right_cancel_iff]
    constructor
    · rintro ⟨hxy, hlen, hall⟩
      refine ⟨hlen, fun i h1 h2 => ?_⟩
      cases i with
      | zero => exact hxy
      | succ j => exact hall j (by simpa using h1) (by simpa using h2)
    · rintro ⟨hlen, hall⟩
      refine ⟨hall 0 (by simp) (by simp), hlen, fun i h1 h2 => ?_⟩
      exact hall (i + 1) (by simpa using h1) (by simpa using h2)

/-- A sequence is pairwise equal to itself exactly when each of its elements is
equal to itself. -/
theorem pairwiseEq_self [BEq T] :
    ∀ (xs : List T), pairwiseEq xs xs = true ↔ ∀ x ∈ xs, (x == x) = true
  | [] => by simp [pairwiseEq]
  | x :: xs => by
    simp only [pairwiseEq, Bool.and_eq_true, pairwiseEq_self xs, List.mem_cons, forall_eq_or_imp]

theorem std_equal_of_Seg [BEq T] {s : Store T} :
    ∀ (c1 c2 : List (Nat × T)) (p1 p2 : Option Nat) (fuel : Nat),
      Seg s p1 c1 none → Seg s p2 c2 none → c1.length < fuel →
      std_equal end_ end_ fuel ⟨p1⟩ ⟨p2⟩ s
        = .ok (pairwiseEq (c1.map Prod.snd) (c2.map Prod.snd)) s
  | _, _, _, _, 0, _, _, hf => by simp at hf
  | [], [], p1, p2, fuel + 1, h1, h2, _ => by
    have e1 : p1 = none := h1
    have e2 : p2 = none := h2
    subst e1
    subst e2
    rfl
  | [], c :: cs, p1, p2, fuel + 1, h1, h2, _ => by
    have e1 : p1 = none := h1
    have e2 := h2.1
    subst e1
    subst e2
    rfl
  | c :: cs, [], p1, p2, fuel + 1, h1, h2, _ => by
    have e1 := h1.1
    have e2 : p2 = none := h2
    subst e1
    subst e2
    rfl
  | c :: cs, d :: ds, p1, p2, fuel + 1, ⟨e1, nx1, hn1, hr1⟩, ⟨e2, nx2, hn2, hr2⟩, hf => by
    subst e1
    subst e2
    have ih := std_equal_of_Seg cs ds nx1 nx2 fuel hr1 hr2 (by simpa using hf)
    unfold std_equal
    have hcond : (BasicIterator.ne ⟨some c.1⟩ end_ && BasicIterator.ne ⟨some d.1⟩ end_)
        = true := rfl
    rw [if_pos hcond, bind_ok (deref_ok hn1), bind_ok (deref_ok hn2)]
    simp only [List.map_cons, pairwiseEq]
    by_cases hxy : (c.2 == d.2) = true
    · have hneg : ¬ ((!(c.2 == d.2)) = true) := by simp [hxy]
      rw [if_neg hneg, bind_ok (incr_ok hn1), bind_ok (incr_ok hn2), ih, hxy]
      rfl
    · have hpos : (!(c.2 == d.2)) = true := by simpa using hxy
      have hfalse : (c.2 == d.2) = false := by simpa using hxy
      rw [if_pos hpos, hfalse]
      rfl

/-- What `operator==` returns on two well-formed lists. -/
theorem operator_eq_value [BEq T] {s : Store T} {a b na nb : Nat}
    {cellsA cellsB : List (Nat × T)} (hA : Shape s a cellsA) (hB : Shape s b cellsB)
    (hna : sizeAt s a = some na) (hnb : sizeAt s b = some nb) :
    operator_eq a b s
      = .ok (decide (a = b) ||
          (decide (na = nb) && pairwiseEq (cellsA.map Prod.snd) (cellsB.map Prod.snd))) s := by
  unfold operator_eq
  by_cases hab : a = b
  · rw [if_pos hab]
    simp [hab]
    rfl
  · rw [if_neg hab, bind_ok (GetSize_ok hna), bind_ok (GetSize_ok hnb)]
    by_cases hnm : na = nb
    · obtain ⟨_, _, _, ⟨_, nxa, hnodeA, hsegA⟩, _⟩ := hA
      obtain ⟨_, _, _, ⟨_, nxb, hnodeB, hsegB⟩, _⟩ := hB
      rw [if_pos hnm, bind_ok (begin_ok hnodeA), bind_ok (begin_ok hnodeB)]
      show std_equal end_ end_ (s.mem.length + 1) ⟨nxa⟩ ⟨nxb⟩ s = _
      rw [std_equal_of_Seg cellsA cellsB nxa nxb _ hsegA hsegB
        (by have := Seg_length_le cellsA nxa hsegA; omega)]
      simp [hab, hnm]
    · rw [if_neg hnm]
      simp [hab, hnm]
      rfl

end comparison

/-! ## Construction -/

section construction
variable {T It : Type}

theorem freshCells_values (base : Nat) (vals : List T) :
    (freshCells base vals).map Prod.snd = vals := by
  induction vals generalizing base with
  | nil => rfl
  | cons v vs ih => simp [freshCells, ih]

theorem freshCells_ge (base : Nat) (vals : List T) :
    ∀ c ∈ freshCells base vals, base ≤ c.1 := by
  induction vals generalizing base with
  | nil => intro c hc; cases hc
  | cons v vs ih =>
    intro c hc
    rcases List.mem_cons.1 hc with h | h
    · rw [h]
    · have := ih (base + 1) c h
      omega

theorem withNode_theNode {s : Store T} {a : Nat} {n : Node T} (h : nodeAt s a = some n) :
    (cellAt s a).map (fun c => c.withNode n) = cellAt s a := by
  unfold nodeAt at h
  cases hc : cellAt s a with
  | none => rfl
  | some c =>
    simp only [hc, Option.map_some', Option.some.injEq] at h
    subst h
    cases c <;> rfl

theorem cellAt_putNode_same {s : Store T} {a : Nat} {n : Node T} (h : nodeAt s a = some n)
    (c : Nat) : cellAt (s.putNode a n) c = cellAt s c := by
  rw [cellAt_putNode]
  by_cases hc : c = a
  · rw [if_pos hc, withNode_theNode h, hc]
  · rw [if_neg hc]

theorem Create_loop_spec (ops : RangeOps T It) (s0 : Store T) (last : It) :
    ∀ (vals : List T) (first : It) (nd : Nat) (vd : T) (cnt fuel : Nat) (s : Store T),
      Yields ops s0 last first vals → Agree s0 s → s0.mem.length ≤ nd →
      nodeAt s nd = some ⟨vd, none⟩ → vals.length ≤ s.budget → vals.length < fuel →
      ∃ s2 nd2 vd2 nx,
        Create.loop ops last fuel first (some nd) cnt s
          = .ok (some nd2, cnt + vals.length) s2 ∧
        s2.mem.length = s.mem.length + vals.length ∧
        s2.budget = s.budget - vals.length ∧
        (∀ b, b < s.mem.length → b ≠ nd → cellAt s2 b = cellAt s b) ∧
        cellAt s2 nd = (cellAt s nd).map (fun c => c.withNode ⟨vd, nx⟩) ∧
        Seg s2 nx (freshCells s.mem.length vals) none ∧
        (∀ c ∈ freshCells s.mem.length vals, IsHeapNode s2 c.1) ∧
        nodeAt s2 nd2 = some ⟨vd2, none⟩
  | _, _, _, _, _, 0, _, _, _, _, _, _, hf => by simp at hf
  | [], first, nd, vd, cnt, fuel + 1, s, hy, _, _, hnd, _, _ => by
    have hne : ¬ (ops.ne first last = true) := by
      have : ops.ne first last = false := hy
      simp [this]
    refine ⟨s, nd, vd, none, ?_, by simp, by simp, fun _ _ _ => rfl,
      (withNode_theNode hnd).symm, rfl, (fun c hc => by cases hc), hnd⟩
    unfold Create.loop
    rw [if_neg hne]
    rfl
  | v :: vs, first, nd, vd, cnt, fuel + 1, s, ⟨hne, next, hops, hy⟩, hag, hge, hnd, hb, hf => by
    have hndlt := nodeAt_lt hnd
    have hndL : nd ≠ s.mem.length := Nat.ne_of_lt hndlt
    have h1 : nodeAt (s.alloc ⟨v, none⟩) nd = some ⟨vd, none⟩ := nodeAt_alloc_old _ hnd
    have hag2 : Agree s0 ((s.alloc ⟨v, none⟩).putNode nd ⟨vd, some s.mem.length⟩) := by
      intro b hb0
      rw [cellAt_putNode, if_neg (by omega), cellAt_alloc, if_neg (by omega)]
      exact hag b hb0
    have hL : nodeAt ((s.alloc ⟨v, none⟩).putNode nd ⟨vd, some s.mem.length⟩) s.mem.length
        = some ⟨v, none⟩ := by
      rw [nodeAt_putNode _ _ _ _ _ h1, if_neg hndL.symm, nodeAt_alloc, if_pos rfl]
    have h2 : nodeAt ((s.alloc ⟨v, none⟩).putNode nd ⟨vd, some s.mem.length⟩) nd
        = some ⟨vd, some s.mem.length⟩ := by
      rw [nodeAt_putNode _ _ _ _ _ h1, if_pos rfl]
    obtain ⟨s3, nd3, vd3, nx3, hloop, hlen3, hbud3, hframe3, hcell3, hseg3, hheap3, hfin3⟩ :=
      Create_loop_spec ops s0 last vs next s.mem.length v (cnt + 1) fuel
        ((s.alloc ⟨v, none⟩).putNode nd ⟨vd, some s.mem.length⟩) hy hag2 (by omega) hL
        (by simp at hb ⊢; omega) (by simpa using hf)
    simp only [putNode_length, alloc_length, putNode_budget, alloc_budget] at hlen3 hbud3
    simp only [putNode_length, alloc_length] at hframe3 hseg3 hheap3
    have hcL : cellAt s3 s.mem.length = some (.node ⟨v, nx3⟩) := by
      rw [hcell3, cellAt_putNode, if_neg hndL.symm, cellAt_alloc, if_pos rfl]
      rfl
    refine ⟨s3, nd3, vd3, some s.mem.length, ?_, ?_, ?_, ?_, ?_, ?_, ?_, hfin3⟩
    · unfold Create.loop
      rw [if_pos hne, bind_ok (hops s hag).1,
        bind_ok (newNode_ok v none (by simp at hb; omega)), bind_ok (setNext_ok _ h1),
        bind_ok (readNode_ok h2), bind_ok (hops _ hag2).2]
      rw [hloop]
      simp only [List.length_cons, Nat.add_assoc, Nat.add_comm 1]
    · rw [hlen3]
      simp only [List.length_cons]
      omega
    · rw [hbud3]
      simp only [List.length_cons]
      omega
    · intro b hb1 hb2
      rw [hframe3 b (by omega) (by omega), cellAt_putNode, if_neg hb2, cellAt_alloc,
        if_neg (by omega)]
    · rw [hframe3 nd (by omega) hndL, cellAt_putNode, if_pos rfl, cellAt_alloc, if_neg hndL]
    · exact ⟨rfl, nx3, nodeAt_of_cellAt hcL, hseg3⟩
    · intro c hc
      rcases List.mem_cons.1 hc with h | h
      · rw [h]
        exact ⟨_, hcL⟩
      · exact hheap3 c h

theorem scoped_ok {α : Type} {body : Exec T α} {cleanup : Exec T Unit} {s s1 s2 : Store T}
    {a : α} (h1 : body s = .ok a s1) (h2 : cleanup s1 = .ok () s2) :
    Exec.scoped body cleanup s = .ok a s2 := by
  unfold Exec.scoped
  rw [h1]
  simp only [h2]

theorem unwind_ok {α : Type} {body : Exec T α} {cleanup : Exec T Unit} {s s1 : Store T}
    {a : α} (h1 : body s = .ok a s1) : Exec.unwind body cleanup s = .ok a s1 := by
  unfold Exec.unwind
  rw [h1]

/-- The destructor of a list object whose `head_` has a null `next_node`. -/
theorem destroy_empty {s : Store T} {x k : Nat} {d : T}
    (hx : cellAt s x = some (.list ⟨d, none⟩ k)) :
    destroy x s = .ok () ((s.putSize x 0).setCell x none) := by
  have hn : nodeAt s x = some ⟨d, none⟩ := nodeAt_of_cellAt hx
  have hloop : (fun s : Store T => Clear.loop x (s.mem.length + 1) s) s = .ok () s := by
    show Clear.loop x (s.mem.length + 1) s = .ok () s
    unfold Clear.loop
    rw [bind_ok (readNode_ok hn)]
    rfl
  have hclear : Clear x s = .ok () (s.putSize x 0) := by
    unfold Clear
    rw [bind_ok (x := fun s : Store T => Clear.loop x (s.mem.length + 1) s) hloop]
    exact writeSize_ok 0 (sizeAt_of_cellAt hx)
  have hc : cellAt (s.putSize x 0) x = some (.list ⟨d, none⟩ 0) := by
    rw [cellAt_putSize, if_pos rfl, hx]
    rfl
  unfold destroy
  rw [bind_ok hclear]
  unfold releaseList
  simp only [hc]

theorem Create_spec [Indeterminate T] (ops : RangeOps T It) (s0 : Store T) (last : It)
    (vals : List T) (first : It) (fuel : Nat) (s : Store T) (this : Nat) (d : T) (k : Nat)
    (hy : Yields ops s0 last first vals) (hag : Agree s0 s)
    (hle : s0.mem.length ≤ s.mem.length)
    (hthis : cellAt s this = some (.list ⟨d, none⟩ k))
    (hb : vals.length ≤ s.budget) (hf : vals.length < fuel) :
    ∃ s7 nx, Create this ops first last fuel s = .ok () s7 ∧
      s7.mem.length = s.mem.length + 1 + vals.length ∧
      s7.budget = s.budget - vals.length ∧
      cellAt s7 this = some (.list ⟨Indeterminate.value s.mem.length, nx⟩ vals.length) ∧
      Seg s7 nx (freshCells (s.mem.length + 1) vals) none ∧
      (∀ c ∈ freshCells (s.mem.length + 1) vals, IsHeapNode s7 c.1) ∧
      (∀ b, b < s.mem.length → b ≠ this → cellAt s7 b = cellAt s b) ∧
      cellAt s7 s.mem.length = none := by
  have hthislt := cellAt_lt hthis
  have htt : this ≠ s.mem.length := Nat.ne_of_lt hthislt
  have hagA : Agree s0 (s.push (.list ⟨Indeterminate.value s.mem.length, none⟩ 0)) := by
    intro b hb0
    rw [cellAt_push, if_neg (by omega)]
    exact hag b hb0
  have hcA : cellAt (s.push (.list ⟨(Indeterminate.value s.mem.length : T), none⟩ 0)) s.mem.length
      = some (.list ⟨Indeterminate.value s.mem.length, none⟩ 0) := by
    rw [cellAt_push, if_pos rfl]
  obtain ⟨s2, nd2, vd2, nx, hloop, hlen2, hbud2, hframe2, hcell2, hseg2, hheap2, hfin2⟩ :=
    Create_loop_spec ops s0 last vals first s.mem.length (Indeterminate.value s.mem.length) 0 fuel
      (s.push (.list ⟨Indeterminate.value s.mem.length, none⟩ 0)) hy hagA hle (nodeAt_of_cellAt hcA) hb hf
  simp only [push_length, push_budget] at hlen2 hbud2 hframe2 hseg2 hheap2
  rw [hcA] at hcell2
  have hc2t : cellAt s2 s.mem.length = some (.list ⟨Indeterminate.value s.mem.length, nx⟩ 0) := hcell2
  have hc2this : cellAt s2 this = some (.list ⟨d, none⟩ k) := by
    rw [hframe2 this (by omega) htt, cellAt_push, if_neg htt]
    exact hthis
  have hc3 : ∀ c, cellAt (s2.putNode nd2 ⟨vd2, none⟩) c = cellAt s2 c :=
    cellAt_putNode_same hfin2
  have hsz3 : sizeAt (s2.putNode nd2 ⟨vd2, none⟩) s.mem.length = some 0 := by
    unfold sizeAt
    rw [hc3, hc2t]
  have hc4t : cellAt ((s2.putNode nd2 ⟨vd2, none⟩).putSize s.mem.length (0 + vals.length))
      s.mem.length = some (.list ⟨Indeterminate.value s.mem.length, nx⟩ vals.length) := by
    rw [cellAt_putSize, if_pos rfl, hc3, hc2t]
    simp
  have hc4 : ∀ c, c ≠ s.mem.length →
      cellAt ((s2.putNode nd2 ⟨vd2, none⟩).putSize s.mem.length (0 + vals.length)) c
        = cellAt s2 c := by
    intro c hc
    rw [cellAt_putSize, if_neg hc, hc3]
  have hc4this := hc4 this htt
  rw [hc2this] at hc4this
  obtain ⟨s5, hswap, hlen5, hbud5, hcells5⟩ := swap_cells hc4this hc4t
  have hc5t : cellAt s5 s.mem.length = some (.list ⟨d, none⟩ k) := by
    rw [hcells5, if_neg htt.symm, if_pos rfl]
  have hbody : (do
      let r ← Create.loop ops last fuel first (some s.mem.length) 0
      setNext r.1 none
      writeSize s.mem.length r.2
      swap this s.mem.length : Exec T Unit) (s.push (.list ⟨Indeterminate.value s.mem.length, none⟩ 0))
      = .ok () s5 := by
    rw [bind_ok hloop, bind_ok (setNext_ok none hfin2), bind_ok (writeSize_ok _ hsz3)]
    exact hswap
  have hfinal : ∀ c, c ≠ s.mem.length →
      cellAt ((s5.putSize s.mem.length 0).setCell s.mem.length none) c = cellAt s5 c := by
    intro c hc
    rw [cellAt_setCell, if_neg (fun h => hc h.1), cellAt_putSize, if_neg hc]
  have hrest : ∀ c, c ≠ s.mem.length → c ≠ this →
      cellAt ((s5.putSize s.mem.length 0).setCell s.mem.length none) c = cellAt s2 c := by
    intro c hc1 hc2
    rw [hfinal c hc1, hcells5, if_neg hc2, if_neg hc1, hc4 c hc1]
  refine ⟨(s5.putSize s.mem.length 0).setCell s.mem.length none, nx, ?_, ?_, ?_, ?_, ?_, ?_,
    ?_, ?_⟩
  · unfold Create
    have hdecl : (declareList : Exec T Nat) s
        = .ok s.mem.length (s.push (.list ⟨Indeterminate.value s.mem.length, none⟩ 0)) := rfl
    rw [bind_ok hdecl]
    exact scoped_ok hbody (destroy_empty hc5t)
  · simp only [setCell_length, putSize_length, hlen5, putNode_length, hlen2]
  · simp only [setCell_budget, putSize_budget, hbud5, putNode_budget, hbud2]
  · rw [hfinal this htt, hcells5, if_pos rfl]
  · refine Seg_frame _ _ _ hseg2 (fun c hc => ?_)
    have hge := freshCells_ge _ _ c hc
    unfold nodeAt
    rw [hrest c.1 (by omega) (by omega)]
  · intro c hc
    have hge := freshCells_ge _ _ c hc
    obtain ⟨n, hn⟩ := hheap2 c hc
    exact ⟨n, by rw [hrest c.1 (by omega) (by omega)]; exact hn⟩
  · intro b hb1 hb2
    rw [hrest b (by omega) hb2, hframe2 b (by omega) (by omega), cellAt_push,
      if_neg (by omega)]
  · have hlt : s.mem.length < (s5.putSize s.mem.length 0).mem.length := by
      simp only [putSize_length, hlen5, putNode_length, hlen2]
      omega
    rw [cellAt_setCell, if_pos ⟨rfl, hlt⟩]

theorem Yields_initializerList (values : List T) (s0 : Store T) :
    ∀ (rest : List T) (i : Nat), values.drop i = rest → i ≤ values.length →
      Yields (initializerListOps values) s0 values.length i rest
  | [], i, hdrop, hi => by
    have hlen : values.length ≤ i := List.drop_eq_nil_iff.1 hdrop
    have : i = values.length := by omega
    show (!(decide (i = values.length))) = false
    simp [this]
  | v :: vs, i, hdrop, hi => by
    have hlt : i < values.length := by
      by_contra hge
      rw [List.drop_eq_nil_of_le (by omega)] at hdrop
      cases hdrop
    have hget : values[i]? = some v := by
      have h1 : (values.drop i)[0]? = some v := by rw [hdrop]; simp
      rw [List.getElem?_drop] at h1
      simpa using h1
    have hnext : values.drop (i + 1) = vs := by
      have h1 : (values.drop i).drop 1 = vs := by rw [hdrop]; rfl
      rw [List.drop_drop] at h1
      rw [← h1]
    refine ⟨?_, i + 1, fun s _ => ⟨?_, rfl⟩, Yields_initializerList values s0 vs (i + 1) hnext
      (by omega)⟩
    · show (!(decide (i = values.length))) = true
      simp
      omega
    · show (match values[i]? with
        | some v => Outcome.ok v s
        | none => Outcome.undefined) = Outcome.ok v s
      rw [hget]

theorem Yields_of_Seg {s0 : Store T} :
    ∀ (cells : List (Nat × T)) (p : Option Nat), Seg s0 p cells none →
      Yields iteratorOps s0 end_ ⟨p⟩ (cells.map Prod.snd)
  | [], p, h => by
    have : p = none := h
    subst this
    rfl
  | c :: cs, p, ⟨hp, nx, hn, hrest⟩ => by
    subst hp
    refine ⟨rfl, ⟨nx⟩, fun s hag => ?_, Yields_of_Seg cs nx hrest⟩
    have hn2 : nodeAt s c.1 = some ⟨c.2, nx⟩ := by
      unfold nodeAt
      rw [hag c.1 (nodeAt_lt hn)]
      exact hn
    exact ⟨deref_ok hn2, incr_ok hn2⟩

end construction

/-! ## Checking a concrete memory -/

section checking
variable {T : Type}

theorem Seg_of_segCheck [DecidableEq T] {s : Store T} :
    ∀ (cells : List (Nat × T)) (p : Option Nat), segCheck s p cells = true →
      Seg s p cells none ∧ ∀ c ∈ cells, IsHeapNode s c.1
  | [], p, h => by
    simp only [segCheck, decide_eq_true_eq] at h
    exact ⟨h, fun c hc => by cases hc⟩
  | c :: cs, p, h => by
    simp only [segCheck, Bool.and_eq_true, decide_eq_true_eq] at h
    obtain ⟨hp, hrest⟩ := h
    cases hc : cellAt s c.1 with
    | none => simp [hc] at hrest
    | some cell =>
      cases cell with
      | list hd k => simp [hc] at hrest
      | node n =>
        simp only [hc, Bool.and_eq_true, decide_eq_true_eq] at hrest
        obtain ⟨hv, hr⟩ := hrest
        obtain ⟨ih1, ih2⟩ := Seg_of_segCheck cs n.next_node hr
        refine ⟨⟨hp, n.next_node, ?_, ih1⟩, ?_⟩
        · unfold nodeAt
          rw [hc, ← hv]
          rfl
        · intro d hd
          rcases List.mem_cons.1 hd with h | h
          · rw [h]
            exact ⟨n, hc⟩
          · exact ih2 d h

theorem Shape_of_shapeCheck [DecidableEq T] {s : Store T} {this : Nat}
    {cells : List (Nat × T)} (h : shapeCheck s this cells = true) : Shape s this cells := by
  unfold shapeCheck at h
  cases hc : cellAt s this with
  | none => simp [hc] at h
  | some cell =>
    cases cell with
    | node n => simp [hc] at h
    | list hd k =>
      simp only [hc] at h
      obtain ⟨h1, h2⟩ := Seg_of_segCheck cells hd.next_node h
      refine ⟨hd.value, k, ?_, ⟨rfl, hd.next_node, ?_, h1⟩, h2⟩
      · unfold sizeAt
        rw [hc]
      · unfold nodeAt
        rw [hc]
        rfl

end checking

/-! ## Laws of sequencing -/

section laws
variable {T : Type}

theorem exec_bind_assoc {α β γ : Type} (x : Exec T α) (f : α → Exec T β) (g : β → Exec T γ) :
    (x >>= f) >>= g = x >>= fun a => f a >>= g := by
  funext s
  show Exec.bind (Exec.bind x f) g s = Exec.bind x (fun a => Exec.bind (f a) g) s
  unfold Exec.bind
  cases x s <;> rfl

theorem exec_pure_bind {α β : Type} (a : α) (f : α → Exec T β) :
    (pure a : Exec T α) >>= f = f a := rfl

theorem exec_bind_pure_unit (x : Exec T Unit) : (x >>= fun _ => pure ()) = x := by
  funext s
  show Exec.bind x (fun _ => Exec.pure ()) s = x s
  unfold Exec.bind Exec.pure
  cases x s <;> rfl

theorem assert_true : (assert true : Exec T Unit) = pure () := rfl

end laws

/-! ## Clearing -/

section clearing
variable {T : Type}

theorem Clear_loop_spec :
    ∀ (cells : List (Nat × T)) (s : Store T) (fuel a sz : Nat) (h : Node T),
      cellAt s a = some (.list h sz) → Seg s h.next_node cells none →
      (∀ c ∈ cells, IsHeapNode s c.1) → cells.length < fuel →
      ∃ s2, Clear.loop a fuel s = .ok () s2 ∧ s2.mem.length = s.mem.length ∧
        s2.budget = s.budget ∧ cellAt s2 a = some (.list ⟨h.value, none⟩ sz) ∧
        (∀ c ∈ cells, cellAt s2 c.1 = none) ∧
        (∀ x, x ≠ a → (∀ c ∈ cells, c.1 ≠ x) → cellAt s2 x = cellAt s x)
  | _, _, 0, _, _, _, _, _, _, hf => by simp at hf
  | [], s, fuel + 1, a, sz, h, hca, hseg, _, _ => by
    have hnone : h.next_node = none := hseg
    have hna : nodeAt s a = some h := nodeAt_of_cellAt hca
    refine ⟨s, ?_, rfl, rfl, ?_, (fun c hc => by cases hc), fun _ _ _ => rfl⟩
    · unfold Clear.loop
      rw [bind_ok (readNode_ok hna)]
      simp only [hnone]
      rfl
    · rw [hca, ← hnone]
  | c :: cs, s, fuel + 1, a, sz, h, hca, ⟨hnx, nx, hn, hrest⟩, hheap, hf => by
    have hcheap := hheap c (List.mem_cons_self _ _)
    have hca_ne : c.1 ≠ a := heap_ne_list hca hcheap
    have hna : nodeAt s a = some h := nodeAt_of_cellAt hca
    have hnd : (c.1 :: cs.map Prod.fst).Nodup := by
      have := Seg_nodup (c :: cs) (some c.1) ⟨rfl, nx, hn, hrest⟩
      simpa using this
    have hcs_ne : ∀ d ∈ cs, d.1 ≠ c.1 := by
      intro d hd heq
      exact (List.nodup_cons.1 hnd).1 (by rw [← heq]; exact List.mem_map_of_mem Prod.fst hd)
    have h1 : IsHeapNode (s.putNode a ⟨h.value, nx⟩) c.1 :=
      (isHeapNode_putNode _ _ _ _).2 hcheap
    have hc2 : ∀ x, cellAt ((s.putNode a ⟨h.value, nx⟩).setCell c.1 none) x
        = if x = c.1 then none else if x = a then some (.list ⟨h.value, nx⟩ sz)
          else cellAt s x := by
      intro x
      rw [cellAt_setCell, cellAt_putNode]
      by_cases hx : x = c.1
      · have hlt : c.1 < s.mem.length := nodeAt_lt hn
        simp [hx, hlt]
      · by_cases hxa : x = a
        · simp [hxa, hca, Cell.withNode, hca_ne.symm]
        · simp [hx, hxa]
    have hca2 : cellAt ((s.putNode a ⟨h.value, nx⟩).setCell c.1 none) a
        = some (.list ⟨h.value, nx⟩ sz) := by
      rw [hc2, if_neg hca_ne.symm, if_pos rfl]
    have hframe2 : ∀ d ∈ cs,
        cellAt ((s.putNode a ⟨h.value, nx⟩).setCell c.1 none) d.1 = cellAt s d.1 := by
      intro d hd
      rw [hc2, if_neg (hcs_ne d hd),
        if_neg (heap_ne_list hca (hheap d (List.mem_cons_of_mem _ hd)))]
    have hseg2 : Seg ((s.putNode a ⟨h.value, nx⟩).setCell c.1 none) nx cs none :=
      Seg_frame _ _ _ hrest (fun d hd => by unfold nodeAt; rw [hframe2 d hd])
    have hheap2 : ∀ d ∈ cs, IsHeapNode ((s.putNode a ⟨h.value, nx⟩).setCell c.1 none) d.1 := by
      intro d hd
      obtain ⟨n, hn2⟩ := hheap d (List.mem_cons_of_mem _ hd)
      exact ⟨n, by rw [hframe2 d hd]; exact hn2⟩
    obtain ⟨s3, hloop, hlen3, hbud3, hca3, hgone3, hframe3⟩ :=
      Clear_loop_spec cs ((s.putNode a ⟨h.value, nx⟩).setCell c.1 none) fuel a sz
        ⟨h.value, nx⟩ hca2 hseg2 hheap2 (by simpa using hf)
    refine ⟨s3, ?_, by simpa using hlen3, by simpa using hbud3, hca3, ?_, ?_⟩
    · unfold Clear.loop
      rw [bind_ok (readNode_ok hna)]
      simp only [hnx, Option.isSome_some, if_true]
      rw [bind_ok (readNode_ok hn), bind_ok (setNext_ok _ hna), bind_ok (deleteNode_ok h1)]
      exact hloop
    · intro d hd
      rcases List.mem_cons.1 hd with h0 | h0
      · rw [h0, hframe3 c.1 hca_ne (fun e he => hcs_ne e he), hc2, if_pos rfl]
      · exact hgone3 d h0
    · intro x hxa hx
      rw [hframe3 x hxa (fun e he => hx e (List.mem_cons_of_mem _ he)), hc2,
        if_neg (fun heq => hx c (List.mem_cons_self _ _) heq.symm), if_neg hxa]

/-- `Clear` on a well-formed list frees exactly the nodes of its chain, leaves
the sentinel with a null `next_node` and the count 0, and touches nothing
else. -/
theorem Clear_spec {s : Store T} {a : Nat} {cells : List (Nat × T)} (hsh : Shape s a cells) :
    ∃ s2 d, Clear a s = .ok () s2 ∧ s2.mem.length = s.mem.length ∧ s2.budget = s.budget ∧
      cellAt s2 a = some (.list ⟨d, none⟩ 0) ∧
      (∀ c ∈ cells, cellAt s2 c.1 = none) ∧
      (∀ x, x ≠ a → (∀ c ∈ cells, c.1 ≠ x) → cellAt s2 x = cellAt s x) := by
  obtain ⟨h, sz, hca, hseg, hheap⟩ := Shape_cell hsh
  have hlen := Seg_length_le cells _ hseg
  obtain ⟨s3, hloop, hlen3, hbud3, hca3, hgone3, hframe3⟩ :=
    Clear_loop_spec cells s (s.mem.length + 1) a sz h hca hseg hheap (by omega)
  have hloop2 : (fun s : Store T => Clear.loop a (s.mem.length + 1) s) s = .ok () s3 := hloop
  refine ⟨s3.putSize a 0, h.value, ?_, by simpa using hlen3, by simpa using hbud3, ?_, ?_, ?_⟩
  · unfold Clear
    rw [bind_ok (x := fun s : Store T => Clear.loop a (s.mem.length + 1) s) hloop2]
    exact writeSize_ok 0 (sizeAt_of_cellAt hca3)
  · rw [cellAt_putSize, if_pos rfl, hca3]
    rfl
  · intro c hc
    rw [cellAt_putSize, if_neg (heap_ne_list hca (hheap c hc)), hgone3 c hc]
  · intro x hxa hx
    rw [cellAt_putSize, if_neg hxa, hframe3 x hxa hx]

theorem Shape_empty {s : Store T} {a sz : Nat} {d : T}
    (h : cellAt s a = some (.list ⟨d, none⟩ sz)) : Shape s a [] :=
  ⟨d, sz, sizeAt_of_cellAt h, ⟨rfl, none, nodeAt_of_cellAt h, rfl⟩, fun c hc => by cases hc⟩

end clearing

section failing
variable {T : Type}

theorem bind_assert_fail {α β : Type} {x : Exec T α} {f : α → Exec T β} {s : Store T}
    (h : x s = .assert_fail) : (x >>= f) s = .assert_fail := by
  show Exec.bind x f s = .assert_fail
  unfold Exec.bind
  rw [h]

theorem assert_false (s : Store T) : (assert false : Exec T Unit) s = .assert_fail := rfl

/-- `EraseAfter` at `end()` fails its assertion. -/
theorem EraseAfter_end (s : Store T) (this : Nat) :
    EraseAfter this end_ s = .assert_fail := by
  unfold EraseAfter
  exact bind_assert_fail (assert_false s)

/-- `EraseAfter` at a node without successor fails its assertion. -/
theorem EraseAfter_last {s : Store T} {a : Nat} {n : Node T} (this : Nat)
    (hn : nodeAt s a = some n) (hnx : n.next_node = none) :
    EraseAfter this ⟨some a⟩ s = .assert_fail := by
  unfold EraseAfter
  simp only [Option.isSome_some]
  rw [bind_ok (assert_ok s rfl), bind_ok (readNode_ok hn)]
  simp only [hnx]
  exact bind_assert_fail (assert_false s)

/-- `PopFront` on a list whose count is 0 fails its assertion. -/
theorem PopFront_empty {s : Store T} {this : Nat} (hsz : sizeAt s this = some 0) :
    PopFront this s = .assert_fail := by
  unfold PopFront
  rw [bind_ok (readSize_ok hsz)]
  exact bind_assert_fail (assert_false s)

/-- The position `k` increments behind `before_begin()`: a node when `k` is at
most the length, and then its `next_node` is null exactly for `k` equal to the
length. -/
theorem position_node {s : Store T} {this k : Nat} {cells : List (Nat × T)}
    {pos : BasicIterator} (hsh : Shape s this cells) (hk : k ≤ cells.length)
    (hpos : advance k (before_begin this) s = .ok pos s) :
    ∃ a n, pos = ⟨some a⟩ ∧ nodeAt s a = some n ∧
      (n.next_node = none ↔ k = cells.length) := by
  obtain ⟨d, sz, _, hC, _⟩ := hsh
  obtain ⟨pre, a, va, post, hsplit, hp, _, hdrop, _⟩ :=
    advance_split hC (by simp; omega) hpos
  have hC2 := hC
  rw [hsplit] at hC2
  obtain ⟨m, _, _, nx, hn, hrest⟩ := (Seg_append pre ((a, va) :: post) (some this) none).1 hC2
  refine ⟨a, ⟨va, nx⟩, hp, hn, ?_⟩
  have h1 := Seg_none_iff hrest
  have hd : cells.drop k = post := by simpa using hdrop
  show nx = none ↔ k = cells.length
  rw [h1, ← hd, List.drop_eq_nil_iff]
  omega

/-- The position one past the last element is `end()`. -/
theorem position_end {s s1 : Store T} {this : Nat} {cells : List (Nat × T)}
    {pos : BasicIterator} (hsh : Shape s this cells)
    (hpos : advance (cells.length + 1) (before_begin this) s = .ok pos s1) : pos = end_ := by
  obtain ⟨d, sz, _, hC, _⟩ := hsh
  have h := advance_of_Seg _ _ _ hC
  simp only [List.length_cons] at h
  unfold before_begin at hpos
  rw [h] at hpos
  exact ((ok_inj hpos).1).symm

end failing

/-! ## Ordering -/

section ordering
variable {T : Type}

theorem std_lexicographical_compare_of_Seg [LT T] [DecidableRel (LT.lt : T → T → Prop)]
    {s : Store T} :
    ∀ (c1 c2 : List (Nat × T)) (p1 p2 : Option Nat) (fuel : Nat),
      Seg s p1 c1 none → Seg s p2 c2 none → c1.length < fuel →
      std_lexicographical_compare end_ end_ fuel ⟨p1⟩ ⟨p2⟩ s
        = .ok (lexLess (c1.map Prod.snd) (c2.map Prod.snd)) s
  | _, _, _, _, 0, _, _, hf => by simp at hf
  | [], [], p1, p2, fuel + 1, h1, h2, _ => by
    have e1 : p1 = none := h1
    have e2 : p2 = none := h2
    subst e1
    subst e2
    rfl
  | [], c :: cs, p1, p2, fuel + 1, h1, h2, _ => by
    have e1 : p1 = none := h1
    have e2 := h2.1
    subst e1
    subst e2
    rfl
  | c :: cs, [], p1, p2, fuel + 1, h1, h2, _ => by
    have e1 := h1.1
    have e2 : p2 = none := h2
    subst e1
    subst e2
    rfl
  | c :: cs, d :: ds, p1, p2, fuel + 1, ⟨e1, nx1, hn1, hr1⟩, ⟨e2, nx2, hn2, hr2⟩, hf => by
    subst e1
    subst e2
    have ih := std_lexicographical_compare_of_Seg cs ds nx1 nx2 fuel hr1 hr2
      (by simpa using hf)
    unfold std_lexicographical_compare
    have hcond : (BasicIterator.ne ⟨some c.1⟩ end_ && BasicIterator.ne ⟨some d.1⟩ end_)
        = true := rfl
    rw [if_pos hcond, bind_ok (deref_ok hn1), bind_ok (deref_ok hn2)]
    simp only [List.map_cons, lexLess]
    by_cases hxy : c.2 < d.2
    · rw [if_pos hxy, if_pos hxy]
      rfl
    · rw [if_neg hxy, if_neg hxy]
      by_cases hyx : d.2 < c.2
      · rw [if_pos hyx, if_pos hyx]
        rfl
      · rw [if_neg hyx, if_neg hyx, bind_ok (incr_ok hn1), bind_ok (incr_ok hn2)]
        exact ih

/-- What `operator<` returns on two well-formed lists. -/
theorem operator_lt_value [LT T] [DecidableRel (LT.lt : T → T → Prop)] {s : Store T}
    {a b : Nat} {cellsA cellsB : List (Nat × T)} (hA : Shape s a cellsA)
    (hB : Shape s b cellsB) :
    operator_lt a b s = .ok (lexLess (cellsA.map Prod.snd) (cellsB.map Prod.snd)) s := by
  obtain ⟨_, _, _, ⟨_, nxa, hnodeA, hsegA⟩, _⟩ := hA
  obtain ⟨_, _, _, ⟨_, nxb, hnodeB, hsegB⟩, _⟩ := hB
  unfold operator_lt
  rw [bind_ok (begin_ok hnodeA), bind_ok (begin_ok hnodeB)]
  show std_lexicographical_compare end_ end_ (s.mem.length + 1) ⟨nxa⟩ ⟨nxb⟩ s = _
  exact std_lexicographical_compare_of_Seg cellsA cellsB nxa nxb _ hsegA hsegB
    (by have := Seg_length_le cellsA nxa hsegA; omega)

theorem lexLess_irrefl [LinearOrder T] : ∀ (xs : List T), lexLess xs xs = false
  | [] => rfl
  | x :: xs => by
    simp only [lexLess, lt_irrefl, if_false]
    exact lexLess_irrefl xs

theorem lexLess_asymm [LinearOrder T] :
    ∀ (xs ys : List T), lexLess xs ys = true → lexLess ys xs = false
  | [], [], h => by simp [lexLess] at h
  | [], _ :: _, _ => rfl
  | _ :: _, [], h => by simp [lexLess] at h
  | x :: xs, y :: ys, h => by
    simp only [lexLess] at h ⊢
    by_cases hxy : x < y
    · rw [if_neg (not_lt_of_gt hxy), if_pos hxy]
    · rw [if_neg hxy] at h
      by_cases hyx : y < x
      · rw [if_pos hyx] at h
        cases h
      · rw [if_neg hyx] at h
        rw [if_neg hyx, if_neg hxy]
        exact lexLess_asymm xs ys h

theorem lexLess_total [LinearOrder T] :
    ∀ (xs ys : List T), lexLess xs ys = false → lexLess ys xs = false → xs = ys
  | [], [], _, _ => rfl
  | [], _ :: _, h, _ => by simp [lexLess] at h
  | _ :: _, [], _, h => by simp [lexLess] at h
  | x :: xs, y :: ys, h1, h2 => by
    simp only [lexLess] at h1 h2
    by_cases hxy : x < y
    · rw [if_pos hxy] at h1
      cases h1
    · rw [if_neg hxy] at h1
      by_cases hyx : y < x
      · rw [if_pos hyx] at h2
        cases h2
      · rw [if_neg hyx] at h1
        rw [if_neg hyx, if_neg hxy] at h2
        have hx : x = y := le_antisymm (not_lt.1 hyx) (not_lt.1 hxy)
        rw [hx, lexLess_total xs ys h1 h2]

theorem lexLess_iff_LexPrecedes [LinearOrder T] :
    ∀ (xs ys : List T), lexLess xs ys = true ↔ LexPrecedes xs ys
  | [], [] => by
    simp [lexLess, LexPrecedes]
  | [], y :: ys => by
    simp [lexLess, LexPrecedes]
  | x :: xs, [] => by
    simp [lexLess, LexPrecedes]
  | x :: xs, y :: ys => by
    have ih := lexLess_iff_LexPrecedes xs ys
    simp only [lexLess]
    by_cases hxy : x < y
    · rw [if_pos hxy]
      refine ⟨fun _ => Or.inl ⟨0, x, y, rfl, by simp, by simp, hxy⟩, fun _ => rfl⟩
    · rw [if_neg hxy]
      by_cases hyx : y < x
      · rw [if_pos hyx]
        constructor
        · intro h
          cases h
        · rintro (⟨i, x1, y1, htake, hx1, hy1, hlt⟩ | ⟨hpre, _⟩)
          · cases i with
            | zero =>
              simp only [List.getElem?_cons_zero, Option.some.injEq] at hx1 hy1
              rw [← hx1, ← hy1] at hlt
              exact absurd hlt hxy
            | succ j =>
              simp only [List.take_succ_cons, List.cons.injEq] at htake
              rw [htake.1] at hyx
              exact absurd hyx (lt_irrefl _)
          · have := List.cons_prefix_cons.1 hpre
            rw [this.1] at hyx
            exact absurd hyx (lt_irrefl _)
      · rw [if_neg hyx]
        have hx : x = y := le_antisymm (not_lt.1 hyx) (not_lt.1 hxy)
        subst hx
        rw [ih]
        constructor
        · rintro (⟨i, x1, y1, htake, hx1, hy1, hlt⟩ | ⟨hpre, hlen⟩)
          · exact Or.inl ⟨i + 1, x1, y1, by simp [htake], by simpa using hx1,
              by simpa using hy1, hlt⟩
          · exact Or.inr ⟨List.cons_prefix_cons.2 ⟨rfl, hpre⟩, by simpa using hlen⟩
        · rintro (⟨i, x1, y1, htake, hx1, hy1, hlt⟩ | ⟨hpre, hlen⟩)
          · cases i with
            | zero =>
              simp only [List.getElem?_cons_zero, Option.some.injEq] at hx1 hy1
              rw [← hx1, ← hy1] at hlt
              exact absurd hlt (lt_irrefl _)
            | succ j =>
              simp only [List.take_succ_cons, List.cons.injEq, true_and] at htake
              exact Or.inl ⟨j, x1, y1, htake, by simpa using hx1, by simpa using hy1, hlt⟩
          · exact Or.inr ⟨(List.cons_prefix_cons.1 hpre).2, by simpa using hlen⟩

end ordering

section ordering_laws
variable {T : Type}

theorem pairwiseEq_eq [BEq T] [LawfulBEq T] :
    ∀ (xs ys : List T), pairwiseEq xs ys = true ↔ xs = ys
  | [], [] => by simp [pairwiseEq]
  | [], _ :: _ => by simp [pairwiseEq]
  | _ :: _, [] => by simp [pairwiseEq]
  | x :: xs, y :: ys => by
    simp only [pairwiseEq, Bool.and_eq_true, beq_iff_eq, pairwiseEq_eq xs ys, List.cons.injEq]

end ordering_laws

/-! ## The constructors -/

section constructors
variable {T : Type}

/-- The constructor from an initializer list: the new object, its chain of
fresh nodes, and the untouched rest of the memory. -/
theorem ofInitializerList_spec [Indeterminate T] (s : Store T) (S : List T)
    (hb : S.length ≤ s.budget) :
    ∃ s2, SingleLinkedList.ofInitializerList S s = .ok s.mem.length s2 ∧
      Shape s2 s.mem.length (freshCells (s.mem.length + 2) S) ∧
      sizeAt s2 s.mem.length = some S.length ∧
      (∀ b, b < s.mem.length → cellAt s2 b = cellAt s b) ∧
      s2.mem.length = s.mem.length + 2 + S.length ∧ s2.budget = s.budget - S.length ∧
      cellAt s2 (s.mem.length + 1) = none := by
  have hcA : cellAt (s.push (.list ⟨(Indeterminate.value s.mem.length : T), none⟩ 0)) s.mem.length
      = some (.list ⟨Indeterminate.value s.mem.length, none⟩ 0) := by
    rw [cellAt_push, if_pos rfl]
  have hagA : Agree s (s.push (.list ⟨Indeterminate.value s.mem.length, none⟩ 0)) := by
    intro b hb0
    rw [cellAt_push, if_neg (by omega)]
  obtain ⟨s7, nx, hcreate, hlen, hbud, hthis, hseg, hheap, hframe, htemp⟩ :=
    Create_spec (initializerListOps S) s S.length S 0 (S.length + 1)
      (s.push (.list ⟨Indeterminate.value s.mem.length, none⟩ 0)) s.mem.length (Indeterminate.value s.mem.length) 0
      (Yields_initializerList S s S 0 rfl (Nat.zero_le _)) hagA (by simp) hcA hb
      (Nat.lt_succ_self _)
  simp only [push_length, push_budget] at hlen hbud hseg hheap htemp
  have hsh : Shape s7 s.mem.length (freshCells (s.mem.length + 1 + 1) S) :=
    Shape_of_cells hthis hseg hheap (fun _ _ => rfl)
  refine ⟨s7, ?_, hsh, sizeAt_of_cellAt hthis, ?_, hlen, hbud, htemp⟩
  · unfold SingleLinkedList.ofInitializerList
    have hdecl : (declareList : Exec T Nat) s
        = .ok s.mem.length (s.push (.list ⟨Indeterminate.value s.mem.length, none⟩ 0)) := rfl
    rw [bind_ok hdecl, bind_ok (unwind_ok hcreate)]
    rfl
  · intro b hb0
    rw [hframe b (by simp; omega) (by omega), cellAt_push, if_neg (by omega)]

/-- The copy constructor: the new object, its chain of fresh nodes with the
values of the source, and the untouched rest of the memory. -/
theorem copy_spec [Indeterminate T] (s : Store T) (other : Nat) (cells : List (Nat × T))
    (hsh : Shape s other cells) (hb : cells.length ≤ s.budget) :
    ∃ s2, SingleLinkedList.copy other s = .ok s.mem.length s2 ∧
      Shape s2 s.mem.length (freshCells (s.mem.length + 2) (cells.map Prod.snd)) ∧
      sizeAt s2 s.mem.length = some cells.length ∧
      (∀ b, b < s.mem.length → cellAt s2 b = cellAt s b) ∧
      s2.mem.length = s.mem.length + 2 + cells.length ∧
      s2.budget = s.budget - cells.length ∧
      cellAt s2 (s.mem.length + 1) = none := by
  obtain ⟨hd, k, hco, hsegO, hheapO⟩ := Shape_cell hsh
  have holt := cellAt_lt hco
  have hcA : cellAt (s.push (.list ⟨(Indeterminate.value s.mem.length : T), none⟩ 0)) s.mem.length
      = some (.list ⟨Indeterminate.value s.mem.length, none⟩ 0) := by
    rw [cellAt_push, if_pos rfl]
  have hagA : Agree s (s.push (.list ⟨Indeterminate.value s.mem.length, none⟩ 0)) := by
    intro b hb0
    rw [cellAt_push, if_neg (by omega)]
  have hclen := Seg_length_le cells _ hsegO
  obtain ⟨s7, nx, hcreate, hlen, hbud, hthis, hseg, hheap, hframe, htemp⟩ :=
    Create_spec iteratorOps s end_ (cells.map Prod.snd) ⟨hd.next_node⟩ (s.mem.length + 1 + 1)
      (s.push (.list ⟨Indeterminate.value s.mem.length, none⟩ 0)) s.mem.length (Indeterminate.value s.mem.length) 0
      (Yields_of_Seg cells hd.next_node hsegO) hagA (by simp) hcA (by simpa using hb)
      (by simp; omega)
  simp only [push_length, push_budget, List.length_map] at hlen hbud hseg hheap htemp hthis
  have hsh2 : Shape s7 s.mem.length (freshCells (s.mem.length + 1 + 1) (cells.map Prod.snd)) :=
    Shape_of_cells hthis hseg hheap (fun _ _ => rfl)
  refine ⟨s7, ?_, hsh2, sizeAt_of_cellAt hthis, ?_, hlen, hbud, htemp⟩
  · unfold SingleLinkedList.copy
    have hdecl : (declareList : Exec T Nat) s
        = .ok s.mem.length (s.push (.list ⟨Indeterminate.value s.mem.length, none⟩ 0)) := rfl
    have hbegin : begin_ other (s.push (.list ⟨(Indeterminate.value s.mem.length : T), none⟩ 0))
        = .ok ⟨hd.next_node⟩ (s.push (.list ⟨Indeterminate.value s.mem.length, none⟩ 0)) := by
      apply begin_ok (n := hd)
      unfold nodeAt
      rw [hagA other holt, hco]
      rfl
    have hbody : (do
        let first ← begin_ other
        (fun s1 => Create s.mem.length iteratorOps first end_ (s1.mem.length + 1) s1) :
          Exec T Unit) (s.push (.list ⟨Indeterminate.value s.mem.length, none⟩ 0)) = .ok () s7 := by
      rw [bind_ok hbegin]
      simpa using hcreate
    rw [bind_ok hdecl, bind_ok (unwind_ok hbody)]
    rfl
  · intro b hb0
    rw [hframe b (by simp; omega) (by omega), cellAt_push, if_neg (by omega)]

end constructors

/-! ## The invariant of the whole memory -/

section invariant
variable {T : Type}

theorem Shape_det {s : Store T} {a : Nat} {c1 c2 : List (Nat × T)}
    (h1 : Shape s a c1) (h2 : Shape s a c2) : c1 = c2 := by
  obtain ⟨hd1, k1, hc1, hseg1, _⟩ := Shape_cell h1
  obtain ⟨hd2, k2, hc2, hseg2, _⟩ := Shape_cell h2
  rw [hc1] at hc2
  cases hc2
  exact Seg_det _ _ _ hseg1 hseg2

theorem Shape_isList {s : Store T} {a : Nat} {cells : List (Nat × T)}
    (h : Shape s a cells) : (sizeAt s a).isSome = true := by
  obtain ⟨_, sz, hsz, _, _⟩ := h
  rw [hsz]
  rfl

theorem sizeAt_congr {s s2 : Store T} {x : Nat} (h : cellAt s2 x = cellAt s x) :
    sizeAt s2 x = sizeAt s x := by
  unfold sizeAt
  rw [h]

theorem sizeAt_lt {s : Store T} {a : Nat} (h : (sizeAt s a).isSome = true) :
    a < s.mem.length := by
  unfold sizeAt at h
  cases hc : cellAt s a with
  | none => simp [hc] at h
  | some c => exact cellAt_lt hc

theorem WellFormed_congr {s s2 : Store T} (h : ∀ c, cellAt s2 c = cellAt s c)
    (hwf : WellFormed s) : WellFormed s2 := by
  have hback : ∀ c, cellAt s c = cellAt s2 c := fun c => (h c).symm
  constructor
  · intro a ha
    rw [sizeAt_congr (h a)] at ha
    obtain ⟨cells, hsh, hsz⟩ := hwf.1 a ha
    exact ⟨cells, Shape_congr h hsh, by rw [sizeAt_congr (h a)]; exact hsz⟩
  · intro a b ca cb hab hsa hsb
    exact hwf.2 a b ca cb hab (Shape_congr hback hsa) (Shape_congr hback hsb)

/-- A change of the memory that rebuilds the list at `a` out of the nodes `old`
and of fresh nodes, and leaves every other object alone, keeps the memory well
formed. -/
theorem WellFormed_frame {s s2 : Store T} {a : Nat} {cells2 : List (Nat × T)}
    (old : Nat → Prop) (hwf : WellFormed s)
    (hsh2 : Shape s2 a cells2) (hsz2 : sizeAt s2 a = some cells2.length)
    (hsizes : ∀ x, x ≠ a → sizeAt s2 x = sizeAt s x)
    (holdheap : ∀ x, old x → sizeAt s x = none)
    (hdisj : ∀ b cb, b ≠ a → Shape s b cb → ∀ d ∈ cb, ¬ old d.1 ∧ d.1 ≠ a)
    (hframe : ∀ x, x ≠ a → ¬ old x → x < s.mem.length → cellAt s2 x = cellAt s x)
    (hchain : ∀ c ∈ cells2, old c.1 ∨ s.mem.length ≤ c.1) : WellFormed s2 := by
  have key : ∀ b, b ≠ a → (sizeAt s2 b).isSome = true →
      ∃ cb, Shape s b cb ∧ Shape s2 b cb ∧ sizeAt s2 b = some cb.length := by
    intro b hba hb
    rw [hsizes b hba] at hb
    obtain ⟨cb, hshb, hszb⟩ := hwf.1 b hb
    have hnotold : ¬ old b := by
      intro ho
      rw [holdheap b ho] at hb
      cases hb
    obtain ⟨hd, k, hcb, hseg, hheap⟩ := Shape_cell hshb
    have hcb2 : cellAt s2 b = some (.list hd k) := by
      rw [hframe b hba hnotold (cellAt_lt hcb)]
      exact hcb
    refine ⟨cb, hshb, Shape_of_cells hcb2 hseg hheap (fun d hd => ?_), ?_⟩
    · exact hframe d.1 (hdisj b cb hba hshb d hd).2 (hdisj b cb hba hshb d hd).1
        (Seg_lt _ _ _ hseg d hd)
    · rw [hsizes b hba]
      exact hszb
  have hcross : ∀ y cy, y ≠ a → Shape s2 y cy → ∀ c ∈ cells2, ∀ d ∈ cy, c.1 ≠ d.1 := by
    intro y cy hya hsy c hc d hd
    obtain ⟨cb, hshb, hshb2, _⟩ := key y hya (Shape_isList hsy)
    have hcy : cy = cb := Shape_det hsy hshb2
    subst hcy
    obtain ⟨_, _, _, hseg, _⟩ := Shape_cell hshb
    have hdlt := Seg_lt _ _ _ hseg d hd
    rcases hchain c hc with ho | hge
    · intro heq
      rw [heq] at ho
      exact (hdisj y cy hya hshb d hd).1 ho
    · omega
  constructor
  · intro b hb
    by_cases hba : b = a
    · subst hba
      exact ⟨cells2, hsh2, hsz2⟩
    · obtain ⟨cb, _, hshb2, hszb2⟩ := key b hba hb
      exact ⟨cb, hshb2, hszb2⟩
  · intro x y cx cy hxy hsx hsy c hc d hd
    by_cases hxa : x = a
    · subst hxa
      have hcx : cx = cells2 := Shape_det hsx hsh2
      subst hcx
      exact hcross y cy (Ne.symm hxy) hsy c hc d hd
    · by_cases hya : y = a
      · subst hya
        have hcy : cy = cells2 := Shape_det hsy hsh2
        subst hcy
        exact Ne.symm (hcross x cx hxa hsx d hd c hc)
      · obtain ⟨cbx, hshx, hshx2, _⟩ := key x hxa (Shape_isList hsx)
        obtain ⟨cby, hshy, hshy2, _⟩ := key y hya (Shape_isList hsy)
        have e1 : cx = cbx := Shape_det hsx hshx2
        have e2 : cy = cby := Shape_det hsy hshy2
        subst e1
        subst e2
        exact hwf.2 x y cx cy hxy hshx hshy c hc d hd

end invariant

section invariant_steps
variable {T : Type}

theorem advance_add (m n : Nat) :
    ∀ (it : BasicIterator), (advance (m + n) it : Exec T BasicIterator)
      = advance m it >>= advance n := by
  induction m with
  | zero =>
    intro it
    rw [Nat.zero_add]
    rfl
  | succ m ih =>
    intro it
    rw [Nat.succ_add]
    show (it.incr >>= fun x => advance (m + n) x) = (it.incr >>= fun x => advance m x) >>= _
    rw [exec_bind_assoc]
    congr 1
    funext x
    exact ih x

theorem advance_from_end (j : Nat) (s : Store T) :
    advance (j + 1) end_ s = .assert_fail := by
  show (end_.incr >>= fun x => advance j x) s = .assert_fail
  exact bind_assert_fail rfl

/-- A position reached by increments behind `before_begin()` that is not
`end()` is at most `|cells|` increments away. -/
theorem advance_bound {s s1 : Store T} {this k : Nat} {cells : List (Nat × T)}
    {pos : BasicIterator} (hsh : Shape s this cells)
    (hpos : advance k (before_begin this) s = .ok pos s1) (hne : pos ≠ end_) :
    k ≤ cells.length := by
  by_contra hgt
  obtain ⟨d, sz, _, hC, _⟩ := id hsh
  have hfull := advance_of_Seg _ _ _ hC
  simp only [List.length_cons] at hfull
  by_cases hk : k = cells.length + 1
  · rw [hk] at hpos
    exact hne (position_end hsh hpos)
  · obtain ⟨j, hj⟩ : ∃ j, k = (cells.length + 1) + (j + 1) := ⟨k - cells.length - 2, by omega⟩
    rw [hj, advance_add] at hpos
    unfold before_begin at hpos
    rw [bind_ok hfull] at hpos
    have h2 : advance (j + 1) end_ s = .ok pos s1 := hpos
    rw [advance_from_end] at h2
    cases h2

/-- The node at a position of the list is the sentinel or a node of the
chain. -/
theorem position_owner {s : Store T} {this k : Nat} {cells : List (Nat × T)}
    {pos : BasicIterator} (hsh : Shape s this cells) (hk : k ≤ cells.length)
    (hpos : advance k (before_begin this) s = .ok pos s) :
    ∃ a, pos = ⟨some a⟩ ∧ (a = this ∨ ∃ c ∈ cells, c.1 = a) := by
  obtain ⟨d, sz, _, hC, _⟩ := hsh
  obtain ⟨pre, a, va, post, hsplit, hp, _, _, _⟩ :=
    advance_split hC (by simp; omega) hpos
  refine ⟨a, hp, ?_⟩
  have hmem : (a, va) ∈ (this, d) :: cells := by
    rw [hsplit]
    exact List.mem_append_right _ (List.mem_cons_self _ _)
  rcases List.mem_cons.1 hmem with h | h
  · left
    exact congrArg Prod.fst h
  · right
    exact ⟨(a, va), h, rfl⟩

/-- The successor of a node of the list is a node of its chain. -/
theorem successor_mem {s : Store T} {this a b : Nat} {cells : List (Nat × T)} {n : Node T}
    (hsh : Shape s this cells) (ha : a = this ∨ ∃ c ∈ cells, c.1 = a)
    (hn : nodeAt s a = some n) (hnx : n.next_node = some b) : ∃ c ∈ cells, c.1 = b := by
  obtain ⟨d, sz, _, hC, _⟩ := hsh
  have hmem : ∃ c ∈ (this, d) :: cells, c.1 = a := by
    rcases ha with h | ⟨c, hc, hca⟩
    · exact ⟨(this, d), List.mem_cons_self _ _, h.symm⟩
    · exact ⟨c, List.mem_cons_of_mem _ hc, hca⟩
  obtain ⟨c, hc, hca⟩ := hmem
  obtain ⟨l1, l2, hsplit⟩ := List.append_of_mem hc
  have hC2 := hC
  rw [hsplit] at hC2
  obtain ⟨m, _, _, nx, hnc, hrest⟩ := (Seg_append l1 (c :: l2) (some this) none).1 hC2
  rw [hca, hn] at hnc
  have hnx2 : nx = some b := by
    rw [← hnx]
    exact (congrArg Node.next_node (Option.some.inj hnc)).symm
  cases l2 with
  | nil =>
    have : nx = none := hrest
    rw [this] at hnx2
    cases hnx2
  | cons e l3 =>
    have he : nx = some e.1 := hrest.1
    rw [he] at hnx2
    have heb : e.1 = b := Option.some.inj hnx2
    refine ⟨e, ?_, heb⟩
    cases l1 with
    | nil =>
      simp only [List.nil_append, List.cons.injEq] at hsplit
      rw [hsplit.2]
      exact List.mem_cons_self _ _
    | cons x l1 =>
      simp only [List.cons_append, List.cons.injEq] at hsplit
      rw [hsplit.2]
      exact List.mem_append_right _ (List.mem_cons_of_mem _ (List.mem_cons_self _ _))

theorem InsertAfter_bad_alloc {s : Store T} {a : Nat} {n : Node T} (this : Nat) (v : T)
    (hn : nodeAt s a = some n) (hb : s.budget = 0) :
    InsertAfter this ⟨some a⟩ v s = .bad_alloc s := by
  unfold InsertAfter
  simp only [Option.isSome_some]
  rw [bind_ok (assert_ok s rfl), bind_ok (readNode_ok hn)]
  show Exec.bind (newNode v _) _ s = _
  unfold Exec.bind newNode
  rw [if_pos hb]

theorem PushFront_bad_alloc {s : Store T} {this : Nat} {n : Node T} (v : T)
    (hn : nodeAt s this = some n) (hb : s.budget = 0) :
    PushFront this v s = .bad_alloc s := by
  unfold PushFront
  rw [bind_ok (readNode_ok hn)]
  show Exec.bind (newNode v _) _ s = _
  unfold Exec.bind newNode
  rw [if_pos hb]

/-- The frame rule for an operation that rebuilds the list at `a` from nodes of
its own chain and fresh nodes. -/
theorem WellFormed_update {s s2 : Store T} {a : Nat} {cells cells2 : List (Nat × T)}
    (hwf : WellFormed s) (hsh : Shape s a cells)
    (hsh2 : Shape s2 a cells2) (hsz2 : sizeAt s2 a = some cells2.length)
    (hsizes : ∀ x, x ≠ a → sizeAt s2 x = sizeAt s x)
    (hframe : ∀ x, x ≠ a → (∀ c ∈ cells, c.1 ≠ x) → x < s.mem.length →
      cellAt s2 x = cellAt s x)
    (hchain : ∀ c ∈ cells2, (∃ c0 ∈ cells, c0.1 = c.1) ∨ s.mem.length ≤ c.1) :
    WellFormed s2 := by
  obtain ⟨hd, k, hca, _, hheap⟩ := Shape_cell hsh
  refine WellFormed_frame (fun x => ∃ c ∈ cells, c.1 = x) hwf hsh2 hsz2 hsizes ?_ ?_ ?_ hchain
  · rintro x ⟨c, hc, rfl⟩
    exact sizeAt_of_isHeapNode (hheap c hc)
  · intro b cb hba hshb d hd
    constructor
    · rintro ⟨c, hc, hcd⟩
      exact hwf.2 a b cells cb (Ne.symm hba) hsh hshb c hc d hd hcd
    · obtain ⟨_, _, _, _, hheapb⟩ := Shape_cell hshb
      exact heap_ne_list hca (hheapb d hd)
  · intro x hxa hnot hlt
    exact hframe x hxa (fun c hc heq => hnot ⟨c, hc, heq⟩) hlt

end invariant_steps

section invariant_updates
variable {T : Type}

theorem cellAt_insertStore (s : Store T) (this a sz : Nat) (n : Node T) (v : T) (x : Nat)
    (h1 : x ≠ this) (h2 : x ≠ a) (h3 : x ≠ s.mem.length) :
    cellAt (insertStore s this a n v sz) x = cellAt s x := by
  unfold insertStore
  rw [cellAt_putSize, if_neg h1, cellAt_putNode, if_neg h2, cellAt_alloc, if_neg h3]

theorem sizeAt_insertStore_other {s : Store T} {this a sz : Nat} {n : Node T} (v : T)
    (hsz : sizeAt s this = some sz) (x : Nat) (h1 : x ≠ this) :
    sizeAt (insertStore s this a n v sz) x = sizeAt s x := by
  unfold insertStore
  rw [sizeAt_putSize _ _ _ _ sz (by rw [sizeAt_putNode, sizeAt_alloc]; exact hsz), if_neg h1,
    sizeAt_putNode, sizeAt_alloc]

theorem cellAt_eraseStore (s : Store T) (this a b sz : Nat) (n nb : Node T) (x : Nat)
    (h1 : x ≠ this) (h2 : x ≠ a) (h3 : x ≠ b) :
    cellAt (eraseStore s this a n b nb sz) x = cellAt s x := by
  unfold eraseStore
  rw [cellAt_putSize, if_neg h1, cellAt_setCell, if_neg (fun h => h3 h.1), cellAt_putNode,
    if_neg h2]

theorem sizeAt_eraseStore_other {s : Store T} {this a b sz : Nat} {n nb : Node T}
    (hn : nodeAt s a = some n) (hheap : IsHeapNode s b) (hab : a ≠ b)
    (hsz : sizeAt s this = some sz) (x : Nat) (h1 : x ≠ this) :
    sizeAt (eraseStore s this a n b nb sz) x = sizeAt s x := by
  obtain ⟨h1b, h2, _⟩ := erase_steps nb hn hheap hab hsz
  unfold eraseStore
  rw [sizeAt_putSize _ _ _ _ sz h2, if_neg h1, sizeAt_free _ _ _ (sizeAt_of_isHeapNode h1b),
    sizeAt_putNode]

/-- Inserting behind a position of a list keeps the memory well formed. -/
theorem WellFormed_insert {s : Store T} {this k : Nat} {cells : List (Nat × T)}
    {pos : BasicIterator} (v : T) (hwf : WellFormed s) (hsh : Shape s this cells)
    (hsz : sizeAt s this = some cells.length) (hk : k ≤ cells.length)
    (hpos : advance k (before_begin this) s = .ok pos s) (hb : 0 < s.budget) :
    ∃ a n, pos = ⟨some a⟩ ∧ nodeAt s a = some n ∧ (k = 0 → a = this) ∧
      InsertAfter this pos v s
        = .ok ⟨some s.mem.length⟩ (insertStore s this a n v cells.length) ∧
      WellFormed (insertStore s this a n v cells.length) := by
  obtain ⟨a, n, hp, hn, hexec, hsh2, hsz2, _, _, _⟩ := InsertAfter_at v hsh hsz hk hpos hb
  obtain ⟨a2, hp2, hown⟩ := position_owner hsh hk hpos
  have haa : a2 = a := by
    rw [hp] at hp2
    cases hp2
    rfl
  rw [haa] at hown
  refine ⟨a, n, hp, hn, ?_, hexec, ?_⟩
  · intro hk0
    rw [hk0] at hpos
    have : pos = before_begin this := by
      cases hpos
      rfl
    rw [hp] at this
    cases this
    rfl
  · refine WellFormed_update hwf hsh hsh2 ?_ (sizeAt_insertStore_other v hsz) ?_ ?_
    · rw [hsz2]
      congr 1
      simp only [List.length_append, List.length_cons, List.length_take, List.length_drop]
      omega
    · intro x hx hcells hlt
      refine cellAt_insertStore s this a _ n v x hx ?_ (by omega)
      rcases hown with h | ⟨c, hc, hca⟩
      · rw [h]
        exact hx
      · rw [← hca]
        exact Ne.symm (hcells c hc)
    · intro c hc
      rcases List.mem_append.1 hc with h | h
      · exact Or.inl ⟨c, List.mem_of_mem_take h, rfl⟩
      · rcases List.mem_cons.1 h with h | h
        · right
          rw [h]
        · exact Or.inl ⟨c, List.mem_of_mem_drop h, rfl⟩

/-- Erasing behind a position of a list keeps the memory well formed. -/
theorem WellFormed_erase {s : Store T} {this k : Nat} {cells : List (Nat × T)}
    {pos : BasicIterator} (hwf : WellFormed s) (hsh : Shape s this cells)
    (hsz : sizeAt s this = some cells.length) (hk : k < cells.length)
    (hpos : advance k (before_begin this) s = .ok pos s) :
    ∃ a n b nb, pos = ⟨some a⟩ ∧ nodeAt s a = some n ∧ n.next_node = some b ∧
      nodeAt s b = some nb ∧ a ≠ b ∧ IsHeapNode s b ∧ (k = 0 → a = this) ∧
      EraseAfter this pos s
        = .ok ⟨nb.next_node⟩ (eraseStore s this a n b nb cells.length) ∧
      WellFormed (eraseStore s this a n b nb cells.length) := by
  obtain ⟨a, n, b, nb, hp, hn, hnx, hnb, hab, hheap, _, hexec, hsh2, hsz2, _⟩ :=
    EraseAfter_at hsh hsz (by omega) hk hpos
  obtain ⟨a2, hp2, hown⟩ := position_owner hsh (Nat.le_of_lt hk) hpos
  have haa : a2 = a := by
    rw [hp] at hp2
    cases hp2
    rfl
  rw [haa] at hown
  obtain ⟨cb, hcb, hcbb⟩ := successor_mem hsh hown hn hnx
  refine ⟨a, n, b, nb, hp, hn, hnx, hnb, hab, hheap, ?_, hexec, ?_⟩
  · intro hk0
    rw [hk0] at hpos
    have : pos = before_begin this := by
      cases hpos
      rfl
    rw [hp] at this
    cases this
    rfl
  · refine WellFormed_update hwf hsh hsh2 ?_ (sizeAt_eraseStore_other hn hheap hab hsz) ?_ ?_
    · rw [hsz2]
      congr 1
      simp only [List.length_append, List.length_take, List.length_drop]
      omega
    · intro x hx hcells hlt
      refine cellAt_eraseStore s this a b _ n nb x hx ?_ ?_
      · rcases hown with h | ⟨c, hc, hca⟩
        · rw [h]
          exact hx
        · rw [← hca]
          exact Ne.symm (hcells c hc)
      · rw [← hcbb]
        exact Ne.symm (hcells cb hcb)
    · intro c hc
      rcases List.mem_append.1 hc with h | h
      · exact Or.inl ⟨c, List.mem_of_mem_take h, rfl⟩
      · exact Or.inl ⟨c, List.mem_of_mem_drop h, rfl⟩

/-- Clearing a list keeps the memory well formed. -/
theorem WellFormed_clear {s : Store T} {a : Nat} {cells : List (Nat × T)}
    (hwf : WellFormed s) (hsh : Shape s a cells) :
    ∃ s2, Clear a s = .ok () s2 ∧ WellFormed s2 := by
  obtain ⟨s2, d, hexec, hlen, _, hca, hgone, hframe⟩ := Clear_spec hsh
  obtain ⟨_, _, _, _, hheap⟩ := Shape_cell hsh
  refine ⟨s2, hexec, WellFormed_update hwf hsh (Shape_empty hca) (sizeAt_of_cellAt hca) ?_ ?_ ?_⟩
  · intro x hx
    by_cases hmem : ∃ c ∈ cells, c.1 = x
    · obtain ⟨c, hc, hcx⟩ := hmem
      rw [← hcx, sizeAt_of_isHeapNode (hheap c hc)]
      unfold sizeAt
      rw [hgone c hc]
    · exact sizeAt_congr (hframe x hx (fun c hc heq => hmem ⟨c, hc, heq⟩))
  · intro x hx hcells _
    exact hframe x hx hcells
  · intro c hc
    cases hc

end invariant_updates

section returning
variable {T It : Type}

theorem bind_ok_inv {α β : Type} {x : Exec T α} {f : α → Exec T β} {s s2 : Store T} {b : β}
    (h : (x >>= f) s = .ok b s2) : ∃ a s1, x s = .ok a s1 ∧ f a s1 = .ok b s2 := by
  have h2 : Exec.bind x f s = .ok b s2 := h
  unfold Exec.bind at h2
  cases hx : x s with
  | ok a s1 =>
    rw [hx] at h2
    exact ⟨a, s1, rfl, h2⟩
  | bad_alloc s1 => rw [hx] at h2; cases h2
  | assert_fail => rw [hx] at h2; cases h2
  | undefined => rw [hx] at h2; cases h2
  | timeout => rw [hx] at h2; cases h2

theorem scoped_ok_inv {α : Type} {body : Exec T α} {cleanup : Exec T Unit} {s s2 : Store T}
    {a : α} (h : Exec.scoped body cleanup s = .ok a s2) : ∃ s1, body s = .ok a s1 := by
  unfold Exec.scoped at h
  cases hx : body s with
  | ok a1 s1 =>
    rw [hx] at h
    cases hc : cleanup s1 with
    | ok u s3 =>
      simp only [hc] at h
      cases h
      exact ⟨s1, rfl⟩
    | bad_alloc s3 => simp only [hc] at h; cases h
    | assert_fail => simp only [hc] at h; cases h
    | undefined => simp only [hc] at h; cases h
    | timeout => simp only [hc] at h; cases h
  | bad_alloc s1 =>
    rw [hx] at h
    cases hc : cleanup s1 with
    | ok u s3 => simp only [hc] at h; cases h
    | bad_alloc s3 => simp only [hc] at h; cases h
    | assert_fail => simp only [hc] at h; cases h
    | undefined => simp only [hc] at h; cases h
    | timeout => simp only [hc] at h; cases h
  | assert_fail => rw [hx] at h; cases h
  | undefined => rw [hx] at h; cases h
  | timeout => rw [hx] at h; cases h

theorem unwind_ok_inv {α : Type} {body : Exec T α} {cleanup : Exec T Unit} {s s2 : Store T}
    {a : α} (h : Exec.unwind body cleanup s = .ok a s2) : body s = .ok a s2 := by
  unfold Exec.unwind at h
  cases hx : body s with
  | ok a1 s1 =>
    rw [hx] at h
    exact h
  | bad_alloc s1 =>
    rw [hx] at h
    cases hc : cleanup s1 with
    | ok u s3 => simp only [hc] at h; cases h
    | bad_alloc s3 => simp only [hc] at h; cases h
    | assert_fail => simp only [hc] at h; cases h
    | undefined => simp only [hc] at h; cases h
    | timeout => simp only [hc] at h; cases h
  | assert_fail => rw [hx] at h; cases h
  | undefined => rw [hx] at h; cases h
  | timeout => rw [hx] at h; cases h

/-- The loop of `Create` returns only when the memory had room for a node per
value. -/
theorem Create_loop_returns (ops : RangeOps T It) (s0 : Store T) (last : It) :
    ∀ (vals : List T) (first : It) (nd : Nat) (vd : T) (cnt fuel : Nat) (s s2 : Store T)
      (r : Option Nat × Nat),
      Yields ops s0 last first vals → Agree s0 s → s0.mem.length ≤ nd →
      nodeAt s nd = some ⟨vd, none⟩ →
      Create.loop ops last fuel first (some nd) cnt s = .ok r s2 → vals.length ≤ s.budget
  | [], _, _, _, _, _, _, _, _, _, _, _, _, _ => Nat.zero_le _
  | _ :: _, _, _, _, _, 0, _, _, _, _, _, _, _, hloop => by
    unfold Create.loop at hloop
    cases hloop
  | v :: vs, first, nd, vd, cnt, fuel + 1, s, s2, r, ⟨hne, next, hops, hy⟩, hag, hge, hnd,
      hloop => by
    have hndlt := nodeAt_lt hnd
    have hndL : nd ≠ s.mem.length := Nat.ne_of_lt hndlt
    have h1 : nodeAt (s.alloc ⟨v, none⟩) nd = some ⟨vd, none⟩ := nodeAt_alloc_old _ hnd
    have hag2 : Agree s0 ((s.alloc ⟨v, none⟩).putNode nd ⟨vd, some s.mem.length⟩) := by
      intro b hb0
      rw [cellAt_putNode, if_neg (by omega), cellAt_alloc, if_neg (by omega)]
      exact hag b hb0
    have hL : nodeAt ((s.alloc ⟨v, none⟩).putNode nd ⟨vd, some s.mem.length⟩) s.mem.length
        = some ⟨v, none⟩ := by
      rw [nodeAt_putNode _ _ _ _ _ h1, if_neg hndL.symm, nodeAt_alloc, if_pos rfl]
    have h2 : nodeAt ((s.alloc ⟨v, none⟩).putNode nd ⟨vd, some s.mem.length⟩) nd
        = some ⟨vd, some s.mem.length⟩ := by
      rw [nodeAt_putNode _ _ _ _ _ h1, if_pos rfl]
    unfold Create.loop at hloop
    rw [if_pos hne, bind_ok (hops s hag).1] at hloop
    by_cases hb0 : s.budget = 0
    · obtain ⟨a, s1, hnew, _⟩ := bind_ok_inv hloop
      unfold newNode at hnew
      rw [if_pos hb0] at hnew
      cases hnew
    · rw [bind_ok (newNode_ok v none (by omega)), bind_ok (setNext_ok _ h1),
        bind_ok (readNode_ok h2), bind_ok (hops _ hag2).2] at hloop
      have ih := Create_loop_returns ops s0 last vs next s.mem.length v (cnt + 1) fuel
        ((s.alloc ⟨v, none⟩).putNode nd ⟨vd, some s.mem.length⟩) s2 r hy hag2 (by omega) hL hloop
      simp only [putNode_budget, alloc_budget] at ih
      simp only [List.length_cons]
      omega

/-- A call of `Create` returns only when the memory had room for a node per
value. -/
theorem Create_returns [Indeterminate T] (ops : RangeOps T It) (s0 : Store T) (last : It)
    (vals : List T) (first : It) (fuel : Nat) (s s7 : Store T) (this : Nat)
    (hy : Yields ops s0 last first vals) (hag : Agree s0 s)
    (hle : s0.mem.length ≤ s.mem.length)
    (h : Create this ops first last fuel s = .ok () s7) : vals.length ≤ s.budget := by
  have hagA : Agree s0 (s.push (.list ⟨Indeterminate.value s.mem.length, none⟩ 0)) := by
    intro b hb0
    rw [cellAt_push, if_neg (by omega)]
    exact hag b hb0
  have hcA : cellAt (s.push (.list ⟨(Indeterminate.value s.mem.length : T), none⟩ 0)) s.mem.length
      = some (.list ⟨Indeterminate.value s.mem.length, none⟩ 0) := by
    rw [cellAt_push, if_pos rfl]
  unfold Create at h
  have hdecl : (declareList : Exec T Nat) s
      = .ok s.mem.length (s.push (.list ⟨Indeterminate.value s.mem.length, none⟩ 0)) := rfl
  rw [bind_ok hdecl] at h
  obtain ⟨s1, hbody⟩ := scoped_ok_inv h
  obtain ⟨r, s2, hloop, _⟩ := bind_ok_inv hbody
  have := Create_loop_returns ops s0 last vals first s.mem.length (Indeterminate.value s.mem.length) 0 fuel
    (s.push (.list ⟨Indeterminate.value s.mem.length, none⟩ 0)) s2 r hy hagA hle (nodeAt_of_cellAt hcA) hloop
  simpa using this

/-- The constructor from a sequence returns only when the memory had room for
a node per value. -/
theorem ofInitializerList_returns [Indeterminate T] {s s2 : Store T} {S : List T} {a : Nat}
    (h : SingleLinkedList.ofInitializerList S s = .ok a s2) : S.length ≤ s.budget := by
  have hagA : Agree s (s.push (.list ⟨Indeterminate.value s.mem.length, none⟩ 0)) := by
    intro b hb0
    rw [cellAt_push, if_neg (by omega)]
  unfold SingleLinkedList.ofInitializerList at h
  have hdecl : (declareList : Exec T Nat) s
      = .ok s.mem.length (s.push (.list ⟨Indeterminate.value s.mem.length, none⟩ 0)) := rfl
  rw [bind_ok hdecl] at h
  obtain ⟨u, s7, hun, _⟩ := bind_ok_inv h
  have hc := unwind_ok_inv hun
  have := Create_returns (initializerListOps S) s S.length S 0 (S.length + 1)
    (s.push (.list ⟨Indeterminate.value s.mem.length, none⟩ 0)) s7 s.mem.length
    (Yields_initializerList S s S 0 rfl (Nat.zero_le _)) hagA (by simp) hc
  simpa using this

/-- The copy constructor returns only when the memory had room for a node per
element of the source. -/
theorem copy_returns [Indeterminate T] {s s2 : Store T} {other a : Nat} {cells : List (Nat × T)}
    (hsh : Shape s other cells) (h : SingleLinkedList.copy other s = .ok a s2) :
    cells.length ≤ s.budget := by
  obtain ⟨hd, k, hco, hsegO, hheapO⟩ := Shape_cell hsh
  have holt := cellAt_lt hco
  have hagA : Agree s (s.push (.list ⟨Indeterminate.value s.mem.length, none⟩ 0)) := by
    intro b hb0
    rw [cellAt_push, if_neg (by omega)]
  unfold SingleLinkedList.copy at h
  have hdecl : (declareList : Exec T Nat) s
      = .ok s.mem.length (s.push (.list ⟨Indeterminate.value s.mem.length, none⟩ 0)) := rfl
  have hbegin : begin_ other (s.push (.list ⟨(Indeterminate.value s.mem.length : T), none⟩ 0))
      = .ok ⟨hd.next_node⟩ (s.push (.list ⟨Indeterminate.value s.mem.length, none⟩ 0)) := by
    apply begin_ok (n := hd)
    unfold nodeAt
    rw [hagA other holt, hco]
    rfl
  rw [bind_ok hdecl] at h
  obtain ⟨u, s7, hun, _⟩ := bind_ok_inv h
  have hc := unwind_ok_inv hun
  rw [bind_ok hbegin] at hc
  have := Create_returns iteratorOps s end_ (cells.map Prod.snd) ⟨hd.next_node⟩ _
    (s.push (.list ⟨Indeterminate.value s.mem.length, none⟩ 0)) s7 s.mem.length
    (Yields_of_Seg cells hd.next_node hsegO) hagA (by simp) hc
  simpa using this

end returning

section invariant_objects
variable {T : Type}

theorem freshCells_cover (vals : List T) :
    ∀ (base x : Nat), base ≤ x → x < base + vals.length →
      ∃ c ∈ freshCells base vals, c.1 = x := by
  induction vals with
  | nil =>
    intro base x h1 h2
    simp only [List.length_nil] at h2
    omega
  | cons v vs ih =>
    intro base x h1 h2
    simp only [List.length_cons] at h2
    by_cases hx : x = base
    · exact ⟨(base, v), List.mem_cons_self _ _, hx.symm⟩
    · obtain ⟨c, hc, hcx⟩ := ih (base + 1) x (by omega) (by omega)
      exact ⟨c, List.mem_cons_of_mem _ hc, hcx⟩

theorem sizeAt_beyond {s : Store T} {x : Nat} (h : s.mem.length ≤ x) : sizeAt s x = none := by
  cases hs : sizeAt s x with
  | none => rfl
  | some k =>
    have := sizeAt_lt (s := s) (a := x) (by rw [hs]; rfl)
    omega

/-- A new list object with a chain of fresh nodes keeps the memory well
formed. -/
theorem WellFormed_new {s s2 : Store T} {cells2 : List (Nat × T)} (hwf : WellFormed s)
    (hsh2 : Shape s2 s.mem.length cells2) (hsz2 : sizeAt s2 s.mem.length = some cells2.length)
    (hframe : ∀ b, b < s.mem.length → cellAt s2 b = cellAt s b)
    (hother : ∀ x, s.mem.length < x → sizeAt s2 x = none)
    (hchain : ∀ c ∈ cells2, s.mem.length ≤ c.1) : WellFormed s2 := by
  refine WellFormed_frame (fun _ => False) hwf hsh2 hsz2 ?_ ?_ ?_ ?_ ?_
  · intro x hx
    by_cases hlt : x < s.mem.length
    · exact sizeAt_congr (hframe x hlt)
    · rw [hother x (by omega), sizeAt_beyond (by omega)]
  · intro x hx
    exact hx.elim
  · intro b cb _ hshb d hd
    obtain ⟨_, _, _, hseg, _⟩ := Shape_cell hshb
    have := Seg_lt _ _ _ hseg d hd
    exact ⟨id, by omega⟩
  · intro x _ _ hlt
    exact hframe x hlt
  · intro c hc
    exact Or.inr (hchain c hc)

/-- The default constructor keeps the memory well formed. -/
theorem WellFormed_declareList [Indeterminate T] {s s2 : Store T} {a : Nat}
    (hwf : WellFormed s) (h : declareList s = .ok a s2) : WellFormed s2 := by
  have hs2 : s2 = s.push (.list ⟨Indeterminate.value s.mem.length, none⟩ 0) := by
    have h2 : (Outcome.ok s.mem.length (s.push (.list ⟨(Indeterminate.value s.mem.length : T), none⟩ 0))
        : Outcome (Store T) Nat) = .ok a s2 := h
    exact ((ok_inj h2).2).symm
  have hc : cellAt s2 s.mem.length = some (.list ⟨Indeterminate.value s.mem.length, none⟩ 0) := by
    rw [hs2, cellAt_push, if_pos rfl]
  refine WellFormed_new hwf (Shape_empty hc) (sizeAt_of_cellAt hc) ?_ ?_ ?_
  · intro b hb
    rw [hs2, cellAt_push, if_neg (by omega)]
  · intro x hx
    apply sizeAt_beyond
    rw [hs2]
    simp only [push_length]
    omega
  · intro c hc
    cases hc

/-- A constructor that builds its chain out of fresh nodes keeps the memory well
formed. -/
theorem WellFormed_constructed {s s2 : Store T} {vals : List T} {k : Nat}
    (hwf : WellFormed s)
    (hsh2 : Shape s2 s.mem.length (freshCells (s.mem.length + 2) vals))
    (hsz2 : sizeAt s2 s.mem.length = some k) (hk : k = vals.length)
    (hframe : ∀ b, b < s.mem.length → cellAt s2 b = cellAt s b)
    (hlen : s2.mem.length = s.mem.length + 2 + vals.length)
    (htemp : cellAt s2 (s.mem.length + 1) = none) : WellFormed s2 := by
  have hflen : (freshCells (s.mem.length + 2) vals).length = vals.length := by
    rw [← List.length_map (freshCells (s.mem.length + 2) vals) Prod.snd, freshCells_values]
  refine WellFormed_new hwf hsh2 (by rw [hsz2, hk, hflen]) hframe ?_ ?_
  · intro x hx
    by_cases h1 : x = s.mem.length + 1
    · unfold sizeAt
      rw [h1, htemp]
    · by_cases h2 : x < s.mem.length + 2 + vals.length
      · obtain ⟨c, hc, hcx⟩ := freshCells_cover vals (s.mem.length + 2) x (by omega) h2
        obtain ⟨_, _, _, _, hheap⟩ := Shape_cell hsh2
        rw [← hcx]
        exact sizeAt_of_isHeapNode (hheap c hc)
      · exact sizeAt_beyond (by omega)
  · intro c hc
    have := freshCells_ge _ _ c hc
    omega

/-- The exchange of two list objects moves each chain to the other object. -/
theorem Shape_exchange {s s1 : Store T} {a b x : Nat} {cells : List (Nat × T)}
    (hla : (sizeAt s a).isSome = true) (hlb : (sizeAt s b).isSome = true)
    (h : ∀ c, cellAt s1 c = cellAt s (Equiv.swap a b c)) (hsh : Shape s x cells) :
    Shape s1 (Equiv.swap a b x) cells := by
  obtain ⟨hd, k, hcx, hseg, hheap⟩ := Shape_cell hsh
  have hcx1 : cellAt s1 (Equiv.swap a b x) = some (.list hd k) := by
    rw [h, Equiv.swap_apply_self]
    exact hcx
  refine Shape_of_cells hcx1 hseg hheap ?_
  intro c hc
  have hne : ∀ y, (sizeAt s y).isSome = true → c.1 ≠ y := by
    intro y hy heq
    rw [← heq, sizeAt_of_isHeapNode (hheap c hc)] at hy
    cases hy
  rw [h, Equiv.swap_apply_of_ne_of_ne (hne a hla) (hne b hlb)]

/-- The exchange of two list objects keeps the memory well formed. -/
theorem WellFormed_exchange {s s1 : Store T} {a b : Nat} (hwf : WellFormed s)
    (hla : (sizeAt s a).isSome = true) (hlb : (sizeAt s b).isSome = true)
    (h : ∀ c, cellAt s1 c = cellAt s (Equiv.swap a b c)) : WellFormed s1 := by
  have hback : ∀ c, cellAt s c = cellAt s1 (Equiv.swap a b c) := by
    intro c
    rw [h, Equiv.swap_apply_self]
  have hsize : ∀ c, sizeAt s1 c = sizeAt s (Equiv.swap a b c) := by
    intro c
    unfold sizeAt
    rw [h]
  have hla1 : (sizeAt s1 a).isSome = true := by
    rw [hsize, Equiv.swap_apply_left]
    exact hlb
  have hlb1 : (sizeAt s1 b).isSome = true := by
    rw [hsize, Equiv.swap_apply_right]
    exact hla
  constructor
  · intro x hx
    rw [hsize] at hx
    obtain ⟨cells, hsh, hsz⟩ := hwf.1 _ hx
    have hsh1 := Shape_exchange hla hlb h hsh
    rw [Equiv.swap_apply_self] at hsh1
    exact ⟨cells, hsh1, by rw [hsize]; exact hsz⟩
  · intro x y cx cy hxy hsx hsy
    have h1 := Shape_exchange hla1 hlb1 hback hsx
    have h2 := Shape_exchange hla1 hlb1 hback hsy
    exact hwf.2 _ _ cx cy (fun heq => hxy ((Equiv.swap a b).injective heq)) h1 h2

theorem isList_cell {s : Store T} {a : Nat} (h : (sizeAt s a).isSome = true) :
    ∃ hd k, cellAt s a = some (.list hd k) := by
  unfold sizeAt at h
  cases hc : cellAt s a with
  | none => simp [hc] at h
  | some c =>
    cases c with
    | node n => simp [hc] at h
    | list hd k => exact ⟨hd, k, rfl⟩

/-- The memory after `swap` holds each cell of the memory before at its
exchanged address. -/
theorem swap_exchange {s : Store T} {a b : Nat}
    (hla : (sizeAt s a).isSome = true) (hlb : (sizeAt s b).isSome = true) :
    ∃ s1, swap a b s = .ok () s1 ∧ ∀ c, cellAt s1 c = cellAt s (Equiv.swap a b c) := by
  obtain ⟨ha, ka, hca⟩ := isList_cell hla
  obtain ⟨hb, kb, hcb⟩ := isList_cell hlb
  obtain ⟨s1, hswap, _, _, hcells⟩ := swap_cells hca hcb
  refine ⟨s1, hswap, ?_⟩
  intro c
  rw [hcells]
  by_cases h1 : c = a
  · rw [if_pos h1, h1, Equiv.swap_apply_left, hcb]
  · by_cases h2 : c = b
    · rw [if_neg h1, if_pos h2, h2, Equiv.swap_apply_right, hca]
    · rw [if_neg h1, if_neg h2, Equiv.swap_apply_of_ne_of_ne h1 h2]

end invariant_objects

section chain_positions
variable {T : Type}

/-- The position `j` increments along a chain is the node at index `j`. -/
theorem advance_index {s : Store T} :
    ∀ (C : List (Nat × T)) (p : Option Nat) (j : Nat), Seg s p C none → j < C.length →
      ∃ x, C[j]? = some x ∧ advance j ⟨p⟩ s = .ok ⟨some x.1⟩ s
  | [], _, _, _, hj => by simp at hj
  | c :: cs, p, 0, ⟨hp, _⟩, _ => by
    subst hp
    exact ⟨c, by simp, rfl⟩
  | c :: cs, p, j + 1, ⟨hp, nx, hn, hrest⟩, hj => by
    subst hp
    obtain ⟨x, hx, hadv⟩ := advance_index cs nx j hrest (by simpa using hj)
    refine ⟨x, by simpa using hx, ?_⟩
    show (BasicIterator.incr ⟨some c.1⟩ >>= fun it => advance j it) s = _
    have hinc : BasicIterator.incr ⟨some c.1⟩ s = .ok ⟨nx⟩ s := incr_ok hn
    rw [bind_ok hinc]
    exact hadv

/-- Two different numbers of increments along a chain reach two different
nodes. -/
theorem advance_distinct {s : Store T} {C : List (Nat × T)} {p : Option Nat} {i j : Nat}
    {pos : BasicIterator} (hC : Seg s p C none) (hi : i < C.length) (hj : j < C.length)
    (h1 : advance i ⟨p⟩ s = .ok pos s) (h2 : advance j ⟨p⟩ s = .ok pos s) : i = j := by
  obtain ⟨x, hx, hax⟩ := advance_index C p i hC hi
  obtain ⟨y, hy, hay⟩ := advance_index C p j hC hj
  rw [h1] at hax
  rw [h2] at hay
  have hxy : x.1 = y.1 := by
    have h3 := (ok_inj hax).1
    have h4 := (ok_inj hay).1
    rw [h3] at h4
    have h5 := congrArg BasicIterator.node_ h4
    exact Option.some.inj h5
  have hnd := Seg_nodup C p hC
  have hmi : (C.map Prod.fst)[i]? = some x.1 := by
    rw [List.getElem?_map, hx]
    rfl
  have hmj : (C.map Prod.fst)[j]? = some x.1 := by
    rw [List.getElem?_map, hy, hxy]
    rfl
  have hne := List.nodup_iff_getElem?_ne_getElem?.1 hnd
  rcases Nat.lt_trichotomy i j with h | h | h
  · exact absurd (hmi.trans hmj.symm) (hne i j h (by simpa using hj))
  · exact h
  · exact absurd (hmj.trans hmi.symm) (hne j i h (by simpa using hi))

end chain_positions

section throwing
variable {T It : Type}

theorem bind_bad_alloc {α β : Type} {x : Exec T α} {f : α → Exec T β} {s s1 : Store T}
    (h : x s = .bad_alloc s1) : (x >>= f) s = .bad_alloc s1 := by
  show Exec.bind x f s = .bad_alloc s1
  unfold Exec.bind
  rw [h]

theorem scoped_bad_alloc {α : Type} {body : Exec T α} {cleanup : Exec T Unit}
    {s s1 s2 : Store T} (h1 : body s = .bad_alloc s1) (h2 : cleanup s1 = .ok () s2) :
    Exec.scoped body cleanup s = .bad_alloc s2 := by
  unfold Exec.scoped
  rw [h1]
  simp only [h2]

theorem unwind_bad_alloc {α : Type} {body : Exec T α} {cleanup : Exec T Unit}
    {s s1 s2 : Store T} (h1 : body s = .bad_alloc s1) (h2 : cleanup s1 = .ok () s2) :
    Exec.unwind body cleanup s = .bad_alloc s2 := by
  unfold Exec.unwind
  rw [h1]
  simp only [h2]

theorem cellAt_beyond {s : Store T} {x : Nat} (h : s.mem.length ≤ x) : cellAt s x = none := by
  cases hc : cellAt s x with
  | none => rfl
  | some c =>
    have := cellAt_lt hc
    omega

/-- The loop of `Create` in a memory with room for fewer nodes than values: it
leaves with `std::bad_alloc` after it has linked a node for each value that
found room. -/
theorem Create_loop_throws (ops : RangeOps T It) (s0 : Store T) (last : It) :
    ∀ (vals : List T) (first : It) (nd : Nat) (vd : T) (cnt fuel : Nat) (s : Store T),
      Yields ops s0 last first vals → Agree s0 s → s0.mem.length ≤ nd →
      nodeAt s nd = some ⟨vd, none⟩ → s.budget < vals.length → vals.length < fuel →
      ∃ s2 nx,
        Create.loop ops last fuel first (some nd) cnt s = .bad_alloc s2 ∧
        s2.mem.length = s.mem.length + s.budget ∧
        (∀ b, b < s.mem.length → b ≠ nd → cellAt s2 b = cellAt s b) ∧
        cellAt s2 nd = (cellAt s nd).map (fun c => c.withNode ⟨vd, nx⟩) ∧
        Seg s2 nx (freshCells s.mem.length (vals.take s.budget)) none ∧
        (∀ c ∈ freshCells s.mem.length (vals.take s.budget), IsHeapNode s2 c.1)
  | _, _, _, _, _, 0, _, _, _, _, _, _, hf => by simp at hf
  | [], _, _, _, _, _ + 1, _, _, _, _, _, hb, _ => by simp at hb
  | v :: vs, first, nd, vd, cnt, fuel + 1, s, ⟨hne, next, hops, hy⟩, hag, hge, hnd, hb, hf => by
    by_cases hb0 : s.budget = 0
    · refine ⟨s, none, ?_, by omega, fun _ _ _ => rfl, (withNode_theNode hnd).symm, ?_, ?_⟩
      · unfold Create.loop
        rw [if_pos hne, bind_ok (hops s hag).1]
        apply bind_bad_alloc
        unfold newNode
        rw [if_pos hb0]
      · rw [hb0]
        rfl
      · rw [hb0]
        intro c hc
        cases hc
    · obtain ⟨b1, hb1⟩ : ∃ b1, s.budget = b1 + 1 := ⟨s.budget - 1, by omega⟩
      have hndlt := nodeAt_lt hnd
      have hndL : nd ≠ s.mem.length := Nat.ne_of_lt hndlt
      have h1 : nodeAt (s.alloc ⟨v, none⟩) nd = some ⟨vd, none⟩ := nodeAt_alloc_old _ hnd
      have hag2 : Agree s0 ((s.alloc ⟨v, none⟩).putNode nd ⟨vd, some s.mem.length⟩) := by
        intro b hb0
        rw [cellAt_putNode, if_neg (by omega), cellAt_alloc, if_neg (by omega)]
        exact hag b hb0
      have hL : nodeAt ((s.alloc ⟨v, none⟩).putNode nd ⟨vd, some s.mem.length⟩) s.mem.length
          = some ⟨v, none⟩ := by
        rw [nodeAt_putNode _ _ _ _ _ h1, if_neg hndL.symm, nodeAt_alloc, if_pos rfl]
      have h2 : nodeAt ((s.alloc ⟨v, none⟩).putNode nd ⟨vd, some s.mem.length⟩) nd
          = some ⟨vd, some s.mem.length⟩ := by
        rw [nodeAt_putNode _ _ _ _ _ h1, if_pos rfl]
      have hbud : ((s.alloc ⟨v, none⟩).putNode nd ⟨vd, some s.mem.length⟩).budget = b1 := by
        simp only [putNode_budget, alloc_budget]
        omega
      obtain ⟨s3, nx3, hloop, hlen3, hframe3, hcell3, hseg3, hheap3⟩ :=
        Create_loop_throws ops s0 last vs next s.mem.length v (cnt + 1) fuel
          ((s.alloc ⟨v, none⟩).putNode nd ⟨vd, some s.mem.length⟩) hy hag2 (by omega) hL
          (by rw [hbud]; simp only [List.length_cons] at hb; omega) (by simpa using hf)
      rw [hbud] at hlen3 hseg3 hheap3
      simp only [putNode_length, alloc_length] at hlen3 hframe3 hseg3 hheap3
      have hcL : cellAt s3 s.mem.length = some (.node ⟨v, nx3⟩) := by
        rw [hcell3, cellAt_putNode, if_neg hndL.symm, cellAt_alloc, if_pos rfl]
        rfl
      have hcells : freshCells s.mem.length ((v :: vs).take s.budget)
          = (s.mem.length, v) :: freshCells (s.mem.length + 1) (vs.take b1) := by
        rw [hb1]
        rfl
      refine ⟨s3, some s.mem.length, ?_, ?_, ?_, ?_, ?_, ?_⟩
      · unfold Create.loop
        rw [if_pos hne, bind_ok (hops s hag).1,
          bind_ok (newNode_ok v none (by omega)), bind_ok (setNext_ok _ h1),
          bind_ok (readNode_ok h2), bind_ok (hops _ hag2).2]
        exact hloop
      · rw [hlen3]
        omega
      · intro b hb2 hb3
        rw [hframe3 b (by omega) (by omega), cellAt_putNode, if_neg hb3, cellAt_alloc,
          if_neg (by omega)]
      · rw [hframe3 nd (by omega) hndL, cellAt_putNode, if_pos rfl, cellAt_alloc, if_neg hndL]
      · rw [hcells]
        exact ⟨rfl, nx3, nodeAt_of_cellAt hcL, hseg3⟩
      · rw [hcells]
        intro c hc
        rcases List.mem_cons.1 hc with h | h
        · rw [h]
          exact ⟨_, hcL⟩
        · exact hheap3 c h

end throwing

section throwing_constructors
variable {T It : Type}

/-- A call of `Create` in a memory with room for fewer nodes than values leaves
with `std::bad_alloc`; the temporary list and its nodes are destroyed and every
older object is as before. -/
theorem Create_throws [Indeterminate T] (ops : RangeOps T It) (s0 : Store T) (last : It)
    (vals : List T) (first : It) (fuel : Nat) (s : Store T) (this : Nat)
    (hy : Yields ops s0 last first vals) (hag : Agree s0 s)
    (hle : s0.mem.length ≤ s.mem.length)
    (hb : s.budget < vals.length) (hf : vals.length < fuel) :
    ∃ s7, Create this ops first last fuel s = .bad_alloc s7 ∧
      (∀ b, b < s.mem.length → cellAt s7 b = cellAt s b) ∧
      (∀ b, s.mem.length ≤ b → cellAt s7 b = none) := by
  have hagA : Agree s0 (s.push (.list ⟨Indeterminate.value s.mem.length, none⟩ 0)) := by
    intro b hb0
    rw [cellAt_push, if_neg (by omega)]
    exact hag b hb0
  have hcA : cellAt (s.push (.list ⟨(Indeterminate.value s.mem.length : T), none⟩ 0)) s.mem.length
      = some (.list ⟨Indeterminate.value s.mem.length, none⟩ 0) := by
    rw [cellAt_push, if_pos rfl]
  obtain ⟨s2, nx, hloop, hlen2, hframe2, hcell2, hseg2, hheap2⟩ :=
    Create_loop_throws ops s0 last vals first s.mem.length (Indeterminate.value s.mem.length) 0 fuel
      (s.push (.list ⟨Indeterminate.value s.mem.length, none⟩ 0)) hy hagA hle (nodeAt_of_cellAt hcA) hb hf
  simp only [push_length, push_budget] at hlen2 hframe2 hseg2 hheap2
  rw [hcA] at hcell2
  have hc2t : cellAt s2 s.mem.length = some (.list ⟨Indeterminate.value s.mem.length, nx⟩ 0) := hcell2
  have hsh : Shape s2 s.mem.length (freshCells (s.mem.length + 1) (vals.take s.budget)) :=
    Shape_of_cells hc2t hseg2 hheap2 (fun _ _ => rfl)
  obtain ⟨s3, d, hclear, hlen3, _, hca3, hgone3, hframe3⟩ := Clear_spec hsh
  have hdestroy : destroy s.mem.length s2 = .ok () (s3.setCell s.mem.length none) := by
    unfold destroy
    rw [bind_ok hclear]
    unfold releaseList
    simp only [hca3]
  have hbody : (do
      let r ← Create.loop ops last fuel first (some s.mem.length) 0
      setNext r.1 none
      writeSize s.mem.length r.2
      swap this s.mem.length : Exec T Unit) (s.push (.list ⟨Indeterminate.value s.mem.length, none⟩ 0))
      = .bad_alloc s2 := bind_bad_alloc hloop
  have htake : (vals.take s.budget).length = s.budget := by
    rw [List.length_take]
    omega
  refine ⟨s3.setCell s.mem.length none, ?_, ?_, ?_⟩
  · unfold Create
    have hdecl : (declareList : Exec T Nat) s
        = .ok s.mem.length (s.push (.list ⟨Indeterminate.value s.mem.length, none⟩ 0)) := rfl
    rw [bind_ok hdecl]
    exact scoped_bad_alloc hbody hdestroy
  · intro b hb0
    rw [cellAt_setCell, if_neg (fun h => by omega), hframe3 b (by omega)
      (fun c hc => by have := freshCells_ge _ _ c hc; omega),
      hframe2 b (by omega) (by omega), cellAt_push, if_neg (by omega)]
  · intro b hb0
    by_cases hbL : b = s.mem.length
    · rw [cellAt_setCell, if_pos ⟨hbL, by omega⟩]
    · rw [cellAt_setCell, if_neg (fun h => hbL h.1)]
      by_cases hlt : b < s.mem.length + 1 + s.budget
      · obtain ⟨c, hc, hcb⟩ := freshCells_cover (vals.take s.budget) (s.mem.length + 1) b
          (by omega) (by rw [htake]; exact hlt)
        rw [← hcb]
        exact hgone3 c hc
      · exact cellAt_beyond (by omega)

/-- The constructor from a sequence in a memory with room for fewer nodes than
values leaves with `std::bad_alloc`, and every older object is as before. -/
theorem ofInitializerList_throws [Indeterminate T] (s : Store T) (S : List T)
    (hb : s.budget < S.length) :
    ∃ s8, SingleLinkedList.ofInitializerList S s = .bad_alloc s8 ∧
      ∀ c, cellAt s8 c = cellAt s c := by
  have hcA : cellAt (s.push (.list ⟨(Indeterminate.value s.mem.length : T), none⟩ 0)) s.mem.length
      = some (.list ⟨Indeterminate.value s.mem.length, none⟩ 0) := by
    rw [cellAt_push, if_pos rfl]
  have hagA : Agree s (s.push (.list ⟨Indeterminate.value s.mem.length, none⟩ 0)) := by
    intro b hb0
    rw [cellAt_push, if_neg (by omega)]
  obtain ⟨s7, hcreate, hframe, hdead⟩ :=
    Create_throws (initializerListOps S) s S.length S 0 (S.length + 1)
      (s.push (.list ⟨Indeterminate.value s.mem.length, none⟩ 0)) s.mem.length
      (Yields_initializerList S s S 0 rfl (Nat.zero_le _)) hagA (by simp) hb
      (Nat.lt_succ_self _)
  simp only [push_length] at hframe hdead
  have hc7 : cellAt s7 s.mem.length = some (.list ⟨Indeterminate.value s.mem.length, none⟩ 0) := by
    rw [hframe _ (by omega), hcA]
  have hrel : releaseList s.mem.length s7 = .ok () (s7.setCell s.mem.length none) := by
    unfold releaseList
    simp only [hc7]
  refine ⟨s7.setCell s.mem.length none, ?_, ?_⟩
  · unfold SingleLinkedList.ofInitializerList
    have hdecl : (declareList : Exec T Nat) s
        = .ok s.mem.length (s.push (.list ⟨Indeterminate.value s.mem.length, none⟩ 0)) := rfl
    rw [bind_ok hdecl]
    exact bind_bad_alloc (unwind_bad_alloc hcreate hrel)
  · intro c
    by_cases hc : c < s.mem.length
    · rw [cellAt_setCell, if_neg (fun h => by omega), hframe c (by omega), cellAt_push,
        if_neg (by omega)]
    · rw [cellAt_beyond (s := s) (by omega)]
      by_cases hcL : c = s.mem.length
      · rw [cellAt_setCell, if_pos ⟨hcL, cellAt_lt hc7⟩]
      · rw [cellAt_setCell, if_neg (fun h => hcL h.1)]
        exact hdead c (by omega)

/-- The copy constructor in a memory with room for fewer nodes than the source
has elements leaves with `std::bad_alloc`, and every older object is as
before. -/
theorem copy_throws [Indeterminate T] (s : Store T) (other : Nat) (cells : List (Nat × T))
    (hsh : Shape s other cells) (hb : s.budget < cells.length) :
    ∃ s8, SingleLinkedList.copy other s = .bad_alloc s8 ∧ ∀ c, cellAt s8 c = cellAt s c := by
  obtain ⟨hd, k, hco, hsegO, hheapO⟩ := Shape_cell hsh
  have holt := cellAt_lt hco
  have hcA : cellAt (s.push (.list ⟨(Indeterminate.value s.mem.length : T), none⟩ 0)) s.mem.length
      = some (.list ⟨Indeterminate.value s.mem.length, none⟩ 0) := by
    rw [cellAt_push, if_pos rfl]
  have hagA : Agree s (s.push (.list ⟨Indeterminate.value s.mem.length, none⟩ 0)) := by
    intro b hb0
    rw [cellAt_push, if_neg (by omega)]
  have hclen := Seg_length_le cells _ hsegO
  obtain ⟨s7, hcreate, hframe, hdead⟩ :=
    Create_throws iteratorOps s end_ (cells.map Prod.snd) ⟨hd.next_node⟩ (s.mem.length + 1 + 1)
      (s.push (.list ⟨Indeterminate.value s.mem.length, none⟩ 0)) s.mem.length
      (Yields_of_Seg cells hd.next_node hsegO) hagA (by simp) (by simpa using hb)
      (by simp; omega)
  simp only [push_length] at hframe hdead
  have hc7 : cellAt s7 s.mem.length = some (.list ⟨Indeterminate.value s.mem.length, none⟩ 0) := by
    rw [hframe _ (by omega), hcA]
  have hrel : releaseList s.mem.length s7 = .ok () (s7.setCell s.mem.length none) := by
    unfold releaseList
    simp only [hc7]
  refine ⟨s7.setCell s.mem.length none, ?_, ?_⟩
  · unfold SingleLinkedList.copy
    have hdecl : (declareList : Exec T Nat) s
        = .ok s.mem.length (s.push (.list ⟨Indeterminate.value s.mem.length, none⟩ 0)) := rfl
    have hbegin : begin_ other (s.push (.list ⟨(Indeterminate.value s.mem.length : T), none⟩ 0))
        = .ok ⟨hd.next_node⟩ (s.push (.list ⟨Indeterminate.value s.mem.length, none⟩ 0)) := by
      apply begin_ok (n := hd)
      unfold nodeAt
      rw [hagA other holt, hco]
      rfl
    have hbody : (do
        let first ← begin_ other
        (fun s1 => Create s.mem.length iteratorOps first end_ (s1.mem.length + 1) s1) :
          Exec T Unit) (s.push (.list ⟨Indeterminate.value s.mem.length, none⟩ 0)) = .bad_alloc s7 := by
      rw [bind_ok hbegin]
      simpa using hcreate
    rw [bind_ok hdecl]
    exact bind_bad_alloc (unwind_bad_alloc hbody hrel)
  · intro c
    by_cases hc : c < s.mem.length
    · rw [cellAt_setCell, if_neg (fun h => by omega), hframe c (by omega), cellAt_push,
        if_neg (by omega)]
    · rw [cellAt_beyond (s := s) (by omega)]
      by_cases hcL : c = s.mem.length
      · rw [cellAt_setCell, if_pos ⟨hcL, cellAt_lt hc7⟩]
      · rw [cellAt_setCell, if_neg (fun h => hcL h.1)]
        exact hdead c (by omega)

end throwing_constructors

section invariant_reachable
variable {T : Type}

/-- Every memory that a program can reach is well formed. -/
theorem Reachable_wellFormed [Indeterminate T] {s : Store T} (h : Reachable s) : WellFormed s := by
  induction h with
  | start budget =>
    constructor
    · intro a ha
      have := sizeAt_lt ha
      simp at this
    · intro a b ca cb _ hsa
      have := sizeAt_lt (Shape_isList hsa)
      simp at this
  | @available s budget _ ih => exact WellFormed_congr (fun c => cellAt_budget s budget c) ih
  | default_constructor _ hop ih => exact WellFormed_declareList ih hop
  | @from_sequence s s2 a S _ hop ih =>
    have hb := ofInitializerList_returns hop
    obtain ⟨s3, hexec, hsh, hsz, hframe, hlen, _, htemp⟩ := ofInitializerList_spec s S hb
    rw [hexec] at hop
    obtain ⟨_, rfl⟩ := ok_inj hop
    exact WellFormed_constructed ih hsh hsz rfl hframe hlen htemp
  | @copy_constructor s s2 a other _ hl hop ih =>
    obtain ⟨cells, hsho, hszo⟩ := ih.1 other hl
    have hb := copy_returns hsho hop
    obtain ⟨s3, hexec, hsh, hsz, hframe, hlen, _, htemp⟩ := copy_spec s other cells hsho hb
    rw [hexec] at hop
    obtain ⟨_, rfl⟩ := ok_inj hop
    exact WellFormed_constructed ih hsh hsz (by simp) hframe (by simpa using hlen) htemp
  | @push_front s s2 a v _ hl hop ih =>
    obtain ⟨cells, hsh, hsz⟩ := ih.1 a hl
    obtain ⟨hd, k, hca, _, _⟩ := Shape_cell hsh
    have hn := nodeAt_of_cellAt hca
    have hb : 0 < s.budget := by
      by_contra h0
      rw [PushFront_bad_alloc v hn (by omega)] at hop
      cases hop
    have hpos : advance 0 (before_begin a) s = .ok (before_begin a) s := rfl
    obtain ⟨a2, n, _, hn2, ha0, _, hwf⟩ :=
      WellFormed_insert v ih hsh hsz (Nat.zero_le _) hpos hb
    have haa := ha0 rfl
    subst haa
    rw [PushFront_exec v hn2 hsz hb] at hop
    obtain ⟨_, rfl⟩ := ok_inj hop
    exact hwf
  | @pop_front s s2 a _ hl hop ih =>
    obtain ⟨cells, hsh, hsz⟩ := ih.1 a hl
    have hlen : 0 < cells.length := by
      by_contra h0
      have h1 : cells.length = 0 := by omega
      rw [h1] at hsz
      rw [PopFront_empty hsz] at hop
      cases hop
    have hpos : advance 0 (before_begin a) s = .ok (before_begin a) s := rfl
    obtain ⟨a2, n, b, nb, _, hn, hnx, hnb, hab, hheap, ha0, _, hwf⟩ :=
      WellFormed_erase ih hsh hsz hlen hpos
    have haa := ha0 rfl
    subst haa
    rw [PopFront_exec hn hnx hnb hheap hab hsz hlen] at hop
    obtain ⟨_, rfl⟩ := ok_inj hop
    exact hwf
  | @insert_after s s2 a k pos it v _ hl hpos hne hop ih =>
    obtain ⟨cells, hsh, hsz⟩ := ih.1 a hl
    have hk := advance_bound hsh hpos hne
    obtain ⟨a1, n1, hp1, hn1, _⟩ := position_node hsh hk hpos
    have hb : 0 < s.budget := by
      by_contra h0
      rw [hp1, InsertAfter_bad_alloc a v hn1 (by omega)] at hop
      cases hop
    obtain ⟨a2, n, _, _, _, hexec, hwf⟩ := WellFormed_insert v ih hsh hsz hk hpos hb
    rw [hexec] at hop
    obtain ⟨_, rfl⟩ := ok_inj hop
    exact hwf
  | @erase_after s s2 a k pos it _ hl hpos hop ih =>
    obtain ⟨cells, hsh, hsz⟩ := ih.1 a hl
    have hk : k < cells.length := by
      by_contra hge
      by_cases hpe : pos = end_
      · rw [hpe, EraseAfter_end] at hop
        cases hop
      · have hle := advance_bound hsh hpos hpe
        obtain ⟨a1, n1, hp1, hn1, hlast⟩ := position_node hsh hle hpos
        rw [hp1, EraseAfter_last a hn1 (hlast.2 (by omega))] at hop
        cases hop
    obtain ⟨a2, n, b, nb, _, _, _, _, _, _, _, hexec, hwf⟩ :=
      WellFormed_erase ih hsh hsz hk hpos
    rw [hexec] at hop
    obtain ⟨_, rfl⟩ := ok_inj hop
    exact hwf
  | @clear s s2 a _ hl hop ih =>
    obtain ⟨cells, hsh, _⟩ := ih.1 a hl
    obtain ⟨s3, hexec, hwf⟩ := WellFormed_clear ih hsh
    rw [hexec] at hop
    obtain ⟨_, rfl⟩ := ok_inj hop
    exact hwf
  | @swap_lists s s2 a b _ hla hlb hop ih =>
    obtain ⟨s3, hexec, hcells⟩ := swap_exchange hla hlb
    have hop2 : swap a b s = .ok () s2 := hop
    rw [hexec] at hop2
    obtain ⟨_, rfl⟩ := ok_inj hop2
    exact WellFormed_exchange ih hla hlb hcells
  | @from_sequence_throws s s2 S _ hop ih =>
    by_cases hb : S.length ≤ s.budget
    · obtain ⟨s3, hexec, _⟩ := ofInitializerList_spec s S hb
      rw [hexec] at hop
      cases hop
    · obtain ⟨s8, hexec, hcells⟩ := ofInitializerList_throws s S (by omega)
      rw [hexec] at hop
      cases hop
      exact WellFormed_congr hcells ih
  | @copy_constructor_throws s s2 other _ hl hop ih =>
    obtain ⟨cells, hsho, _⟩ := ih.1 other hl
    by_cases hb : cells.length ≤ s.budget
    · obtain ⟨s3, hexec, _⟩ := copy_spec s other cells hsho hb
      rw [hexec] at hop
      cases hop
    · obtain ⟨s8, hexec, hcells⟩ := copy_throws s other cells hsho (by omega)
      rw [hexec] at hop
      cases hop
      exact WellFormed_congr hcells ih
  | @push_front_throws s s2 a v _ hl hop ih =>
    obtain ⟨cells, hsh, hsz⟩ := ih.1 a hl
    obtain ⟨hd, k, hca, _, _⟩ := Shape_cell hsh
    have hn := nodeAt_of_cellAt hca
    by_cases hb : 0 < s.budget
    · rw [PushFront_exec v hn hsz hb] at hop
      cases hop
    · rw [PushFront_bad_alloc v hn (by omega)] at hop
      cases hop
      exact ih
  | @insert_after_throws s s2 a k pos v _ hl hpos hne hop ih =>
    obtain ⟨cells, hsh, hsz⟩ := ih.1 a hl
    have hk := advance_bound hsh hpos hne
    obtain ⟨a1, n1, hp1, hn1, _⟩ := position_node hsh hk hpos
    by_cases hb : 0 < s.budget
    · rw [hp1, InsertAfter_exec v hn1 hsz hb] at hop
      cases hop
    · rw [hp1, InsertAfter_bad_alloc a v hn1 (by omega)] at hop
      cases hop
      exact ih

end invariant_reachable

section reached
variable {T : Type}

/-- The memory `store23` is reached by the default constructor, `PushFront(3)`
and `PushFront(2)`. -/
theorem store23_reachable : Reachable store23 := by
  have h0 : Reachable (⟨[], 7⟩ : Store Nat) := Reachable.start 7
  have h1 : Reachable (⟨[some (.list ⟨62912, none⟩ 0)], 7⟩ : Store Nat) :=
    @Reachable.default_constructor Nat _ ⟨[], 7⟩ _ 0 h0 rfl
  have h2 : Reachable
      (⟨[some (.list ⟨62912, some 1⟩ 1), some (.node ⟨3, none⟩)], 6⟩ : Store Nat) :=
    @Reachable.push_front Nat _ ⟨[some (.list ⟨62912, none⟩ 0)], 7⟩ _ 0 3 h1 rfl rfl
  exact @Reachable.push_front Nat _
    ⟨[some (.list ⟨62912, some 1⟩ 1), some (.node ⟨3, none⟩)], 6⟩ store23 0 2 h2 rfl rfl

/-- The memory `store123` is reached from `store23` by `PushFront(1)`. -/
theorem store123_reachable : Reachable store123 :=
  @Reachable.push_front Nat _ store23 store123 0 1 store23_reachable rfl rfl

end reached

/-! ## The claims -/

/-- C1: for every sequence `S`, the constructor from an initializer list returns
normally when `|S|` allocations succeed; the new list is well formed, its
traversal from `begin()` to `end()` yields exactly `S`, `GetSize()` is `|S|`,
and every object that existed before is unchanged. -/
theorem ofInitializerList_yields_sequence {T : Type} [Indeterminate T] (s : Store T)
    (S : List T) (hb : S.length ≤ s.budget) :
    ∃ s2, SingleLinkedList.ofInitializerList S s = .ok s.mem.length s2 ∧
      Valid s2 s.mem.length ∧ elements s2 s.mem.length = some S ∧
      GetSize s.mem.length s2 = .ok S.length s2 ∧
      ∀ b, b < s.mem.length → cellAt s2 b = cellAt s b := by
  have hcA : cellAt (s.push (.list ⟨(Indeterminate.value s.mem.length : T), none⟩ 0)) s.mem.length
      = some (.list ⟨Indeterminate.value s.mem.length, none⟩ 0) := by
    rw [cellAt_push, if_pos rfl]
  have hagA : Agree s (s.push (.list ⟨Indeterminate.value s.mem.length, none⟩ 0)) := by
    intro b hb0
    rw [cellAt_push, if_neg (by omega)]
  obtain ⟨s7, nx, hcreate, _, _, hthis, hseg, hheap, hframe, _⟩ :=
    Create_spec (initializerListOps S) s S.length S 0 (S.length + 1)
      (s.push (.list ⟨Indeterminate.value s.mem.length, none⟩ 0)) s.mem.length (Indeterminate.value s.mem.length) 0
      (Yields_initializerList S s S 0 rfl (Nat.zero_le _)) hagA (by simp) hcA hb
      (Nat.lt_succ_self _)
  have hsh : Shape s7 s.mem.length (freshCells (s.mem.length + 1 + 1) S) :=
    Shape_of_cells hthis (by simpa using hseg) (by simpa using hheap) (fun _ _ => rfl)
  refine ⟨s7, ?_, ⟨_, hsh⟩, ?_, GetSize_ok (sizeAt_of_cellAt hthis), ?_⟩
  · unfold SingleLinkedList.ofInitializerList
    have hdecl : (declareList : Exec T Nat) s
        = .ok s.mem.length (s.push (.list ⟨Indeterminate.value s.mem.length, none⟩ 0)) := rfl
    rw [bind_ok hdecl, bind_ok (unwind_ok hcreate)]
    rfl
  · rw [elements_of_Shape hsh, freshCells_values]
  · intro b hb0
    rw [hframe b (by simp; omega) (by omega), cellAt_push, if_neg (by omega)]

/-- The instance of C1 for `{1, 2, 3}` in an empty memory. -/
theorem ofInitializerList_yields_sequence_witness :
    [1, 2, 3].length ≤ (⟨[], 3⟩ : Store Nat).budget ∧
    ∃ s2, SingleLinkedList.ofInitializerList [1, 2, 3] (⟨[], 3⟩ : Store Nat) = .ok 0 s2 ∧
      Valid s2 0 ∧ elements s2 0 = some [1, 2, 3] ∧ GetSize 0 s2 = .ok 3 s2 ∧
      ∀ b, b < 0 → cellAt s2 b = cellAt (⟨[], 3⟩ : Store Nat) b :=
  ⟨by decide, ofInitializerList_yields_sequence (⟨[], 3⟩ : Store Nat) [1, 2, 3] (by decide)⟩

/-- C2: on a well-formed list with element sequence `S` and size `n`,
`PushFront(v)` returns normally when the allocation succeeds and leaves the
element sequence `v` followed by `S` and the size `n + 1`. -/
theorem PushFront_prepends {T : Type} (s : Store T) (this : Nat) (S : List T) (n : Nat)
    (v : T) (hvalid : Valid s this) (hS : elements s this = some S)
    (hn : GetSize this s = .ok n s) (hb : 0 < s.budget) :
    ∃ s2, PushFront this v s = .ok () s2 ∧ Valid s2 this ∧
      elements s2 this = some (v :: S) ∧ GetSize this s2 = .ok (n + 1) s2 := by
  obtain ⟨cells, hsh⟩ := hvalid
  have hS2 := Shape_elements hsh hS
  have hsz := sizeAt_of_GetSize hn
  obtain ⟨a, nd, hp, hnd, _, hsh2, hsz2, _, _, _⟩ :=
    @InsertAfter_at T s this n 0 cells (before_begin this) v hsh hsz (Nat.zero_le _) rfl hb
  have ha : this = a := Option.some.inj (congrArg BasicIterator.node_ hp)
  subst ha
  refine ⟨_, PushFront_exec v hnd hsz hb, ⟨_, hsh2⟩, ?_, GetSize_ok hsz2⟩
  rw [elements_of_Shape hsh2, ← hS2]
  simp

/-- The scenario of C2: starting empty, `PushFront(3)`, `PushFront(2)`,
`PushFront(1)` gives `[1, 2, 3]` with size 3; the last step is an instance of
the theorem. -/
theorem PushFront_prepends_witness :
    Valid store23 0 ∧ elements store23 0 = some [2, 3] ∧ 0 < store23.budget ∧
    (∃ s2, PushFront 0 1 store23 = .ok () s2 ∧ Valid s2 0 ∧
      elements s2 0 = some [1, 2, 3] ∧ GetSize 0 s2 = .ok 3 s2) ∧
    ((do
        let l ← declareList
        PushFront l 3
        PushFront l 2
        PushFront l 1
        let xs ← toList l
        let k ← GetSize l
        pure (xs, k) : Exec Nat (List Nat × Nat)) ⟨[], 3⟩).result = some ([1, 2, 3], 3) :=
  ⟨⟨[(2, 2), (1, 3)], Shape_of_shapeCheck (by decide)⟩, by decide, by decide,
    PushFront_prepends store23 0 [2, 3] 2 1
      ⟨[(2, 2), (1, 3)], Shape_of_shapeCheck (by decide)⟩ (by decide) (by decide) (by decide),
    by decide⟩

/-- C3: on a well-formed list with element sequence `S` and size `n`,
`InsertAfter(pos, v)` at any position other than `end()` (the position `k`
increments behind `before_begin()`, `k ≤ |S|`: `before_begin()` itself for
`k = 0`, the element of index `k - 1` otherwise) returns normally when the
allocation succeeds, leaves the element sequence `S` with `v` inserted behind
its first `k` elements, raises `GetSize()` by one, and returns an iterator that
dereferences to `v` and equals the successor of `pos`. -/
theorem InsertAfter_inserts_after_pos {T : Type} (s : Store T) (this : Nat) (S : List T)
    (n k : Nat) (pos : BasicIterator) (v : T)
    (hvalid : Valid s this) (hS : elements s this = some S)
    (hn : GetSize this s = .ok n s) (hk : k ≤ S.length)
    (hpos : advance k (before_begin this) s = .ok pos s) (hb : 0 < s.budget) :
    ∃ it s2, InsertAfter this pos v s = .ok it s2 ∧ Valid s2 this ∧
      elements s2 this = some (S.take k ++ v :: S.drop k) ∧
      GetSize this s2 = .ok (n + 1) s2 ∧
      it.deref s2 = .ok v s2 ∧ pos.incr s2 = .ok it s2 := by
  obtain ⟨cells, hsh⟩ := hvalid
  have hS2 := Shape_elements hsh hS
  have hsz := sizeAt_of_GetSize hn
  have hk2 : k ≤ cells.length := by
    rw [← hS2] at hk
    simpa using hk
  obtain ⟨a, nd, hp, _, hexec, hsh2, hsz2, hA, hL, _⟩ := InsertAfter_at v hsh hsz hk2 hpos hb
  refine ⟨_, _, hexec, ⟨_, hsh2⟩, ?_, GetSize_ok hsz2, deref_ok hL, ?_⟩
  · rw [elements_of_Shape hsh2, ← hS2]
    simp [List.map_take, List.map_drop]
  · rw [hp]
    exact incr_ok hA

/-- The scenario of C3: on `[2, 3]`, `InsertAfter(before_begin(), 9)` gives
`[9, 2, 3]` with size 3. -/
theorem InsertAfter_inserts_after_pos_witness :
    Valid store23 0 ∧ elements store23 0 = some [2, 3] ∧
    advance 0 (before_begin 0) store23 = .ok (before_begin 0) store23 ∧
    ∃ it s2, InsertAfter 0 (before_begin 0) 9 store23 = .ok it s2 ∧ Valid s2 0 ∧
      elements s2 0 = some [9, 2, 3] ∧ GetSize 0 s2 = .ok 3 s2 ∧
      it.deref s2 = .ok 9 s2 ∧ (before_begin 0).incr s2 = .ok it s2 :=
  ⟨⟨[(2, 2), (1, 3)], Shape_of_shapeCheck (by decide)⟩, by decide, by decide,
    InsertAfter_inserts_after_pos store23 0 [2, 3] 2 0 (before_begin 0) 9
      ⟨[(2, 2), (1, 3)], Shape_of_shapeCheck (by decide)⟩ (by decide) (by decide)
      (by decide) (by decide) (by decide)⟩

/-- C4: on a well-formed list with element sequence `S` whose count equals
`|S|`, `EraseAfter(pos)` at a position that has a successor (the position `k`
increments behind `before_begin()`, `k < |S|`) returns normally, removes
exactly the element of index `k`, lowers `GetSize()` by one, and returns the
iterator that is now the successor of `pos`; that iterator is `end()` exactly
when the removed element was the last one. -/
theorem EraseAfter_removes_successor {T : Type} (s : Store T) (this : Nat) (S : List T)
    (k : Nat) (pos : BasicIterator)
    (hvalid : Valid s this) (hS : elements s this = some S)
    (hn : GetSize this s = .ok S.length s) (hk : k < S.length)
    (hpos : advance k (before_begin this) s = .ok pos s) :
    ∃ it s2, EraseAfter this pos s = .ok it s2 ∧ Valid s2 this ∧
      elements s2 this = some (S.take k ++ S.drop (k + 1)) ∧
      GetSize this s2 = .ok (S.length - 1) s2 ∧
      pos.incr s2 = .ok it s2 ∧ (it = end_ ↔ k + 1 = S.length) := by
  obtain ⟨cells, hsh⟩ := hvalid
  have hS2 := Shape_elements hsh hS
  have hsz := sizeAt_of_GetSize hn
  have hlen : cells.length = S.length := by
    rw [← hS2]
    simp
  obtain ⟨a, nd, b, nb, hp, _, _, _, _, _, hlast, hexec, hsh2, hsz2, hA⟩ :=
    EraseAfter_at hsh hsz (by omega) (by omega) hpos
  refine ⟨_, _, hexec, ⟨_, hsh2⟩, ?_, GetSize_ok hsz2, ?_, ?_⟩
  · rw [elements_of_Shape hsh2, ← hS2]
    simp [List.map_take, List.map_drop]
  · rw [hp]
    have h := incr_ok hA
    exact h
  · rw [← hlen, ← hlast]
    unfold end_
    constructor
    · intro h
      exact congrArg BasicIterator.node_ h
    · intro h
      rw [h]

/-- The scenario of C4: on `[1, 2, 3]`, `EraseAfter(before_begin())` gives
`[2, 3]` with size 2, and the returned iterator is not `end()`. -/
theorem EraseAfter_removes_successor_witness :
    Valid store123 0 ∧ elements store123 0 = some [1, 2, 3] ∧
    GetSize 0 store123 = .ok 3 store123 ∧
    ∃ it s2, EraseAfter 0 (before_begin 0) store123 = .ok it s2 ∧ Valid s2 0 ∧
      elements s2 0 = some [2, 3] ∧ GetSize 0 s2 = .ok 2 s2 ∧
      (before_begin 0).incr s2 = .ok it s2 ∧ (it = end_ ↔ 0 + 1 = 3) :=
  ⟨⟨[(3, 1), (2, 2), (1, 3)], Shape_of_shapeCheck (by decide)⟩, by decide, by decide,
    EraseAfter_removes_successor store123 0 [1, 2, 3] 0 (before_begin 0)
      ⟨[(3, 1), (2, 2), (1, 3)], Shape_of_shapeCheck (by decide)⟩ (by decide) (by decide)
      (by decide) (by decide)⟩

/-- C5: on a well-formed list with element sequence `S` and size `n`,
`PushFront(v)` followed by `PopFront()` returns normally (when the allocation
succeeds) and leaves the element sequence `S` and the size `n`; every object
of the memory is as it was before the two calls. -/
theorem PushFront_then_PopFront {T : Type} (s : Store T) (this : Nat) (S : List T) (n : Nat)
    (v : T) (hvalid : Valid s this) (hS : elements s this = some S)
    (hn : GetSize this s = .ok n s) (hb : 0 < s.budget) :
    ∃ s1 s2, PushFront this v s = .ok () s1 ∧ PopFront this s1 = .ok () s2 ∧
      Valid s2 this ∧ elements s2 this = some S ∧ GetSize this s2 = .ok n s2 ∧
      ∀ b, cellAt s2 b = cellAt s b := by
  obtain ⟨cells, hsh⟩ := hvalid
  have hS2 := Shape_elements hsh hS
  have hsz := sizeAt_of_GetSize hn
  obtain ⟨a, nd, hp, hnd, _, _, hsz2, hA, hL, _⟩ :=
    @InsertAfter_at T s this n 0 cells (before_begin this) v hsh hsz (Nat.zero_le _) rfl hb
  have ha : this = a := Option.some.inj (congrArg BasicIterator.node_ hp)
  subst ha
  have hcells := erase_insert_cells v hnd hsz
  have hsh3 := Shape_congr hcells hsh
  have hpop := PopFront_exec hA rfl hL
    ((isHeapNode_insertStore s this this n nd v s.mem.length).2 (Or.inl rfl))
    (Nat.ne_of_lt (nodeAt_lt hnd)) hsz2 (Nat.succ_pos n)
  refine ⟨_, _, PushFront_exec v hnd hsz hb, hpop, ⟨_, hsh3⟩, ?_, ?_, hcells⟩
  · rw [elements_of_Shape hsh3, hS2]
  · apply GetSize_ok
    unfold sizeAt
    rw [hcells]
    exact hsz

/-- An instance of C5: `PushFront(7)` and `PopFront()` on `[2, 3]`. -/
theorem PushFront_then_PopFront_witness :
    Valid store23 0 ∧ elements store23 0 = some [2, 3] ∧ 0 < store23.budget ∧
    ∃ s1 s2, PushFront 0 7 store23 = .ok () s1 ∧ PopFront 0 s1 = .ok () s2 ∧
      Valid s2 0 ∧ elements s2 0 = some [2, 3] ∧ GetSize 0 s2 = .ok 2 s2 ∧
      ∀ b, cellAt s2 b = cellAt store23 b :=
  ⟨⟨[(2, 2), (1, 3)], Shape_of_shapeCheck (by decide)⟩, by decide, by decide,
    PushFront_then_PopFront store23 0 [2, 3] 2 7
      ⟨[(2, 2), (1, 3)], Shape_of_shapeCheck (by decide)⟩ (by decide) (by decide)
      (by decide)⟩

/-- C6: on a well-formed list with element sequence `S` and size `n`,
`InsertAfter(pos, v)` followed by `EraseAfter(pos)`, at any position other than
`end()` (`k` increments behind `before_begin()`, `k ≤ |S|`), returns normally
(when the allocation succeeds) and leaves the element sequence `S` and the
size `n`; every object of the memory is as it was, and the iterator that
`EraseAfter` returns is the successor that `pos` had before the two calls,
which is `end()` exactly when `pos` was the last position. -/
theorem InsertAfter_then_EraseAfter {T : Type} (s : Store T) (this : Nat) (S : List T)
    (n k : Nat) (pos : BasicIterator) (v : T)
    (hvalid : Valid s this) (hS : elements s this = some S)
    (hn : GetSize this s = .ok n s) (hk : k ≤ S.length)
    (hpos : advance k (before_begin this) s = .ok pos s) (hb : 0 < s.budget) :
    ∃ it1 s1 it2 s2, InsertAfter this pos v s = .ok it1 s1 ∧
      EraseAfter this pos s1 = .ok it2 s2 ∧
      Valid s2 this ∧ elements s2 this = some S ∧ GetSize this s2 = .ok n s2 ∧
      (∀ b, cellAt s2 b = cellAt s b) ∧
      pos.incr s = .ok it2 s ∧ (it2 = end_ ↔ k = S.length) := by
  obtain ⟨cells, hsh⟩ := hvalid
  have hS2 := Shape_elements hsh hS
  have hsz := sizeAt_of_GetSize hn
  have hlen : cells.length = S.length := by
    rw [← hS2]
    simp
  obtain ⟨a, nd, hp, hnd, hexec, _, hsz2, hA, hL, hrest⟩ :=
    InsertAfter_at v hsh hsz (by omega) hpos hb
  have hcells := erase_insert_cells v hnd hsz
  have hsh3 := Shape_congr hcells hsh
  have herase := EraseAfter_exec hA rfl hL
    ((isHeapNode_insertStore s this a n nd v s.mem.length).2 (Or.inl rfl))
    (Nat.ne_of_lt (nodeAt_lt hnd)) hsz2 (Nat.succ_pos n)
  rw [← hp] at herase
  refine ⟨_, _, _, _, hexec, herase, ⟨_, hsh3⟩, ?_, ?_, hcells, ?_, ?_⟩
  · rw [elements_of_Shape hsh3, hS2]
  · apply GetSize_ok
    unfold sizeAt
    rw [hcells]
    exact hsz
  · rw [hp]
    have h := incr_ok hnd
    exact h
  · have h1 := Seg_none_iff hrest
    have h2 : cells.drop k = [] ↔ k = S.length := by
      rw [List.drop_eq_nil_iff]
      omega
    rw [← h2, ← h1]
    unfold end_
    constructor
    · intro h
      exact congrArg BasicIterator.node_ h
    · intro h
      show BasicIterator.mk nd.next_node = ⟨none⟩
      rw [h]

/-- An instance of C6 at the last element of `[2, 3]` (the node at address 1):
the iterator that `EraseAfter` returns is `end()`. -/
theorem InsertAfter_then_EraseAfter_witness :
    Valid store23 0 ∧ elements store23 0 = some [2, 3] ∧
    advance 2 (before_begin 0) store23 = .ok ⟨some 1⟩ store23 ∧
    ∃ it1 s1 it2 s2, InsertAfter 0 ⟨some 1⟩ 9 store23 = .ok it1 s1 ∧
      EraseAfter 0 ⟨some 1⟩ s1 = .ok it2 s2 ∧
      Valid s2 0 ∧ elements s2 0 = some [2, 3] ∧ GetSize 0 s2 = .ok 2 s2 ∧
      (∀ b, cellAt s2 b = cellAt store23 b) ∧
      BasicIterator.incr ⟨some 1⟩ store23 = .ok it2 store23 ∧ (it2 = end_ ↔ 2 = 2) :=
  ⟨⟨[(2, 2), (1, 3)], Shape_of_shapeCheck (by decide)⟩, by decide, by decide,
    InsertAfter_then_EraseAfter store23 0 [2, 3] 2 2 ⟨some 1⟩ 9
      ⟨[(2, 2), (1, 3)], Shape_of_shapeCheck (by decide)⟩ (by decide) (by decide)
      (by decide) (by decide) (by decide)⟩

/-- C7 (amended): for every well-formed list `L` with element sequence `S` and
count `|S|`, whatever the element `==` is, the copy constructor returns normally
when `|S|` allocations succeed; the copy `C` is well formed with the same
element sequence and the same `GetSize()`, and `L` and every other object that
existed before are unchanged.  The comparison `C == L` returns, and it is true
exactly when `x == x` holds for every element `x` of `L`: it holds for
self-equal elements and is false as soon as one element is not equal to
itself. -/
theorem copy_equals_original {T : Type} [Indeterminate T] [BEq T] (s : Store T) (other : Nat)
    (S : List T) (hvalid : Valid s other) (hS : elements s other = some S)
    (hn : GetSize other s = .ok S.length s) (hb : S.length ≤ s.budget) :
    ∃ s2, SingleLinkedList.copy other s = .ok s.mem.length s2 ∧
      Valid s2 s.mem.length ∧ elements s2 s.mem.length = some S ∧
      GetSize s.mem.length s2 = .ok S.length s2 ∧
      (∀ b, b < s.mem.length → cellAt s2 b = cellAt s b) ∧
      Valid s2 other ∧ elements s2 other = some S ∧ GetSize other s2 = .ok S.length s2 ∧
      ∃ r, operator_eq s.mem.length other s2 = .ok r s2 ∧
        (r = true ↔ ∀ x ∈ S, (x == x) = true) := by
  obtain ⟨cells, hsh⟩ := hvalid
  have hS2 := Shape_elements hsh hS
  obtain ⟨hd, k, hco, hsegO, hheapO⟩ := Shape_cell hsh
  have hk : k = S.length := by
    have := sizeAt_of_GetSize hn
    rw [sizeAt_of_cellAt hco] at this
    exact Option.some.inj this
  subst hk
  have holt := cellAt_lt hco
  have hcA : cellAt (s.push (.list ⟨(Indeterminate.value s.mem.length : T), none⟩ 0)) s.mem.length
      = some (.list ⟨Indeterminate.value s.mem.length, none⟩ 0) := by
    rw [cellAt_push, if_pos rfl]
  have hagA : Agree s (s.push (.list ⟨Indeterminate.value s.mem.length, none⟩ 0)) := by
    intro b hb0
    rw [cellAt_push, if_neg (by omega)]
  have hlenc : cells.length = S.length := by
    rw [← hS2]
    simp
  have hclen := Seg_length_le cells _ hsegO
  obtain ⟨s7, nx, hcreate, _, _, hthis, hseg, hheap, hframe, _⟩ :=
    Create_spec iteratorOps s end_ S ⟨hd.next_node⟩ (s.mem.length + 1 + 1)
      (s.push (.list ⟨Indeterminate.value s.mem.length, none⟩ 0)) s.mem.length (Indeterminate.value s.mem.length) 0
      (by rw [← hS2]; exact Yields_of_Seg cells hd.next_node hsegO) hagA (by simp) hcA hb
      (by omega)
  have hold : ∀ b, b < s.mem.length → cellAt s7 b = cellAt s b := by
    intro b hb0
    rw [hframe b (by simp; omega) (by omega), cellAt_push, if_neg (by omega)]
  have hsh : Shape s7 s.mem.length (freshCells (s.mem.length + 1 + 1) S) :=
    Shape_of_cells hthis (by simpa using hseg) (by simpa using hheap) (fun _ _ => rfl)
  have hco7 : cellAt s7 other = some (.list hd S.length) := by
    rw [hold other holt]
    exact hco
  have hshO : Shape s7 other cells :=
    Shape_of_cells hco7 hsegO hheapO (fun c hc => hold c.1 (Seg_lt _ _ _ hsegO c hc))
  have hne : s.mem.length ≠ other := Nat.ne_of_gt holt
  refine ⟨s7, ?_, ⟨_, hsh⟩, ?_, GetSize_ok (sizeAt_of_cellAt hthis), hold, ⟨_, hshO⟩, ?_,
    GetSize_ok (sizeAt_of_cellAt hco7), pairwiseEq S S, ?_, pairwiseEq_self S⟩
  · unfold SingleLinkedList.copy
    have hdecl : (declareList : Exec T Nat) s
        = .ok s.mem.length (s.push (.list ⟨Indeterminate.value s.mem.length, none⟩ 0)) := rfl
    have hbegin : begin_ other (s.push (.list ⟨(Indeterminate.value s.mem.length : T), none⟩ 0))
        = .ok ⟨hd.next_node⟩ (s.push (.list ⟨Indeterminate.value s.mem.length, none⟩ 0)) := by
      apply begin_ok (n := hd)
      unfold nodeAt
      rw [hagA other holt, hco]
      rfl
    have hbody : (do
        let first ← begin_ other
        (fun s1 => Create s.mem.length iteratorOps first end_ (s1.mem.length + 1) s1) :
          Exec T Unit) (s.push (.list ⟨Indeterminate.value s.mem.length, none⟩ 0)) = .ok () s7 := by
      rw [bind_ok hbegin]
      simpa using hcreate
    rw [bind_ok hdecl, bind_ok (unwind_ok hbody)]
    rfl
  · rw [elements_of_Shape hsh, freshCells_values]
  · rw [elements_of_Shape hshO, hS2]
  · rw [operator_eq_value hsh hshO (sizeAt_of_cellAt hthis) (sizeAt_of_cellAt hco7),
      freshCells_values, hS2]
    simp [hne]

/-- An instance of C7 (amended): the copy of `[2, 3]`. -/
theorem copy_equals_original_witness :
    Valid store23 0 ∧ elements store23 0 = some [2, 3] ∧
    GetSize 0 store23 = .ok 2 store23 ∧ [2, 3].length ≤ store23.budget ∧
    ∃ s2, SingleLinkedList.copy 0 store23 = .ok 3 s2 ∧
      Valid s2 3 ∧ elements s2 3 = some [2, 3] ∧ GetSize 3 s2 = .ok 2 s2 ∧
      (∀ b, b < 3 → cellAt s2 b = cellAt store23 b) ∧
      Valid s2 0 ∧ elements s2 0 = some [2, 3] ∧ GetSize 0 s2 = .ok 2 s2 ∧
      ∃ r, operator_eq 3 0 s2 = .ok r s2 ∧ (r = true ↔ ∀ x ∈ [2, 3], (x == x) = true) :=
  ⟨⟨[(2, 2), (1, 3)], Shape_of_shapeCheck (by decide)⟩, by decide, by decide, by decide,
    copy_equals_original store23 0 [2, 3]
      ⟨[(2, 2), (1, 3)], Shape_of_shapeCheck (by decide)⟩ (by decide) (by decide)
      (by decide)⟩

/-- C7 as stated fails: the list `{nan}` is well formed with count 1, its copy
(the object at address 2) has the same element sequence, and `C == L` is
false, because `nan == nan` is false. -/
theorem copy_of_nan_list_not_equal :
    Valid storeNan 0 ∧ elements storeNan 0 = some [Num.nan] ∧
    GetSize 0 storeNan = .ok 1 storeNan ∧
    ((do
        let c ← SingleLinkedList.copy 0
        let xs ← toList c
        let k ← GetSize c
        let r ← operator_eq c 0
        pure (c, xs, k, r) : Exec Num (Nat × List Num × Nat × Bool)) storeNan).result
      = some (2, [Num.nan], 1, false) :=
  ⟨⟨[(1, Num.nan)], Shape_of_shapeCheck (by decide)⟩, by decide, by decide, by decide⟩

/-- C9: for well-formed lists `a` and `b` (the same object or two objects),
`swap(a, b)` returns and leaves `a` with the former element sequence and size
of `b`, and `b` with those of `a`; a second `swap(a, b)` returns and gives back
both, and every object of the memory is then as it was at the start. -/
theorem swap_exchanges_and_restores {T : Type} (s : Store T) (a b : Nat)
    (Sa Sb : List T) (na nb : Nat)
    (hva : Valid s a) (hvb : Valid s b)
    (hSa : elements s a = some Sa) (hSb : elements s b = some Sb)
    (hna : GetSize a s = .ok na s) (hnb : GetSize b s = .ok nb s) :
    ∃ s1 s2, swapLists a b s = .ok () s1 ∧ Valid s1 a ∧ Valid s1 b ∧
      elements s1 a = some Sb ∧ GetSize a s1 = .ok nb s1 ∧
      elements s1 b = some Sa ∧ GetSize b s1 = .ok na s1 ∧
      swapLists a b s1 = .ok () s2 ∧
      elements s2 a = some Sa ∧ GetSize a s2 = .ok na s2 ∧
      elements s2 b = some Sb ∧ GetSize b s2 = .ok nb s2 ∧
      ∀ c, cellAt s2 c = cellAt s c := by
  obtain ⟨cellsA, hshA⟩ := hva
  obtain ⟨cellsB, hshB⟩ := hvb
  have hA := Shape_elements hshA hSa
  have hB := Shape_elements hshB hSb
  obtain ⟨ha, ka, hca, hsegA, hheapA⟩ := Shape_cell hshA
  obtain ⟨hb, kb, hcb, hsegB, hheapB⟩ := Shape_cell hshB
  have hka : ka = na := by
    have := sizeAt_of_GetSize hna
    rw [sizeAt_of_cellAt hca] at this
    exact Option.some.inj this
  have hkb : kb = nb := by
    have := sizeAt_of_GetSize hnb
    rw [sizeAt_of_cellAt hcb] at this
    exact Option.some.inj this
  subst hka
  subst hkb
  obtain ⟨s1, hswap1, _, _, hcells1⟩ := swap_cells hca hcb
  have hca1 : cellAt s1 a = some (.list hb kb) := by
    rw [hcells1, if_pos rfl]
  have hcb1 : cellAt s1 b = some (.list ha ka) := by
    rw [hcells1]
    by_cases hba : b = a
    · subst hba
      rw [hca] at hcb
      cases hcb
      simp
    · simp [hba]
  have hframe1 : ∀ c, IsHeapNode s c → cellAt s1 c = cellAt s c := by
    intro c hc
    rw [hcells1, if_neg (heap_ne_list hca hc), if_neg (heap_ne_list hcb hc)]
  have hsh1a : Shape s1 a cellsB :=
    Shape_of_cells hca1 hsegB hheapB (fun c hc => hframe1 c.1 (hheapB c hc))
  have hsh1b : Shape s1 b cellsA :=
    Shape_of_cells hcb1 hsegA hheapA (fun c hc => hframe1 c.1 (hheapA c hc))
  obtain ⟨s2, hswap2, _, _, hcells2⟩ := swap_cells hca1 hcb1
  have hback : ∀ c, cellAt s2 c = cellAt s c := by
    intro c
    rw [hcells2]
    by_cases hc : c = a
    · rw [if_pos hc, hc, hca]
    · rw [if_neg hc]
      by_cases hc2 : c = b
      · rw [if_pos hc2, hc2, hcb]
      · rw [if_neg hc2, hcells1, if_neg hc, if_neg hc2]
  have hsh2a := Shape_congr hback hshA
  have hsh2b := Shape_congr hback hshB
  refine ⟨s1, s2, hswap1, ⟨_, hsh1a⟩, ⟨_, hsh1b⟩, ?_, GetSize_ok (sizeAt_of_cellAt hca1), ?_,
    GetSize_ok (sizeAt_of_cellAt hcb1), hswap2, ?_, ?_, ?_, ?_, hback⟩
  · rw [elements_of_Shape hsh1a, hB]
  · rw [elements_of_Shape hsh1b, hA]
  · rw [elements_of_Shape hsh2a, hA]
  · apply GetSize_ok
    unfold sizeAt
    rw [hback, hca]
  · rw [elements_of_Shape hsh2b, hB]
  · apply GetSize_ok
    unfold sizeAt
    rw [hback, hcb]

/-- An instance of C9: the lists `[1, 2]` at address 0 and `[7]` at address 3 are
exchanged and exchanged back. -/
theorem swap_exchanges_and_restores_witness :
    Valid storeSwap 0 ∧ Valid storeSwap 3 ∧
    elements storeSwap 0 = some [1, 2] ∧ elements storeSwap 3 = some [7] ∧
    ∃ s1 s2, swapLists 0 3 storeSwap = .ok () s1 ∧ Valid s1 0 ∧ Valid s1 3 ∧
      elements s1 0 = some [7] ∧ GetSize 0 s1 = .ok 1 s1 ∧
      elements s1 3 = some [1, 2] ∧ GetSize 3 s1 = .ok 2 s1 ∧
      swapLists 0 3 s1 = .ok () s2 ∧
      elements s2 0 = some [1, 2] ∧ GetSize 0 s2 = .ok 2 s2 ∧
      elements s2 3 = some [7] ∧ GetSize 3 s2 = .ok 1 s2 ∧
      ∀ c, cellAt s2 c = cellAt storeSwap c :=
  ⟨⟨[(1, 1), (2, 2)], Shape_of_shapeCheck (by decide)⟩,
    ⟨[(4, 7)], Shape_of_shapeCheck (by decide)⟩, by decide, by decide,
    swap_exchanges_and_restores storeSwap 0 3 [1, 2] [7] 2 1
      ⟨[(1, 1), (2, 2)], Shape_of_shapeCheck (by decide)⟩
      ⟨[(4, 7)], Shape_of_shapeCheck (by decide)⟩ (by decide) (by decide)
      (by decide) (by decide)⟩

/-- C10 (amended): on well-formed lists `a` and `b` with element sequences `Sa`,
`Sb` and sizes `na`, `nb`, `a == b` returns, and it is true exactly when `a` and
`b` are the same object, or the sizes are equal and the element sequences have
the same length with `==` true at every position; lists of different size
never compare equal; `a != b` is the negation of `a == b`; and when `x == x`
holds for every element, `a == b` is true exactly when sizes and elements
agree, also for one and the same object. -/
theorem operator_eq_iff {T : Type} [BEq T] (s : Store T) (a b : Nat) (Sa Sb : List T)
    (na nb : Nat) (hva : Valid s a) (hvb : Valid s b)
    (hSa : elements s a = some Sa) (hSb : elements s b = some Sb)
    (hna : GetSize a s = .ok na s) (hnb : GetSize b s = .ok nb s) :
    ∃ r, operator_eq a b s = .ok r s ∧ operator_ne a b s = .ok (!r) s ∧
      (r = true ↔ a = b ∨ (na = nb ∧ Sa.length = Sb.length ∧
        ∀ (i : Nat) (h1 : i < Sa.length) (h2 : i < Sb.length), (Sa[i] == Sb[i]) = true)) ∧
      (na ≠ nb → r = false) ∧
      ((∀ x ∈ Sa, (x == x) = true) →
        (r = true ↔ (na = nb ∧ Sa.length = Sb.length ∧
          ∀ (i : Nat) (h1 : i < Sa.length) (h2 : i < Sb.length), (Sa[i] == Sb[i]) = true))) := by
  obtain ⟨cellsA, hshA⟩ := hva
  obtain ⟨cellsB, hshB⟩ := hvb
  have hA := Shape_elements hshA hSa
  have hB := Shape_elements hshB hSb
  have hval := operator_eq_value hshA hshB (sizeAt_of_GetSize hna) (sizeAt_of_GetSize hnb)
  rw [hA, hB] at hval
  have hmain : (decide (a = b) || (decide (na = nb) && pairwiseEq Sa Sb)) = true ↔
      a = b ∨ (na = nb ∧ Sa.length = Sb.length ∧
        ∀ (i : Nat) (h1 : i < Sa.length) (h2 : i < Sb.length), (Sa[i] == Sb[i]) = true) := by
    rw [Bool.or_eq_true, Bool.and_eq_true, decide_eq_true_eq, decide_eq_true_eq,
      pairwiseEq_iff]
  have hsame : a = b → na = nb ∧ Sa = Sb := by
    intro hab
    subst hab
    constructor
    · have h1 := sizeAt_of_GetSize hna
      rw [sizeAt_of_GetSize hnb] at h1
      exact (Option.some.inj h1).symm
    · rw [hSa] at hSb
      exact Option.some.inj hSb
  refine ⟨_, hval, ?_, hmain, ?_, ?_⟩
  · unfold operator_ne
    rw [bind_ok hval]
    rfl
  · intro hne
    have hab : a ≠ b := fun h => hne (hsame h).1
    simp [hab, hne]
  · intro hrefl
    rw [hmain]
    constructor
    · rintro (hab | h)
      · obtain ⟨h1, h2⟩ := hsame hab
        subst h2
        exact ⟨h1, rfl, fun i h1 _ => hrefl _ (List.getElem_mem _)⟩
      · exact h
    · exact Or.inr

/-- An instance of C10 (amended): two lists `[1, 2]` at different addresses
compare equal. -/
theorem operator_eq_iff_witness :
    Valid storeTwoLists 0 ∧ Valid storeTwoLists 3 ∧
    elements storeTwoLists 0 = some [1, 2] ∧ elements storeTwoLists 3 = some [1, 2] ∧
    ∃ r, operator_eq 0 3 storeTwoLists = .ok r storeTwoLists ∧
      operator_ne 0 3 storeTwoLists = .ok (!r) storeTwoLists ∧
      (r = true ↔ 0 = 3 ∨ (2 = 2 ∧ [1, 2].length = [1, 2].length ∧
        ∀ (i : Nat) (h1 : i < [1, 2].length) (h2 : i < [1, 2].length),
          ([1, 2][i] == [1, 2][i]) = true)) ∧
      (2 ≠ 2 → r = false) ∧
      ((∀ x ∈ [1, 2], (x == x) = true) →
        (r = true ↔ (2 = 2 ∧ [1, 2].length = [1, 2].length ∧
          ∀ (i : Nat) (h1 : i < [1, 2].length) (h2 : i < [1, 2].length),
            ([1, 2][i] == [1, 2][i]) = true))) :=
  ⟨⟨[(1, 1), (2, 2)], Shape_of_shapeCheck (by decide)⟩,
    ⟨[(4, 1), (5, 2)], Shape_of_shapeCheck (by decide)⟩, by decide, by decide,
    operator_eq_iff storeTwoLists 0 3 [1, 2] [1, 2] 2 2
      ⟨[(1, 1), (2, 2)], Shape_of_shapeCheck (by decide)⟩
      ⟨[(4, 1), (5, 2)], Shape_of_shapeCheck (by decide)⟩ (by decide) (by decide)
      (by decide) (by decide)⟩

/-- C10 as stated fails: the well-formed list `{nan}` compared with itself
gives true, although its size-1 element sequence is not equal to itself
position by position under `==`. -/
theorem operator_eq_self_nan :
    Valid storeNan 0 ∧ elements storeNan 0 = some [Num.nan] ∧
    GetSize 0 storeNan = .ok 1 storeNan ∧
    operator_eq 0 0 storeNan = .ok true storeNan ∧
    ¬ (∀ (i : Nat) (h : i < [Num.nan].length), ([Num.nan][i] == [Num.nan][i]) = true) :=
  ⟨⟨[(1, Num.nan)], Shape_of_shapeCheck (by decide)⟩, by decide, by decide, by decide,
    fun h => absurd (h 0 (by decide)) (by decide)⟩

/-- C12: for well-formed lists `a` and `b` over a linearly ordered element
type, with element sequences `Sa` and `Sb`, `a < b` returns, and it is true
exactly when `Sa` lexicographically precedes `Sb`: at the first position where
they differ the element of `Sa` is the smaller one, or `Sa` is a proper prefix
of `Sb`. -/
theorem operator_lt_is_lexicographic {T : Type} [LinearOrder T] (s : Store T) (a b : Nat)
    (Sa Sb : List T) (hva : Valid s a) (hvb : Valid s b)
    (hSa : elements s a = some Sa) (hSb : elements s b = some Sb) :
    ∃ r, operator_lt a b s = .ok r s ∧ (r = true ↔ LexPrecedes Sa Sb) := by
  obtain ⟨cellsA, hshA⟩ := hva
  obtain ⟨cellsB, hshB⟩ := hvb
  have hA := Shape_elements hshA hSa
  have hB := Shape_elements hshB hSb
  have hval := operator_lt_value hshA hshB
  rw [hA, hB] at hval
  exact ⟨_, hval, lexLess_iff_LexPrecedes Sa Sb⟩

/-- The examples of C12: `{1, 2} < {1, 2, 3}` as an instance of the theorem (the
first is a proper prefix of the second), and `{1, 2} < {1, 2, 3}`,
`{1, 2} < {1, 3}`, `{2} > {1, 9, 9}` evaluated on freshly constructed lists. -/
theorem operator_lt_is_lexicographic_witness :
    Valid storeOrder 0 ∧ Valid storeOrder 3 ∧
    elements storeOrder 0 = some [1, 2] ∧ elements storeOrder 3 = some [1, 2, 3] ∧
    (∃ r, operator_lt 0 3 storeOrder = .ok r storeOrder ∧
      (r = true ↔ LexPrecedes [1, 2] [1, 2, 3])) ∧
    operator_lt 0 3 storeOrder = .ok true storeOrder ∧
    ((do
        let a ← SingleLinkedList.ofInitializerList [1, 2]
        let b ← SingleLinkedList.ofInitializerList [1, 2, 3]
        let c ← SingleLinkedList.ofInitializerList [1, 3]
        let d ← SingleLinkedList.ofInitializerList [2]
        let e ← SingleLinkedList.ofInitializerList [1, 9, 9]
        let r1 ← operator_lt a b
        let r2 ← operator_lt a c
        let r3 ← operator_gt d e
        pure (r1, r2, r3) : Exec Nat (Bool × Bool × Bool)) ⟨[], 11⟩).result
      = some (true, true, true) :=
  ⟨⟨[(1, 1), (2, 2)], Shape_of_shapeCheck (by decide)⟩,
    ⟨[(4, 1), (5, 2), (6, 3)], Shape_of_shapeCheck (by decide)⟩, by decide, by decide,
    operator_lt_is_lexicographic storeOrder 0 3 [1, 2] [1, 2, 3]
      ⟨[(1, 1), (2, 2)], Shape_of_shapeCheck (by decide)⟩
      ⟨[(4, 1), (5, 2), (6, 3)], Shape_of_shapeCheck (by decide)⟩ (by decide) (by decide),
    by decide, by decide!⟩

/-- C13: on every well-formed list `Clear()` returns; afterwards `GetSize()` is 0,
`IsEmpty()` is true, `begin()` is `end()`, the traversal yields no element, and
the list is still well formed. -/
theorem Clear_empties_the_list {T : Type} (s : Store T) (this : Nat)
    (hvalid : Valid s this) :
    ∃ s2, Clear this s = .ok () s2 ∧ Valid s2 this ∧ GetSize this s2 = .ok 0 s2 ∧
      IsEmpty this s2 = .ok true s2 ∧ begin_ this s2 = .ok end_ s2 ∧
      elements s2 this = some [] := by
  obtain ⟨cells, hsh⟩ := hvalid
  obtain ⟨s2, d, hclear, _, _, hca, _, _⟩ := Clear_spec hsh
  have hsh2 : Shape s2 this [] := Shape_empty hca
  have hsz := sizeAt_of_cellAt hca
  refine ⟨s2, hclear, ⟨_, hsh2⟩, GetSize_ok hsz, ?_, ?_, elements_of_Shape hsh2⟩
  · unfold IsEmpty
    rw [bind_ok (readSize_ok hsz)]
    rfl
  · have h := begin_ok (nodeAt_of_cellAt hca)
    exact h

/-- An instance of C13 on the list `[1, 2, 3]`. -/
theorem Clear_empties_the_list_witness :
    Valid store123 0 ∧ elements store123 0 = some [1, 2, 3] ∧
    ∃ s2, Clear 0 store123 = .ok () s2 ∧ Valid s2 0 ∧ GetSize 0 s2 = .ok 0 s2 ∧
      IsEmpty 0 s2 = .ok true s2 ∧ begin_ 0 s2 = .ok end_ s2 ∧ elements s2 0 = some [] :=
  ⟨⟨[(3, 1), (2, 2), (1, 3)], Shape_of_shapeCheck (by decide)⟩, by decide,
    Clear_empties_the_list store123 0
      ⟨[(3, 1), (2, 2), (1, 3)], Shape_of_shapeCheck (by decide)⟩⟩

/-- C14: on a well-formed list with element sequence `S` whose count equals
`|S|`, in the checked build `PopFront()` fails its assertion exactly when the
list is empty and returns otherwise; and for every position `pos` of the list
(`k` increments behind `before_begin()`, `k ≤ |S| + 1`, the last one being
`end()`), `EraseAfter(pos)` fails its assertion exactly when `pos` is `end()` or
the successor of `pos` is `end()`, which is the case exactly for `k ≥ |S|`, and
returns otherwise. -/
theorem assertions_fire_exactly_on_violations {T : Type} (s : Store T) (this : Nat)
    (S : List T) (k : Nat) (pos : BasicIterator)
    (hvalid : Valid s this) (hS : elements s this = some S)
    (hn : GetSize this s = .ok S.length s) (hk : k ≤ S.length + 1)
    (hpos : advance k (before_begin this) s = .ok pos s) :
    (PopFront this s = .assert_fail ↔ S = []) ∧
    (S ≠ [] → ∃ s2, PopFront this s = .ok () s2) ∧
    (EraseAfter this pos s = .assert_fail ↔ (pos = end_ ∨ pos.incr s = .ok end_ s)) ∧
    ((pos = end_ ∨ pos.incr s = .ok end_ s) ↔ S.length ≤ k) ∧
    (k < S.length → ∃ it s2, EraseAfter this pos s = .ok it s2) := by
  obtain ⟨cells, hsh⟩ := hvalid
  have hS2 := Shape_elements hsh hS
  have hsz := sizeAt_of_GetSize hn
  have hlen : cells.length = S.length := by
    rw [← hS2]
    simp
  have hpop : S ≠ [] → ∃ s2, PopFront this s = .ok () s2 := by
    intro hne
    have hpos0 : 0 < S.length := List.length_pos.2 hne
    obtain ⟨a, nd, b, nb, hp, hnd, hnx, hnb, hab, hheap, _, _, _, _, _⟩ :=
      @EraseAfter_at T s this S.length 0 cells (before_begin this) hsh hsz hpos0 (by omega) rfl
    have ha : this = a := Option.some.inj (congrArg BasicIterator.node_ hp)
    subst ha
    exact ⟨_, PopFront_exec hnd hnx hnb hheap hab hsz hpos0⟩
  have hpopiff : PopFront this s = .assert_fail ↔ S = [] := by
    constructor
    · intro hfail
      by_contra hne
      obtain ⟨s2, h2⟩ := hpop hne
      rw [h2] at hfail
      cases hfail
    · intro hnil
      apply PopFront_empty
      rw [hsz, hnil]
      rfl
  refine ⟨hpopiff, hpop, ?_⟩
  by_cases hk1 : k = S.length + 1
  · have hend : pos = end_ := by
      rw [hk1, ← hlen] at hpos
      exact position_end hsh hpos
    subst hend
    refine ⟨⟨fun _ => Or.inl rfl, fun _ => EraseAfter_end s this⟩,
      ⟨fun _ => by omega, fun _ => Or.inl rfl⟩, fun h => by omega⟩
  · obtain ⟨a, n, hp, hnode, hlast⟩ := position_node hsh (by omega) hpos
    have hincr : pos.incr s = .ok ⟨n.next_node⟩ s := by
      rw [hp]
      exact incr_ok hnode
    have hne_end : pos ≠ end_ := by
      rw [hp]
      intro h
      cases h
    by_cases hk2 : k = S.length
    · have hnone : n.next_node = none := hlast.2 (by omega)
      have hfail : EraseAfter this pos s = .assert_fail := by
        rw [hp]
        exact EraseAfter_last this hnode hnone
      have hsucc : pos.incr s = .ok end_ s := by
        rw [hincr, hnone]
        rfl
      refine ⟨⟨fun _ => Or.inr hsucc, fun _ => hfail⟩,
        ⟨fun _ => by omega, fun _ => Or.inr hsucc⟩, fun h => by omega⟩
    · have hklt : k < S.length := by omega
      have hsome : n.next_node ≠ none := fun h => hk2 (by rw [← hlen]; exact hlast.1 h)
      obtain ⟨_, _, _, _, _, _, _, _, _, _, _, hexec, _⟩ :=
        EraseAfter_at hsh hsz (by omega) (by omega) hpos
      have hnot : ¬ (pos = end_ ∨ pos.incr s = .ok end_ s) := by
        rintro (h | h)
        · exact hne_end h
        · rw [hincr] at h
          have := (ok_inj h).1
          exact hsome (congrArg BasicIterator.node_ this)
      refine ⟨⟨fun h => ?_, fun h => absurd h hnot⟩,
        ⟨fun h => absurd h hnot, fun h => by omega⟩, fun _ => ⟨_, _, hexec⟩⟩
      rw [hexec] at h
      cases h

/-- An instance of C14 on the list `[2, 3]` at its last element (the node at
address 1, two increments behind `before_begin()`): `PopFront()` returns and
`EraseAfter` fails its assertion. -/
theorem assertions_fire_exactly_on_violations_witness :
    Valid store23 0 ∧ elements store23 0 = some [2, 3] ∧
    GetSize 0 store23 = .ok 2 store23 ∧
    advance 2 (before_begin 0) store23 = .ok ⟨some 1⟩ store23 ∧
    (PopFront 0 store23 = .assert_fail ↔ [2, 3] = []) ∧
    ([2, 3] ≠ [] → ∃ s2, PopFront 0 store23 = .ok () s2) ∧
    (EraseAfter 0 ⟨some 1⟩ store23 = .assert_fail ↔
      ((⟨some 1⟩ : BasicIterator) = end_ ∨
        BasicIterator.incr ⟨some 1⟩ store23 = .ok end_ store23)) ∧
    (((⟨some 1⟩ : BasicIterator) = end_ ∨
        BasicIterator.incr ⟨some 1⟩ store23 = .ok end_ store23) ↔ [2, 3].length ≤ 2) ∧
    (2 < [2, 3].length → ∃ it s2, EraseAfter 0 ⟨some 1⟩ store23 = .ok it s2) :=
  ⟨⟨[(2, 2), (1, 3)], Shape_of_shapeCheck (by decide)⟩, by decide, by decide, by decide,
    assertions_fire_exactly_on_violations store23 0 [2, 3] 2 ⟨some 1⟩
      ⟨[(2, 2), (1, 3)], Shape_of_shapeCheck (by decide)⟩ (by decide) (by decide)
      (by decide) (by decide)⟩

/-- C15 (amended): in the checked build, `operator*` and `operator->` on the
`end()` position fail their assertion in every memory; on the `before_begin()`
position of a list object the assertion (which only asks for a non-null
`node_`) passes, whatever the sentinel holds: `operator*` yields the `value`
member of the sentinel `head_` and `operator->` its address. -/
theorem deref_end_aborts_before_begin_returns {T : Type} (s : Store T) (this sz : Nat)
    (h : Node T) (hlist : cellAt s this = some (.list h sz)) :
    (end_.deref s : Outcome (Store T) T) = .assert_fail ∧
    (end_.arrow s : Outcome (Store T) Nat) = .assert_fail ∧
    (before_begin this).deref s = .ok h.value s ∧
    (before_begin this).arrow s = .ok this s := by
  refine ⟨rfl, rfl, ?_, ?_⟩
  · exact deref_ok (nodeAt_of_cellAt hlist)
  · unfold BasicIterator.arrow before_begin
    simp only [Option.isSome_some]
    rw [bind_ok (assert_ok s rfl)]
    rfl

/-- An instance of C15 (amended) on the list `[2, 3]`, with `h` the sentinel of
the list. -/
theorem deref_end_aborts_before_begin_returns_witness :
    ∃ h sz, cellAt store23 0 = some (.list h sz) ∧
      (end_.deref store23 : Outcome (Store Nat) Nat) = .assert_fail ∧
      (end_.arrow store23 : Outcome (Store Nat) Nat) = .assert_fail ∧
      (before_begin 0).deref store23 = .ok h.value store23 ∧
      (before_begin 0).arrow store23 = .ok 0 store23 :=
  ⟨⟨62912, some 2⟩, 2, by decide,
    deref_end_aborts_before_begin_returns store23 0 2 ⟨62912, some 2⟩ (by decide)⟩

/-- C15 as stated fails: on the list `[2, 3]`, `operator*` and `operator->` at
`before_begin()` do not fail the assertion; each returns, in the memory it was
called in. -/
theorem deref_before_begin_does_not_abort :
    (before_begin 0).deref store23 ≠ .assert_fail ∧
    (before_begin 0).arrow store23 ≠ .assert_fail ∧
    (∃ v, (before_begin 0).deref store23 = .ok v store23) ∧
    (before_begin 0).arrow store23 = .ok 0 store23 :=
  ⟨by decide, by decide, ⟨62912, by decide⟩, by decide⟩

/-- C16: when the allocation of the new node fails (no allocation succeeds any
more), `InsertAfter(pos, v)` at any position other than `end()` of a
well-formed list and `PushFront(v)` both leave by `std::bad_alloc`, and the
memory at that moment is the memory before the call: every object, link and
count is unchanged. -/
theorem insertion_alloc_failure {T : Type} (s : Store T) (this : Nat) (S : List T)
    (k : Nat) (pos : BasicIterator) (v : T)
    (hvalid : Valid s this) (hS : elements s this = some S) (hk : k ≤ S.length)
    (hpos : advance k (before_begin this) s = .ok pos s) (hb : s.budget = 0) :
    InsertAfter this pos v s = .bad_alloc s ∧ PushFront this v s = .bad_alloc s := by
  obtain ⟨cells, hsh⟩ := hvalid
  have hS2 := Shape_elements hsh hS
  obtain ⟨d, sz, _, hC, _⟩ := hsh
  have hk2 : k < ((this, d) :: cells).length := by
    rw [← hS2] at hk
    simp at hk ⊢
    omega
  obtain ⟨pre, a, va, post, hsplit, hp, _, _, _⟩ := advance_split hC hk2 hpos
  have hC2 := hC
  rw [hsplit] at hC2
  obtain ⟨m, _, _, nx, hn, _⟩ := (Seg_append pre ((a, va) :: post) (some this) none).1 hC2
  obtain ⟨_, nx0, hn0, _⟩ := hC
  have hnew : ∀ (w : T) (q : Option Nat), newNode w q s = .bad_alloc s := by
    intro w q
    unfold newNode
    rw [if_pos hb]
  constructor
  · rw [hp]
    unfold InsertAfter
    simp only [Option.isSome_some]
    rw [bind_ok (assert_ok s rfl), bind_ok (readNode_ok hn)]
    show Exec.bind (newNode v _) _ s = _
    unfold Exec.bind
    rw [hnew]
  · unfold PushFront
    rw [bind_ok (readNode_ok hn0)]
    show Exec.bind (newNode v _) _ s = _
    unfold Exec.bind
    rw [hnew]

/-- An instance of C16: on `[2, 3]` with no allocation left, inserting behind
the first element and pushing to the front both leave by `std::bad_alloc` with
the memory unchanged. -/
theorem insertion_alloc_failure_witness :
    Valid { store23 with budget := 0 } 0 ∧
    elements { store23 with budget := 0 } 0 = some [2, 3] ∧
    advance 1 (before_begin 0) { store23 with budget := 0 }
      = .ok ⟨some 2⟩ { store23 with budget := 0 } ∧
    InsertAfter 0 ⟨some 2⟩ 9 { store23 with budget := 0 }
      = .bad_alloc { store23 with budget := 0 } ∧
    PushFront 0 9 { store23 with budget := 0 } = .bad_alloc { store23 with budget := 0 } :=
  ⟨⟨[(2, 2), (1, 3)], Shape_of_shapeCheck (by decide)⟩, by decide, by decide,
    insertion_alloc_failure { store23 with budget := 0 } 0 [2, 3] 1 ⟨some 2⟩ 9
      ⟨[(2, 2), (1, 3)], Shape_of_shapeCheck (by decide)⟩ (by decide) (by decide)
      (by decide) rfl⟩

/-- C17: in every memory that a program reaches from no object by constructing
lists (by default, from a sequence, by copy) and by calls of `PushFront`,
`PopFront`, `InsertAfter`, `EraseAfter`, `Clear` and `swap` that return or leave
with `std::bad_alloc`, the count `n` that `GetSize()` returns for a list object
is the number of nodes that follow the sentinel on its `next_node` chain: the
chain consists of `n` heap nodes behind the sentinel and ends in `nullptr`,
every position up to `n` increments behind `before_begin()` is a node, one more
increment gives `end()`, and a traversal meets `n` values.  (The copy assignment
cannot be instantiated and gives no step.) -/
theorem count_invariant {T : Type} [Indeterminate T] (s : Store T) (a n : Nat)
    (hreach : Reachable s) (hsize : GetSize a s = .ok n s) :
    ∃ cells, Shape s a cells ∧ cells.length = n ∧
      elements s a = some (cells.map Prod.snd) ∧
      (∀ j, j ≤ n → ∃ p, advance j (before_begin a) s = .ok ⟨some p⟩ s) ∧
      advance (n + 1) (before_begin a) s = .ok end_ s := by
  have hsz := sizeAt_of_GetSize hsize
  obtain ⟨cells, hsh, hcount⟩ := (Reachable_wellFormed hreach).1 a (by rw [hsz]; rfl)
  have hlen : cells.length = n := by
    rw [hsz] at hcount
    exact (Option.some.inj hcount).symm
  obtain ⟨d, sz, _, hC, _⟩ := id hsh
  refine ⟨cells, hsh, hlen, elements_of_Shape hsh, ?_, ?_⟩
  · intro j hj
    obtain ⟨x, _, hadv⟩ := advance_index ((a, d) :: cells) (some a) j hC
      (by simp only [List.length_cons]; omega)
    exact ⟨x.1, hadv⟩
  · have h := advance_of_Seg _ _ _ hC
    simp only [List.length_cons, hlen] at h
    exact h

/-- An instance of C17 on the list `[2, 3]`, reached by the default constructor
and two calls of `PushFront`. -/
theorem count_invariant_witness :
    Reachable store23 ∧ GetSize 0 store23 = .ok 2 store23 ∧
    ∃ cells, Shape store23 0 cells ∧ cells.length = 2 ∧
      elements store23 0 = some (cells.map Prod.snd) ∧
      (∀ j, j ≤ 2 → ∃ p, advance j (before_begin 0) store23 = .ok ⟨some p⟩ store23) ∧
      advance (2 + 1) (before_begin 0) store23 = .ok end_ store23 :=
  ⟨store23_reachable, rfl, count_invariant store23 0 2 store23_reachable rfl⟩

/-- C18: in every memory that a program reaches, the chain of a list object
with count `n` has no cycle and ends in `nullptr`, so that a forward traversal
terminates: `n` increments from `begin()` reach `end()` and every smaller
number of increments reaches a node, not `end()`; incrementing `before_begin()`
gives `begin()`; incrementing the position `n` increments behind
`before_begin()` (the last element of a list that is not empty) gives `end()`;
the sentinel and the `n` nodes are pairwise different; and the traversal from
`begin()` to `end()` returns with `n` values. -/
theorem traversal_reaches_end {T : Type} [Indeterminate T] (s : Store T) (a n : Nat)
    (hreach : Reachable s) (hsize : GetSize a s = .ok n s) :
    ∃ first, begin_ a s = .ok first s ∧
      advance n first s = .ok end_ s ∧
      (∀ j, j < n → ∃ p, advance j first s = .ok ⟨some p⟩ s) ∧
      (before_begin a).incr s = .ok first s ∧
      (∃ last, advance n (before_begin a) s = .ok last s ∧ last.incr s = .ok end_ s) ∧
      (∀ i j pos, i ≤ n → j ≤ n → advance i (before_begin a) s = .ok pos s →
        advance j (before_begin a) s = .ok pos s → i = j) ∧
      ∃ S, toList a s = .ok S s ∧ S.length = n := by
  have hsz := sizeAt_of_GetSize hsize
  obtain ⟨cells, hsh, hcount⟩ := (Reachable_wellFormed hreach).1 a (by rw [hsz]; rfl)
  have hlen : cells.length = n := by
    rw [hsz] at hcount
    exact (Option.some.inj hcount).symm
  obtain ⟨d, sz, _, hC, _⟩ := id hsh
  obtain ⟨_, nx, hn, hrest⟩ := id hC
  refine ⟨⟨nx⟩, begin_ok hn, ?_, ?_, incr_ok hn, ?_, ?_, ?_⟩
  · have h := advance_of_Seg _ _ _ hrest
    rw [hlen] at h
    exact h
  · intro j hj
    obtain ⟨x, _, hadv⟩ := advance_index cells nx j hrest (by omega)
    exact ⟨x.1, hadv⟩
  · obtain ⟨x, _, hadv⟩ := advance_index ((a, d) :: cells) (some a) n hC
      (by simp only [List.length_cons]; omega)
    have hadv2 : advance n (before_begin a) s = .ok ⟨some x.1⟩ s := hadv
    obtain ⟨a1, n1, hp1, hn1, hlast⟩ := position_node hsh (Nat.le_of_eq hlen.symm) hadv2
    refine ⟨⟨some x.1⟩, hadv2, ?_⟩
    rw [hp1]
    have hinc := incr_ok hn1
    rw [hlast.2 hlen.symm] at hinc
    exact hinc
  · intro i j pos hi hj h1 h2
    exact advance_distinct hC (by simp only [List.length_cons]; omega)
      (by simp only [List.length_cons]; omega) h1 h2
  · refine ⟨cells.map Prod.snd, ?_, by rw [List.length_map, hlen]⟩
    unfold toList
    rw [bind_ok (begin_ok hn)]
    exact traverse_of_Seg cells nx _ hrest
      (by have := Seg_length_le cells nx hrest; omega)

/-- An instance of C18 on the list `[1, 2, 3]`, reached by the default
constructor and three calls of `PushFront`. -/
theorem traversal_reaches_end_witness :
    Reachable store123 ∧ GetSize 0 store123 = .ok 3 store123 ∧
    ∃ first, begin_ 0 store123 = .ok first store123 ∧
      advance 3 first store123 = .ok end_ store123 ∧
      (∀ j, j < 3 → ∃ p, advance j first store123 = .ok ⟨some p⟩ store123) ∧
      (before_begin 0).incr store123 = .ok first store123 ∧
      (∃ last, advance 3 (before_begin 0) store123 = .ok last store123 ∧
        last.incr store123 = .ok end_ store123) ∧
      (∀ i j pos, i ≤ 3 → j ≤ 3 → advance i (before_begin 0) store123 = .ok pos store123 →
        advance j (before_begin 0) store123 = .ok pos store123 → i = j) ∧
      ∃ S, toList 0 store123 = .ok S store123 ∧ S.length = 3 :=
  ⟨store123_reachable, rfl, traversal_reaches_end store123 0 3 store123_reachable rfl⟩

/-- C19: for well-formed lists `a` and `b` whose counts equal their lengths, over
a linearly ordered element type whose `==` is equality, all five comparisons
return, `a > b` is `b < a`, `a <= b` holds exactly when `a < b` or `a == b`,
`a >= b` holds exactly when `a > b` or `a == b`, and exactly one of `a < b`,
`a == b`, `a > b` holds. -/
theorem comparison_operators_consistent {T : Type} [LinearOrder T] [BEq T] [LawfulBEq T]
    (s : Store T) (a b : Nat) (Sa Sb : List T)
    (hva : Valid s a) (hvb : Valid s b)
    (hSa : elements s a = some Sa) (hSb : elements s b = some Sb)
    (hna : GetSize a s = .ok Sa.length s) (hnb : GetSize b s = .ok Sb.length s) :
    ∃ lt eq gt le ge : Bool,
      operator_lt a b s = .ok lt s ∧ operator_eq a b s = .ok eq s ∧
      operator_gt a b s = .ok gt s ∧ operator_le a b s = .ok le s ∧
      operator_ge a b s = .ok ge s ∧ operator_lt b a s = .ok gt s ∧
      (le = true ↔ lt = true ∨ eq = true) ∧ (ge = true ↔ gt = true ∨ eq = true) ∧
      ((lt = true ∧ eq = false ∧ gt = false) ∨ (lt = false ∧ eq = true ∧ gt = false) ∨
        (lt = false ∧ eq = false ∧ gt = true)) := by
  obtain ⟨cellsA, hshA⟩ := hva
  obtain ⟨cellsB, hshB⟩ := hvb
  have hA := Shape_elements hshA hSa
  have hB := Shape_elements hshB hSb
  have hlt := operator_lt_value hshA hshB
  have hgt := operator_lt_value hshB hshA
  have heq := operator_eq_value hshA hshB (sizeAt_of_GetSize hna) (sizeAt_of_GetSize hnb)
  rw [hA, hB] at hlt heq
  rw [hA, hB] at hgt
  have hsame : a = b → Sa = Sb := by
    intro hab
    subst hab
    rw [hSa] at hSb
    exact Option.some.inj hSb
  have heqv : (decide (a = b) || (decide (Sa.length = Sb.length) && pairwiseEq Sa Sb)) = true
      ↔ Sa = Sb := by
    rw [Bool.or_eq_true, Bool.and_eq_true, decide_eq_true_eq, decide_eq_true_eq, pairwiseEq_eq]
    constructor
    · rintro (h | h)
      · exact hsame h
      · exact h.2
    · intro h
      exact Or.inr ⟨by rw [h], h⟩
  have hle : operator_le a b s = .ok (!(lexLess Sb Sa)) s := by
    unfold operator_le operator_gt
    rw [bind_ok hgt]
    rfl
  have hge : operator_ge a b s = .ok (!(lexLess Sa Sb)) s := by
    unfold operator_ge
    rw [bind_ok hlt]
    rfl
  refine ⟨_, _, _, _, _, hlt, heq, hgt, hle, hge, hgt, ?_, ?_, ?_⟩
  · rw [heqv]
    cases h1 : lexLess Sb Sa with
    | true =>
      have h2 := lexLess_asymm _ _ h1
      rw [h2]
      constructor
      · intro h
        cases h
      · rintro (h | h)
        · cases h
        · rw [h, lexLess_irrefl] at h1
          cases h1
    | false =>
      refine ⟨fun _ => ?_, fun _ => rfl⟩
      cases h2 : lexLess Sa Sb with
      | true => exact Or.inl rfl
      | false => exact Or.inr (lexLess_total _ _ h2 h1)
  · rw [heqv]
    cases h1 : lexLess Sa Sb with
    | true =>
      have h2 := lexLess_asymm _ _ h1
      rw [h2]
      constructor
      · intro h
        cases h
      · rintro (h | h)
        · cases h
        · rw [h, lexLess_irrefl] at h1
          cases h1
    | false =>
      refine ⟨fun _ => ?_, fun _ => rfl⟩
      cases h2 : lexLess Sb Sa with
      | true => exact Or.inl rfl
      | false => exact Or.inr (lexLess_total _ _ h1 h2)
  · cases h1 : lexLess Sa Sb with
    | true =>
      have h2 := lexLess_asymm _ _ h1
      left
      refine ⟨rfl, ?_, h2⟩
      rw [← Bool.not_eq_true, heqv]
      intro h
      rw [h, lexLess_irrefl] at h1
      cases h1
    | false =>
      cases h2 : lexLess Sb Sa with
      | true =>
        right
        right
        refine ⟨rfl, ?_, rfl⟩
        rw [← Bool.not_eq_true, heqv]
        intro h
        rw [h, lexLess_irrefl] at h2
        cases h2
      | false =>
        right
        left
        exact ⟨rfl, heqv.2 (lexLess_total _ _ h1 h2), rfl⟩

/-- An instance of C19: `[1, 2]` against `[1, 2, 3]`. -/
theorem comparison_operators_consistent_witness :
    Valid storeOrder 0 ∧ Valid storeOrder 3 ∧
    GetSize 0 storeOrder = .ok 2 storeOrder ∧ GetSize 3 storeOrder = .ok 3 storeOrder ∧
    ∃ lt eq gt le ge : Bool,
      operator_lt 0 3 storeOrder = .ok lt storeOrder ∧
      operator_eq 0 3 storeOrder = .ok eq storeOrder ∧
      operator_gt 0 3 storeOrder = .ok gt storeOrder ∧
      operator_le 0 3 storeOrder = .ok le storeOrder ∧
      operator_ge 0 3 storeOrder = .ok ge storeOrder ∧
      operator_lt 3 0 storeOrder = .ok gt storeOrder ∧
      (le = true ↔ lt = true ∨ eq = true) ∧ (ge = true ↔ gt = true ∨ eq = true) ∧
      ((lt = true ∧ eq = false ∧ gt = false) ∨ (lt = false ∧ eq = true ∧ gt = false) ∨
        (lt = false ∧ eq = false ∧ gt = true)) :=
  ⟨⟨[(1, 1), (2, 2)], Shape_of_shapeCheck (by decide)⟩,
    ⟨[(4, 1), (5, 2), (6, 3)], Shape_of_shapeCheck (by decide)⟩, by decide, by decide,
    comparison_operators_consistent storeOrder 0 3 [1, 2] [1, 2, 3]
      ⟨[(1, 1), (2, 2)], Shape_of_shapeCheck (by decide)⟩
      ⟨[(4, 1), (5, 2), (6, 3)], Shape_of_shapeCheck (by decide)⟩ (by decide) (by decide)
      (by decide) (by decide)⟩

/-- C20: for every list, empty or not, and in every memory, `PushFront(v)` ends
exactly as `InsertAfter(before_begin(), v)` does, with the same memory and hence
the same element sequence and size; and on a well-formed, non-empty list whose
count equals its length `PopFront()` and `EraseAfter(before_begin())` both
return and leave the same memory, with the first element removed and the size
lowered by one. -/
theorem front_operations_are_sentinel_cases {T : Type} (s : Store T) (this : Nat)
    (S : List T) (v : T) :
    PushFront this v s = (InsertAfter this (before_begin this) v >>= fun _ => pure ()) s ∧
    (Valid s this → elements s this = some S → S ≠ [] → GetSize this s = .ok S.length s →
      ∃ it s2, PopFront this s = .ok () s2 ∧
        EraseAfter this (before_begin this) s = .ok it s2 ∧
        elements s2 this = some S.tail ∧ GetSize this s2 = .ok (S.length - 1) s2) := by
  constructor
  · unfold PushFront InsertAfter before_begin
    simp only [Option.isSome_some, assert_true, exec_bind_assoc, exec_pure_bind,
      exec_bind_pure_unit]
  · intro hvalid hS hne hn
    obtain ⟨cells, hsh⟩ := hvalid
    have hS2 := Shape_elements hsh hS
    have hsz := sizeAt_of_GetSize hn
    have hlen : cells.length = S.length := by
      rw [← hS2]
      simp
    have hpos : 0 < S.length := List.length_pos.2 hne
    obtain ⟨a, nd, b, nb, hp, hnd, hnx, hnb, hab, hheap, _, hexec, hsh2, hsz2, _⟩ :=
      @EraseAfter_at T s this S.length 0 cells (before_begin this) hsh hsz hpos (by omega) rfl
    have ha : this = a := Option.some.inj (congrArg BasicIterator.node_ hp)
    subst ha
    refine ⟨_, _, PopFront_exec hnd hnx hnb hheap hab hsz hpos, hexec, ?_, GetSize_ok hsz2⟩
    rw [elements_of_Shape hsh2, ← hS2]
    cases cells <;> simp

/-- An instance of C20 on the list `[1, 2, 3]`, and the `PushFront` half on an
empty list. -/
theorem front_operations_are_sentinel_cases_witness :
    Valid store123 0 ∧ elements store123 0 = some [1, 2, 3] ∧
    GetSize 0 store123 = .ok 3 store123 ∧
    PushFront 0 9 store123
      = (InsertAfter 0 (before_begin 0) 9 >>= fun _ => pure ()) store123 ∧
    (∃ it s2, PopFront 0 store123 = .ok () s2 ∧
      EraseAfter 0 (before_begin 0) store123 = .ok it s2 ∧
      elements s2 0 = some [2, 3] ∧ GetSize 0 s2 = .ok 2 s2) ∧
    elements storeEmpty 0 = some [] ∧
    PushFront 0 9 storeEmpty
      = (InsertAfter 0 (before_begin 0) 9 >>= fun _ => pure ()) storeEmpty :=
  ⟨⟨[(3, 1), (2, 2), (1, 3)], Shape_of_shapeCheck (by decide)⟩, by decide, by decide,
    (front_operations_are_sentinel_cases store123 0 [1, 2, 3] 9).1,
    (front_operations_are_sentinel_cases store123 0 [1, 2, 3] 9).2
      ⟨[(3, 1), (2, 2), (1, 3)], Shape_of_shapeCheck (by decide)⟩ (by decide) (by decide)
      (by decide),
    by decide, (front_operations_are_sentinel_cases storeEmpty 0 [] 9).1⟩

end SLL
